import Mathlib

/-!
# NGdbg symbol tables (`symbols.cpp`)

A shallow embedding of the symbol-table routines of the NGdbg kernel debugger,
and theorems about them.

* Machine words (`ULONG`, pointers, `NTSTATUS`) are natural numbers; 32-bit
  arithmetic is written with an explicit `% ULONG_MOD`.
* The mapped `.sym` file is the list of its bytes; a record pointer is the byte
  index of the record inside the mapping.  A read outside the mapping is a
  `Run.fault`.
* A caller-supplied output buffer is a write map (`Buffer`): entry `i` is
  `some b` when the routine stored byte `b` at index `i`, `none` when index `i`
  was never stored to.  A routine that stores nothing hands back the write map
  it was given.
* The intrusive list of loaded tables is kept at pointer level: a memory of
  `LIST_ENTRY` cells indexed by address, and a pool of the `MOD_SYM` objects
  that are allocated.  Reading a `MOD_SYM` that is not allocated (null, or
  freed) is a `Run.fault`.
* A local variable that the source reads without initialising it is a parameter
  of the embedded routine (its indeterminate initial value): `Status0`.
* Loops over the list of tables take a step budget (`fuel`); the loops over the
  records of one mapping start with a budget that is proved sufficient.
* The fast mutex is not modelled: the routines are run one at a time.
* The status codes, the list primitives of the WDK (`InitializeListHead`,
  `InsertTailList`, `RemoveEntryList`) and the C runtime calls (`strcpy`,
  `strcat`, `strncpy`, `_strnicmp`, `tolower`, `wcsrchr`,
  `RtlStringCchPrintfA`) are embedded after their documented behaviour.
-/

namespace NGdbg

/-! ## Machine words, status codes -/

/-- Number of values of a `ULONG` (2^32). -/
def ULONG_MOD : Nat := 4294967296

/-- The null pointer. -/
def NULL : Nat := 0

def STATUS_SUCCESS : Nat := 0x00000000
def STATUS_BUFFER_OVERFLOW : Nat := 0x80000005
def STATUS_UNSUCCESSFUL : Nat := 0xC0000001
def STATUS_INSUFFICIENT_RESOURCES : Nat := 0xC000009A
def STATUS_NOT_FOUND : Nat := 0xC0000225
def STATUS_INVALID_PARAMETER : Nat := 0xC000000D

/-- The `NT_SUCCESS` test: the status, read as a signed 32-bit value, is not negative. -/
def NT_SUCCESS (Status : Nat) : Bool := decide (Status < 0x80000000)

/-- Sum of two `ULONG` values. -/
def addULONG (a b : Nat) : Nat := (a + b) % ULONG_MOD

/-- Difference of two `ULONG` values, wrapping around below zero. -/
def subULONG (a b : Nat) : Nat := (a % ULONG_MOD + (ULONG_MOD - b % ULONG_MOD)) % ULONG_MOD

/-- The value of `FIELD_OFFSET (SYMINFO, SymName)`: two `ULONG` fields precede the name. -/
def SymNameOffset : Nat := 8

/-- Outcome of running a routine of the embedding. -/
inductive Run (α : Type) where
  /-- The routine returned. -/
  | done (a : α)
  /-- The routine touched memory it must not touch (null or freed object, or a
  read outside the mapped file). -/
  | fault
  /-- The step budget given to the routine ran out before it returned. -/
  | outOfFuel
deriving DecidableEq, Repr

/-! ## Bytes of the mapped symbol file -/

/-- Little-endian bytes of a `ULONG`. -/
def le32 (n : Nat) : List Nat :=
  [n % 256, n / 256 % 256, n / 65536 % 256, n / 16777216 % 256]

/-- Read the `ULONG` stored at byte index `i` of the mapping `m`. -/
def readULONG (m : List Nat) (i : Nat) : Option Nat :=
  match m.drop i with
  | b0 :: b1 :: b2 :: b3 :: _ => some (b0 + 256 * b1 + 65536 * b2 + 16777216 * b3)
  | _ => none

/-- Bytes of a NUL-terminated string held in a byte array (the NUL excluded). -/
def cstr (s : List Nat) : List Nat := s.takeWhile (fun b => b != 0)

/-- Read the NUL-terminated string that starts at byte index `i` of the mapping
`m`: `none` when no NUL byte follows inside the mapping. -/
def cstrAt (m : List Nat) (i : Nat) : Option (List Nat) :=
  if (m.drop i).contains 0 then some (cstr (m.drop i)) else none

/-- The function `tolower` on a byte (the "C" locale). -/
def tolower (c : Nat) : Nat := if 65 ≤ c ∧ c ≤ 90 then c + 32 else c

/-- Whether `_strnicmp (first, last, count)` is zero, `first` being the bytes
of the mapping from the start of the stored name on and `last` a NUL-terminated
string given by its bytes: characters are compared lower-cased, pair by pair,
until `count` pairs were equal, or an equal pair is the NUL, or a pair differs.
`none` when the comparison reads outside the mapping. -/
def strnicmpZero : List Nat → List Nat → Nat → Option Bool
  | [], _, count => if count = 0 then some true else none
  | c :: first, last, count =>
    if count = 0 then some true
    else
      let f := tolower c
      let l := tolower (last.headD 0)
      if f = l then
        if f = 0 then some true else strnicmpZero first last.tail (count - 1)
      else some false

/-! ## Output buffers -/

/-- Write map of an output buffer. -/
abbrev Buffer := List (Option Nat)

/-- Store the bytes `bs` at indices `i, i+1, ...` of the buffer. -/
def writeBytes (buf : Buffer) (i : Nat) (bs : List Nat) : Buffer :=
  buf.take i ++ List.replicate (i - buf.length) none ++ bs.map some ++ buf.drop (i + bs.length)

/-- Length of the string in the buffer: the index of the first stored NUL. -/
def strlenBuf (buf : Buffer) : Nat := (buf.takeWhile (fun c => c != some 0)).length

/-- The call `strcpy (dst, src)`: the string and its terminator are stored from index 0. -/
def strcpy (dst : Buffer) (src : List Nat) : Buffer := writeBytes dst 0 (src ++ [0])

/-- The call `strcat (dst, src)`: the string and its terminator are stored from the
index of the terminator of the string already in `dst`. -/
def strcat (dst : Buffer) (src : List Nat) : Buffer := writeBytes dst (strlenBuf dst) (src ++ [0])

/-- The string a reader finds in the buffer afterwards: the stored bytes up to
the first stored NUL; `none` when an index that was never stored to comes first. -/
def bufString : Buffer → Option (List Nat)
  | [] => none
  | none :: _ => none
  | some b :: rest => if b = 0 then some [] else (bufString rest).map (fun s => b :: s)

/-- Indices of the buffer the routine stored to. -/
def writtenAt (buf : Buffer) (i : Nat) : Bool := (buf.getD i none).isSome

/-- Bytes of a text literal. -/
def bytesOf (s : String) : List Nat := s.toList.map Char.toNat

/-! ## Data structures of `symbols.cpp` -/

/-- A loaded symbol table (`MOD_SYM`, the list entry apart: it lives in the
list memory of `SymState`). -/
structure MOD_SYM where
  /-- The field `CHAR ModName[32]`. -/
  ModName : List Nat
  /-- Bytes of the mapped `.sym` file (`PLOADED_SYMBOLS LoadedSymbols`). -/
  LoadedSymbols : List Nat
  ImageBase : Nat
  Mdl : Nat
  iMappedSymbols : Nat
deriving DecidableEq, Repr

/-- What a lookup by address hands back: the returned status, the bytes stored
through `Symbol`, and the value of `*SymLen` on return. -/
structure SymbolResult where
  Status : Nat
  Symbol : Buffer
  SymLen : Nat
deriving DecidableEq, Repr

/-- The record walk of `SymGetSymbolByAddress`, `pSym` being the byte index of
the current record. -/
def SymGetSymbolByAddress.walk (Sym : MOD_SYM) (Offset : Nat) (Symbol : Buffer) (SymLen : Nat) :
    Nat → Nat → Run SymbolResult
  | 0, _ => Run.outOfFuel
  | fuel + 1, pSym =>
    match readULONG Sym.LoadedSymbols pSym with
    | none => Run.fault
    | some NextEntryDelta =>
      if NextEntryDelta = 0 then Run.done ⟨STATUS_NOT_FOUND, Symbol, SymLen⟩
      else
        match readULONG Sym.LoadedSymbols (pSym + 4) with
        | none => Run.fault
        | some SymOffset =>
          if SymOffset = Offset then
            let len := ((cstr Sym.ModName).length + 1 + NextEntryDelta +
              (ULONG_MOD - SymNameOffset)) % ULONG_MOD
            if SymLen < len then Run.done ⟨STATUS_BUFFER_OVERFLOW, Symbol, SymLen⟩
            else
              match cstrAt Sym.LoadedSymbols (pSym + SymNameOffset) with
              | none => Run.fault
              | some SymName =>
                let s1 := strcpy Symbol (cstr Sym.ModName)
                let s2 := strcat s1 (bytesOf "!")
                let s3 := strcat s2 SymName
                let s4 := writeBytes s3 len [0]
                Run.done ⟨STATUS_SUCCESS, s4, (len + 1) % ULONG_MOD⟩
          else SymGetSymbolByAddress.walk Sym Offset Symbol SymLen fuel (pSym + NextEntryDelta)

/-- The routine `SymGetSymbolByAddress (Sym, Address, Symbol, SymLen)`.  Every step of the
walk moves forward inside the mapping, so the length of the mapping bounds the
number of steps. -/
def SymGetSymbolByAddress (Sym : MOD_SYM) (Address : Nat) (Symbol : Buffer) (SymLen : Nat) :
    Run SymbolResult :=
  SymGetSymbolByAddress.walk Sym (subULONG Address Sym.ImageBase)
    Symbol SymLen (Sym.LoadedSymbols.length + 1) 4

/-- What a lookup by name hands back: the returned status and the value stored
through `SymAddr` (`none`: nothing was stored). -/
structure NameResult where
  Status : Nat
  SymAddr : Option Nat
deriving DecidableEq, Repr

/-- The record walk of `SymGetSymbolByName`. -/
def SymGetSymbolByName.walk (Sym : MOD_SYM) (Symbol : List Nat) (SymAddr : Option Nat) :
    Nat → Nat → Run NameResult
  | 0, _ => Run.outOfFuel
  | fuel + 1, pSym =>
    match readULONG Sym.LoadedSymbols pSym with
    | none => Run.fault
    | some NextEntryDelta =>
      if NextEntryDelta = 0 then Run.done ⟨STATUS_NOT_FOUND, SymAddr⟩
      else
        match strnicmpZero (Sym.LoadedSymbols.drop (pSym + SymNameOffset)) Symbol
            ((NextEntryDelta + (ULONG_MOD - SymNameOffset)) % ULONG_MOD) with
        | none => Run.fault
        | some true =>
          match readULONG Sym.LoadedSymbols (pSym + 4) with
          | none => Run.fault
          | some SymOffset => Run.done ⟨STATUS_SUCCESS, some (addULONG Sym.ImageBase SymOffset)⟩
        | some false => SymGetSymbolByName.walk Sym Symbol SymAddr fuel (pSym + NextEntryDelta)

/-- The routine `SymGetSymbolByName (Sym, Symbol, SymAddr)`; `Symbol` is the queried name
without its terminator. -/
def SymGetSymbolByName (Sym : MOD_SYM) (Symbol : List Nat) (SymAddr : Option Nat) :
    Run NameResult :=
  SymGetSymbolByName.walk Sym Symbol SymAddr (Sym.LoadedSymbols.length + 1) 4

/-! ## The list of loaded tables -/

/-- One cell of a doubly linked list. -/
structure LIST_ENTRY where
  Flink : Nat
  Blink : Nat
deriving DecidableEq, Repr

/-- Calls into the collaborators that acquire or release a resource. -/
inductive Effect where
  | ExAllocatePool (p : Nat)
  | ExFreePool (p : Nat)
  | RegOpenKey (hKey : Nat)
  | ZwClose (hKey : Nat)
  | EngMapFile (iMapped : Nat)
  | EngUnmapFile (iMapped : Nat)
  | LockMem (Mdl : Nat)
  | UnlockMem (Mdl : Nat)
deriving DecidableEq, Repr

/-- Address of the global `SymListHead`. -/
def SymListHead : Nat := 1

/-- The global state the routines work on. -/
structure SymState where
  /-- The `LIST_ENTRY` found at each address: `SymListHead` and the
  `SymListEntry` that starts every `MOD_SYM`. -/
  list : Nat → LIST_ENTRY
  /-- The `MOD_SYM` objects that are allocated, by address. -/
  pool : Nat → Option MOD_SYM
  /-- The collaborator calls made so far, oldest first. -/
  effects : List Effect

/-- Store `v` in the cell at address `a`. -/
def setCell (m : Nat → LIST_ENTRY) (a : Nat) (v : LIST_ENTRY) : Nat → LIST_ENTRY :=
  fun x => if x = a then v else m x

/-- The list primitive `InitializeListHead (ListHead)`. -/
def InitializeListHead (m : Nat → LIST_ENTRY) (ListHead : Nat) : Nat → LIST_ENTRY :=
  setCell m ListHead ⟨ListHead, ListHead⟩

/-- The list primitive `InsertTailList (ListHead, Entry)`: the entry is linked
between the last entry and the head. -/
def InsertTailList (m : Nat → LIST_ENTRY) (ListHead Entry : Nat) : Nat → LIST_ENTRY :=
  let Blink := (m ListHead).Blink
  let m1 := setCell m Entry ⟨ListHead, Blink⟩
  let m2 := setCell m1 Blink ⟨Entry, (m1 Blink).Blink⟩
  setCell m2 ListHead ⟨(m2 ListHead).Flink, Entry⟩

/-- The list primitive `RemoveEntryList (Entry)`: the two neighbours of the
entry are linked to each other. -/
def RemoveEntryList (m : Nat → LIST_ENTRY) (Entry : Nat) : Nat → LIST_ENTRY :=
  let Flink := (m Entry).Flink
  let Blink := (m Entry).Blink
  let m1 := setCell m Blink ⟨Flink, (m Blink).Blink⟩
  setCell m1 Flink ⟨(m1 Flink).Flink, Blink⟩

/-- The routine `SymInitialize ()`. -/
def SymInitialize (st : SymState) : SymState :=
  { st with list := InitializeListHead st.list SymListHead }

/-- The routine `InternalSymUnloadSymbolTable (Sym)`: reading the fields of an
object that is not allocated is a fault. -/
def InternalSymUnloadSymbolTable (st : SymState) (Sym : Nat) : Run SymState :=
  match st.pool Sym with
  | none => Run.fault
  | some t =>
    Run.done { st with
      pool := fun a => if a = Sym then none else st.pool a
      effects := st.effects ++
        [Effect.UnlockMem t.Mdl, Effect.EngUnmapFile t.iMappedSymbols, Effect.ExFreePool Sym] }

/-- The routine `SymUnloadSymbolFile (Sym)`: it calls `RemoveEntryList` on
`&SymListHead`, then unloads `Sym`. -/
def SymUnloadSymbolFile (st : SymState) (Sym : Nat) : Run SymState :=
  InternalSymUnloadSymbolTable { st with list := RemoveEntryList st.list SymListHead } Sym

/-- The loop of `SymFreeSymbolTables`. -/
def SymFreeSymbolTables.loop : Nat → SymState → Nat → Run SymState
  | 0, _, _ => Run.outOfFuel
  | fuel + 1, st, Sym =>
    if Sym = SymListHead then Run.done st
    else
      match st.pool Sym with
      | none => Run.fault
      | some _ =>
        let Flink := (st.list Sym).Flink
        match InternalSymUnloadSymbolTable st Sym with
        | Run.done st1 => SymFreeSymbolTables.loop fuel st1 Flink
        | Run.fault => Run.fault
        | Run.outOfFuel => Run.outOfFuel

/-- The routine `SymFreeSymbolTables ()`, with a budget of loop iterations. -/
def SymFreeSymbolTables (fuel : Nat) (st : SymState) : Run SymState :=
  match SymFreeSymbolTables.loop fuel st (st.list SymListHead).Flink with
  | Run.done st1 => Run.done { st1 with list := InitializeListHead st1.list SymListHead }
  | Run.fault => Run.fault
  | Run.outOfFuel => Run.outOfFuel

/-! ## Loading -/

/-- Answers of the collaborators during one call of `SymLoadSymbolFile`. -/
structure Env where
  /-- Result of `ExAllocatePool`: the address of the new `MOD_SYM`, or `NULL`. -/
  ExAllocatePool : Nat
  /-- Result of `RtlUnicodeStringToAnsiString`: the bytes left in `ansiModuleName`. -/
  RtlUnicodeStringToAnsiString : List Nat → List Nat
  /-- Result of `FindImage`: the base of the module, or `NULL`. -/
  FindImage : List Nat → Nat
  /-- Result of `RegOpenKey` on the symbols key: a handle, or `NULL`. -/
  RegOpenKey : Nat
  /-- Result of `RegQueryValue`: the symbol file recorded for the module, if any. -/
  RegQueryValue : List Nat → Option (List Nat)
  /-- Result of `EngMapFile`: the bytes of the mapped file and the mapping handle, if the
  file can be mapped. -/
  EngMapFile : List Nat → Option (List Nat × Nat)
  /-- Result of `LockMem` on the mapping for a size: the MDL, or `NULL`. -/
  LockMem : Nat → Nat
  /-- The field `FileHeader.TimeDateStamp` of the image at a base address. -/
  TimeDateStamp : Nat → Nat

/-- Index of the last occurrence of `c` in `s` (`wcsrchr`). -/
def wcsrchr (s : List Nat) (c : Nat) : Option Nat :=
  match s.reverse.indexOf? c with
  | none => none
  | some k => some (s.length - 1 - k)

/-- The call `strncpy (dst, src, n)` into a fresh `dst`: `n` bytes, the string `src`
padded with NULs when it is shorter. -/
def strncpy (src : List Nat) (n : Nat) : List Nat :=
  (cstr src ++ List.replicate n 0).take n

/-- The module name `SymLoadSymbolFile` stores in `ModName`: the bytes up to and
including the terminator it sets at index `alen`. -/
def deriveModName (env : Env) (ModuleName : List Nat) : List Nat :=
  let alen :=
    match wcsrchr ModuleName 46 with
    | some dot => min dot 31
    | none => min ModuleName.length 31
  strncpy (env.RtlUnicodeStringToAnsiString ModuleName) alen ++ [0]

/-- The size walk of `SymLoadSymbolFile`: the sum of the deltas of the records
from byte index `info` on, added to `Size`. -/
def SymLoadSymbolFile.sizeWalk (m : List Nat) : Nat → Nat → Nat → Run Nat
  | 0, _, _ => Run.outOfFuel
  | fuel + 1, info, Size =>
    match readULONG m info with
    | none => Run.fault
    | some NextEntryDelta =>
      if NextEntryDelta = 0 then Run.done Size
      else SymLoadSymbolFile.sizeWalk m fuel (info + NextEntryDelta) (addULONG Size NextEntryDelta)

/-- The routine `SymLoadSymbolFile (ModuleName, ImageBase)`: the returned status and the
state afterwards. -/
def SymLoadSymbolFile (env : Env) (st : SymState) (ModuleName : List Nat) (ImageBase : Nat) :
    Run (Nat × SymState) :=
  let sym := env.ExAllocatePool
  if sym = NULL then Run.done (STATUS_INSUFFICIENT_RESOURCES, st)
  else
    let e0 := st.effects ++ [Effect.ExAllocatePool sym]
    let ModName := deriveModName env ModuleName
    let Base := if ImageBase ≠ NULL then ImageBase else env.FindImage ModuleName
    if Base = NULL then
      Run.done (STATUS_NOT_FOUND, { st with effects := e0 ++ [Effect.ExFreePool sym] })
    else
      let hKey := env.RegOpenKey
      if hKey = NULL then
        Run.done (STATUS_UNSUCCESSFUL, { st with effects := e0 ++ [Effect.ExFreePool sym] })
      else
        let e1 := e0 ++ [Effect.RegOpenKey hKey]
        match env.RegQueryValue ModuleName with
        | none =>
          Run.done (STATUS_NOT_FOUND,
            { st with effects := e1 ++ [Effect.ZwClose hKey, Effect.ExFreePool sym] })
        | some SymFileName =>
          let e2 := e1 ++ [Effect.ZwClose hKey]
          match env.EngMapFile SymFileName with
          | none =>
            Run.done (STATUS_NOT_FOUND, { st with effects := e2 ++ [Effect.ExFreePool sym] })
          | some (LoadedSymbols, iMappedSymbols) =>
            let e3 := e2 ++ [Effect.EngMapFile iMappedSymbols]
            match SymLoadSymbolFile.sizeWalk LoadedSymbols (LoadedSymbols.length + 1) 4 4 with
            | Run.fault => Run.fault
            | Run.outOfFuel => Run.outOfFuel
            | Run.done Size =>
              let Mdl := env.LockMem Size
              if Mdl = NULL then
                Run.done (STATUS_UNSUCCESSFUL,
                  { st with effects := e3 ++
                      [Effect.EngUnmapFile iMappedSymbols, Effect.ExFreePool sym] })
              else
                let e4 := e3 ++ [Effect.LockMem Mdl]
                match readULONG LoadedSymbols 0 with
                | none => Run.fault
                | some TimeDateStamp =>
                  if TimeDateStamp ≠ env.TimeDateStamp Base then
                    Run.done (STATUS_UNSUCCESSFUL,
                      { st with effects := e4 ++
                          [Effect.UnlockMem Mdl, Effect.EngUnmapFile iMappedSymbols,
                            Effect.ExFreePool sym] })
                  else
                    Run.done (STATUS_SUCCESS,
                      { list := InsertTailList st.list SymListHead sym
                        pool := fun a =>
                          if a = sym then
                            some ⟨ModName, LoadedSymbols, Base, Mdl, iMappedSymbols⟩
                          else st.pool a
                        effects := e4 })

/-! ## Lookups over all loaded tables -/

/-- The table loop of `SymGlobGetSymbolByAddress`; `Status` is the current value
of the local of that name. -/
def SymGlobGetSymbolByAddress.loop (st : SymState) (Address : Nat) :
    Nat → Nat → Nat → Buffer → Nat → Run SymbolResult
  | 0, _, _, _, _ => Run.outOfFuel
  | fuel + 1, Sym, Status, Symbol, SymLen =>
    if Sym = SymListHead then Run.done ⟨Status, Symbol, SymLen⟩
    else
      match st.pool Sym with
      | none => Run.fault
      | some t =>
        match SymGetSymbolByAddress t Address Symbol SymLen with
        | Run.done r =>
          if r.Status = STATUS_SUCCESS then Run.done r
          else SymGlobGetSymbolByAddress.loop st Address fuel (st.list Sym).Flink
            r.Status r.Symbol r.SymLen
        | Run.fault => Run.fault
        | Run.outOfFuel => Run.outOfFuel

/-- The routine `SymGlobGetSymbolByAddress (Address, Symbol, SymLen)`, with a budget of loop
iterations; `Status0` is the indeterminate initial value of the local `Status`,
which the source does not initialise. -/
def SymGlobGetSymbolByAddress (st : SymState) (fuel : Nat) (Status0 : Nat)
    (Address : Nat) (Symbol : Buffer) (SymLen : Nat) : Run SymbolResult :=
  SymGlobGetSymbolByAddress.loop st Address fuel (st.list SymListHead).Flink Status0 Symbol SymLen

/-- The table loop of `SymGlobGetSymbolByName`. -/
def SymGlobGetSymbolByName.loop (st : SymState) (Symbol : List Nat) :
    Nat → Nat → Nat → Option Nat → Run NameResult
  | 0, _, _, _ => Run.outOfFuel
  | fuel + 1, Sym, Status, SymAddr =>
    if Sym = SymListHead then Run.done ⟨Status, SymAddr⟩
    else
      match st.pool Sym with
      | none => Run.fault
      | some t =>
        match SymGetSymbolByName t Symbol SymAddr with
        | Run.done r =>
          if r.Status = STATUS_SUCCESS then Run.done r
          else SymGlobGetSymbolByName.loop st Symbol fuel (st.list Sym).Flink r.Status r.SymAddr
        | Run.fault => Run.fault
        | Run.outOfFuel => Run.outOfFuel

/-- The routine `SymGlobGetSymbolByName (Symbol, SymAddr)`, with a budget of loop iterations;
`Status0` is the indeterminate initial value of the local `Status`. -/
def SymGlobGetSymbolByName (st : SymState) (fuel : Nat) (Status0 : Nat)
    (Symbol : List Nat) (SymAddr : Option Nat) : Run NameResult :=
  SymGlobGetSymbolByName.loop st Symbol fuel (st.list SymListHead).Flink Status0 SymAddr

/-- The locals `MinimumDistance`, `MinSymbol`, `MinModule` of the nearest
lookup.  `MinSymbol` is the byte index of the record inside the mapping of
`MinModule`, `none` for the null pointer. -/
structure NearestMin where
  MinimumDistance : Nat
  MinSymbol : Option Nat
  MinModule : Nat
deriving DecidableEq, Repr

/-- The record loop of `SymGlobGetNearestSymbolByAddress` over the table at
address `Sym`. -/
def SymGlobGetNearestSymbolByAddress.scan (Sym : Nat) (t : MOD_SYM) (Address : Nat) :
    Nat → Nat → NearestMin → Run NearestMin
  | 0, _, _ => Run.outOfFuel
  | fuel + 1, Info, s =>
    match readULONG t.LoadedSymbols Info with
    | none => Run.fault
    | some NextEntryDelta =>
      if NextEntryDelta = 0 then Run.done s
      else
        match readULONG t.LoadedSymbols (Info + 4) with
        | none => Run.fault
        | some SymOffset =>
          let psym := addULONG t.ImageBase SymOffset
          let dist := subULONG Address psym
          let s1 : NearestMin := if dist < s.MinimumDistance then ⟨dist, some Info, Sym⟩ else s
          SymGlobGetNearestSymbolByAddress.scan Sym t Address fuel (Info + NextEntryDelta) s1

/-- The table loop of `SymGlobGetNearestSymbolByAddress`. -/
def SymGlobGetNearestSymbolByAddress.loop (st : SymState) (Address : Nat) :
    Nat → Nat → NearestMin → Run NearestMin
  | 0, _, _ => Run.outOfFuel
  | fuel + 1, Sym, s =>
    if Sym = SymListHead then Run.done s
    else
      match st.pool Sym with
      | none => Run.fault
      | some t =>
        match SymGlobGetNearestSymbolByAddress.scan Sym t Address
            (t.LoadedSymbols.length + 1) 4 s with
        | Run.done s1 =>
          SymGlobGetNearestSymbolByAddress.loop st Address fuel (st.list Sym).Flink s1
        | Run.fault => Run.fault
        | Run.outOfFuel => Run.outOfFuel

/-- What the nearest lookup hands back: the status, the bytes stored through
`Symbol`, `*SymLen`, and the value stored through `Distance` (`none`: nothing
was stored). -/
structure NearestResult where
  Status : Nat
  Symbol : Buffer
  SymLen : Nat
  Distance : Option Nat
deriving DecidableEq, Repr

/-- The part of `SymGlobGetNearestSymbolByAddress` after the loops: formatting
of the record the locals point to. -/
def SymGlobGetNearestSymbolByAddress.format (st : SymState) (Status0 : Nat) (s : NearestMin)
    (Symbol : Buffer) (SymLen : Nat) : Run NearestResult :=
  if s.MinModule = NULL then Run.fault
  else
    match st.pool s.MinModule, s.MinSymbol with
    | some t, some Info =>
      match readULONG t.LoadedSymbols Info with
      | none => Run.fault
      | some NextEntryDelta =>
        let len := ((cstr t.ModName).length + 1 + NextEntryDelta + (ULONG_MOD - SymNameOffset))
          % ULONG_MOD
        if SymLen < len then Run.done ⟨STATUS_BUFFER_OVERFLOW, Symbol, SymLen, none⟩
        else
          match cstrAt t.LoadedSymbols (Info + SymNameOffset) with
          | none => Run.fault
          | some SymName =>
            let s1 := strcpy Symbol (cstr t.ModName)
            let s2 := strcat s1 (bytesOf "!")
            let s3 := strcat s2 SymName
            let s4 := writeBytes s3 len [0]
            Run.done ⟨Status0, s4, (len + 1) % ULONG_MOD, some s.MinimumDistance⟩
    | _, _ => Run.fault

/-- The routine `SymGlobGetNearestSymbolByAddress (Address, Symbol, SymLen,
Distance)`, with
a budget of table-loop iterations; `Status0` is the indeterminate initial value
of the local `Status`, which the source sets only on the overflow exit. -/
def SymGlobGetNearestSymbolByAddress (st : SymState) (fuel : Nat) (Status0 : Nat)
    (Address : Nat) (Symbol : Buffer) (SymLen : Nat) : Run NearestResult :=
  match SymGlobGetNearestSymbolByAddress.loop st Address fuel (st.list SymListHead).Flink
      ⟨0xFFFFFFFF, none, NULL⟩ with
  | Run.done s => SymGlobGetNearestSymbolByAddress.format st Status0 s Symbol SymLen
  | Run.fault => Run.fault
  | Run.outOfFuel => Run.outOfFuel

/-- One upper-case hexadecimal digit. -/
def hexDigit (d : Nat) : Nat := if d < 10 then 48 + d else 55 + d

/-- Upper-case hexadecimal digits of `n`, most significant first, without
leading zeros (`%X`); `fuel` bounds the number of digits. -/
def hexDigits : Nat → Nat → List Nat
  | 0, _ => []
  | fuel + 1, n => if n < 16 then [hexDigit n] else hexDigits fuel (n / 16) ++ [hexDigit (n % 16)]

/-- The constant `NTSTRSAFE_MAX_CCH`. -/
def NTSTRSAFE_MAX_CCH : Nat := 2147483647

/-- The call `RtlStringCchPrintfA (dst, cchDest, "%s%s", a, b)`: nothing is stored when
`cchDest` is zero or above `NTSTRSAFE_MAX_CCH`; otherwise the text, cut to
`cchDest - 1` characters, and a terminator. -/
def RtlStringCchPrintfA (dst : Buffer) (cchDest : Nat) (text : List Nat) : Buffer :=
  if cchDest = 0 ∨ NTSTRSAFE_MAX_CCH < cchDest then dst
  else writeBytes dst 0 (text.take (cchDest - 1) ++ [0])

/-- The routine `SymWrGetNearestSymbolByAddress (Address, Symbol, SymLen)`.  `LocalSymbol`
has 128 bytes: a store past its end is a fault. -/
def SymWrGetNearestSymbolByAddress (st : SymState) (fuel : Nat) (Status0 : Nat)
    (Address : Nat) (Symbol : Buffer) (SymLen : Nat) : Run SymbolResult :=
  match SymGlobGetNearestSymbolByAddress st fuel Status0 Address [] (128 - 1) with
  | Run.fault => Run.fault
  | Run.outOfFuel => Run.outOfFuel
  | Run.done r =>
    if 128 < r.Symbol.length then Run.fault
    else if NT_SUCCESS r.Status then
      match bufString r.Symbol, r.Distance with
      | some LocalSymbol, some Dist =>
        let aDist := bytesOf "+" ++ hexDigits 8 Dist
        if SymLen < (LocalSymbol.length + aDist.length + 1) % ULONG_MOD then
          Run.done ⟨STATUS_BUFFER_OVERFLOW, Symbol, SymLen⟩
        else
          Run.done ⟨r.Status, RtlStringCchPrintfA Symbol SymLen (LocalSymbol ++ aDist),
            (LocalSymbol.length + aDist.length + 1) % ULONG_MOD⟩
      | _, _ => Run.fault
    else Run.done ⟨r.Status, Symbol, SymLen⟩

/-! ## Layout of a symbol file -/

/-- One symbol record: the offset of the symbol in its module and its name. -/
structure SymRec where
  SymOffset : Nat
  SymName : List Nat
deriving DecidableEq, Repr

/-- Bytes of one `SYMINFO`: the delta to the next record, the offset, the name
(not terminated). -/
def encodeRec (r : SymRec) : List Nat :=
  le32 (SymNameOffset + r.SymName.length) ++ le32 r.SymOffset ++ r.SymName

/-- Bytes of a run of records, closed by a record whose delta is zero. -/
def encodeRecs : List SymRec → List Nat
  | [] => le32 0
  | r :: rs => encodeRec r ++ encodeRecs rs

/-- Bytes of a `LOADED_SYMBOLS`: the time stamp, then the records. -/
def encodeBlob (TimeDateStamp : Nat) (rs : List SymRec) : List Nat :=
  le32 TimeDateStamp ++ encodeRecs rs

/-! ## Describing a store -/

/-- A loaded table written out: the fields of its `MOD_SYM`, the mapped file
being given by its time stamp and its records. -/
structure Table where
  ModName : List Nat
  ImageBase : Nat
  TimeDateStamp : Nat
  Records : List SymRec
  Mdl : Nat
  iMappedSymbols : Nat
deriving DecidableEq, Repr

/-- The `MOD_SYM` object of a table. -/
def Table.sym (T : Table) : MOD_SYM :=
  ⟨T.ModName, encodeBlob T.TimeDateStamp T.Records, T.ImageBase, T.Mdl, T.iMappedSymbols⟩

/-- The module name of a table, as a string. -/
def Table.name (T : Table) : List Nat := cstr T.ModName

/-- A record is well formed: its offset and its delta fit a `ULONG`, and its
name is text (no NUL byte). -/
def SymRec.Wf (r : SymRec) : Prop :=
  r.SymOffset < ULONG_MOD ∧ SymNameOffset + r.SymName.length < ULONG_MOD ∧ 0 ∉ r.SymName

instance (r : SymRec) : Decidable r.Wf := by
  unfold SymRec.Wf
  exact inferInstance

/-- A table is well formed: all its records are. -/
def Table.Wf (T : Table) : Prop := ∀ r ∈ T.Records, r.Wf

instance (T : Table) : Decidable T.Wf := by
  unfold Table.Wf
  exact inferInstance

/-- Walking the list from pointer `p` along `Flink` visits exactly the entries
`ts` (address and table), each a live object that holds its table, and then
arrives at `SymListHead`. -/
def Chain (st : SymState) : Nat → List (Nat × Table) → Prop
  | p, [] => p = SymListHead
  | p, e :: rest =>
    p = e.1 ∧ e.1 ≠ SymListHead ∧ e.1 ≠ NULL ∧ st.pool e.1 = some e.2.sym ∧
      Chain st (st.list e.1).Flink rest

instance decidableChain (st : SymState) :
    (p : Nat) → (ts : List (Nat × Table)) → Decidable (Chain st p ts)
  | p, [] => by unfold Chain; exact inferInstance
  | p, e :: rest => by
    unfold Chain
    have := decidableChain st (st.list e.1).Flink rest
    exact inferInstance

/-- The store holds the tables `ts`, in insertion order. -/
def Holds (st : SymState) (ts : List (Nat × Table)) : Prop :=
  Chain st (st.list SymListHead).Flink ts

instance (st : SymState) (ts : List (Nat × Table)) : Decidable (Holds st ts) := by
  unfold Holds
  exact inferInstance

/-- The absolute address of a record of a table. -/
def Table.addrOf (T : Table) (r : SymRec) : Nat := addULONG T.ImageBase r.SymOffset

/-- A record of the store met by the nearest lookup: the address of its table,
the table, the byte index of the record in the mapping, and the record. -/
structure Cand where
  Sym : Nat
  T : Table
  Info : Nat
  r : SymRec
deriving DecidableEq, Repr

/-- The records `rs` of table `T`, laid out from byte index `i` on. -/
def candsFrom (a : Nat) (T : Table) : Nat → List SymRec → List Cand
  | _, [] => []
  | i, r :: rs => ⟨a, T, i, r⟩ :: candsFrom a T (i + (SymNameOffset + r.SymName.length)) rs

/-- All records of the store, in table order and then record order. -/
def storeCands : List (Nat × Table) → List Cand
  | [] => []
  | e :: rest => candsFrom e.1 e.2 4 e.2.Records ++ storeCands rest

/-- The absolute address of the record. -/
def Cand.addr (c : Cand) : Nat := c.T.addrOf c.r

/-- The wraparound distance from the record to the address. -/
def Cand.dist (Address : Nat) (c : Cand) : Nat := subULONG Address c.addr

/-- The string the lookups format for a record: module, `!`, name. -/
def Cand.text (c : Cand) : List Nat := c.T.name ++ bytesOf "!" ++ c.r.SymName

/-- The bytes `strcat (Symbol, MinSymbol->SymName)` copies for a record: the
stored name is not terminated, so the copy runs on to the first NUL byte of
the file. -/
def Cand.copied (c : Cand) : List Nat :=
  cstr (c.T.sym.LoadedSymbols.drop (c.Info + SymNameOffset))

/-- The characters the nearest lookup stores through `Symbol` before it sets
the terminator at `Symbol[len]`: module, `!`, and the bytes `strcat` copies. -/
def Cand.stored (c : Cand) : List Nat := c.T.name ++ bytesOf "!" ++ c.copied

/-- The stored name agrees with the queried name up to letter case. -/
def sameName (stored query : List Nat) : Prop := stored.map tolower = query.map tolower

instance (a b : List Nat) : Decidable (sameName a b) := by
  unfold sameName
  exact inferInstance

/-- The stored name is, up to letter case, a prefix of the queried name. -/
def prefixName (stored query : List Nat) : Prop := stored.map tolower <+: query.map tolower

instance (a b : List Nat) : Decidable (prefixName a b) := by
  unfold prefixName
  exact inferInstance

/-- The bytes the formatting code stores for a record of text `M!N` that is
followed in the file by the records `post`: the text, the terminator, and after
it what `strcat` copied beyond the name. -/
def storedBytes (M N : List Nat) (post : List SymRec) : Buffer :=
  ((M ++ bytesOf "!" ++ N) ++ 0 :: (cstr (encodeRecs post) ++ [0]).tail).map some

/-- One step of the minimum search of the nearest lookup. -/
def pickStep (Address : Nat) (s : NearestMin) (c : Cand) : NearestMin :=
  if c.dist Address < s.MinimumDistance then ⟨c.dist Address, some c.Info, c.Sym⟩ else s

/-- The minimum search of the nearest lookup over a run of records. -/
def pick (Address : Nat) (s : NearestMin) (cs : List Cand) : NearestMin :=
  cs.foldl (pickStep Address) s

/-- The record is where the lookups expect it: its table is a live object at a
non-null address, and the record is encoded at its byte index. -/
def CandOk (st : SymState) (c : Cand) : Prop :=
  c.Sym ≠ NULL ∧ st.pool c.Sym = some c.T.sym ∧ c.r.Wf ∧
    ∃ post, c.T.sym.LoadedSymbols.drop c.Info = encodeRecs (c.r :: post)

/-! ## Describing a store by its objects -/

/-- Walking the list from pointer `p` along `Flink` visits exactly the entries
`es` (address and live object), and then arrives at `SymListHead`. -/
def Visits (st : SymState) : Nat → List (Nat × MOD_SYM) → Prop
  | p, [] => p = SymListHead
  | p, e :: rest =>
    p = e.1 ∧ e.1 ≠ SymListHead ∧ st.pool e.1 = some e.2 ∧ Visits st (st.list e.1).Flink rest

instance decidableVisits (st : SymState) :
    (p : Nat) → (es : List (Nat × MOD_SYM)) → Decidable (Visits st p es)
  | p, [] => by unfold Visits; exact inferInstance
  | p, e :: rest => by
    unfold Visits
    have := decidableVisits st (st.list e.1).Flink rest
    exact inferInstance

/-- The address of the last entry, `SymListHead` when there is none: what
`SymListHead.Blink` holds in a well-formed list. -/
def lastAddr : List (Nat × MOD_SYM) → Nat
  | [] => SymListHead
  | [e] => e.1
  | _ :: e :: rest => lastAddr (e :: rest)

/-- The list of the store is a well-formed ring over the entries `es`, in
insertion order: the walk from `SymListHead.Flink` visits them and comes back
to the head, and `SymListHead.Blink` is the last of them. -/
def Ring (st : SymState) (es : List (Nat × MOD_SYM)) : Prop :=
  Visits st (st.list SymListHead).Flink es ∧ (st.list SymListHead).Blink = lastAddr es

instance (st : SymState) (es : List (Nat × MOD_SYM)) : Decidable (Ring st es) := by
  unfold Ring
  exact inferInstance

/-- The collaborator calls that unload one entry. -/
def unloadEffects (e : Nat × MOD_SYM) : List Effect :=
  [Effect.UnlockMem e.2.Mdl, Effect.EngUnmapFile e.2.iMappedSymbols, Effect.ExFreePool e.1]

/-- The collaborator calls that unload the entries one after the other. -/
def unloadAllEffects : List (Nat × MOD_SYM) → List Effect
  | [] => []
  | e :: rest => unloadEffects e ++ unloadAllEffects rest

/-- The byte indices of the mapping that the size walk of `SymLoadSymbolFile`
reads: the four bytes of `NextEntryDelta` of every record it arrives at. -/
def SymLoadSymbolFile.sizeWalkReads (m : List Nat) : Nat → Nat → List Nat
  | 0, _ => []
  | fuel + 1, info =>
    [info, info + 1, info + 2, info + 3] ++
      match readULONG m info with
      | none => []
      | some NextEntryDelta =>
        if NextEntryDelta = 0 then []
        else SymLoadSymbolFile.sizeWalkReads m fuel (info + NextEntryDelta)

/-- The byte indices of the mapping that the record walk of
`SymGetSymbolByName` reads for the fields `NextEntryDelta` and `SymOffset`. -/
def SymGetSymbolByName.walkReads (Sym : MOD_SYM) (Symbol : List Nat) : Nat → Nat → List Nat
  | 0, _ => []
  | fuel + 1, pSym =>
    [pSym, pSym + 1, pSym + 2, pSym + 3] ++
      match readULONG Sym.LoadedSymbols pSym with
      | none => []
      | some NextEntryDelta =>
        if NextEntryDelta = 0 then []
        else
          match strnicmpZero (Sym.LoadedSymbols.drop (pSym + SymNameOffset)) Symbol
              ((NextEntryDelta + (ULONG_MOD - SymNameOffset)) % ULONG_MOD) with
          | none => []
          | some true => [pSym + 4, pSym + 5, pSym + 6, pSym + 7]
          | some false => SymGetSymbolByName.walkReads Sym Symbol fuel (pSym + NextEntryDelta)

/-- The sum of the deltas of a run of records. -/
def recsSize : List SymRec → Nat
  | [] => 0
  | r :: rs => SymNameOffset + r.SymName.length + recsSize rs

/-- Reference definition of the nearest lookup, after the words of the
specification: over the records in table order and then record order, the
record with the minimum distance, the first one encountered when several share
the minimum. -/
def firstMin (Address : Nat) : List Cand → Option Cand
  | [] => none
  | c :: cs =>
    match firstMin Address cs with
    | none => some c
    | some m => if m.dist Address < c.dist Address then some m else some c

/-! ## Concrete stores -/

/-- A store whose list holds the given entries (address and table), linked with
`InsertTailList` in that order from an initialised head. -/
def storeOf (ts : List (Nat × Table)) : SymState :=
  { list := ts.foldl (fun m e => InsertTailList m SymListHead e.1)
      (InitializeListHead (fun _ => ⟨NULL, NULL⟩) SymListHead)
    pool := fun a => (ts.find? (fun e => e.1 == a)).map (fun e => e.2.sym)
    effects := [] }

/-- The scenario of the specification: module `driver` at base `0x1000` with
the records `(0x10, "Init")` and `(0x40, "Worker")`. -/
def driverTable : Table :=
  ⟨bytesOf "driver" ++ [0], 0x1000, 0x4A5BC60F,
    [⟨0x10, bytesOf "Init"⟩, ⟨0x40, bytesOf "Worker"⟩], 0x77, 0x9⟩

/-- The store that holds the `driver` table alone, at address `0x100`. -/
def driverStore : SymState := storeOf [(0x100, driverTable)]

/-- A table with two names for one offset. -/
def aliasTable : Table :=
  ⟨bytesOf "driver" ++ [0], 0x1000, 0x4A5BC60F,
    [⟨0x10, bytesOf "Init"⟩, ⟨0x10, bytesOf "Start"⟩], 0x77, 0x9⟩

/-- The store that holds the table with the alias alone. -/
def aliasStore : SymState := storeOf [(0x100, aliasTable)]

/-- A table in which the name of one record starts with the name of an earlier
record. -/
def prefixTable : Table :=
  ⟨bytesOf "driver" ++ [0], 0x1000, 0x4A5BC60F,
    [⟨0x10, bytesOf "Init"⟩, ⟨0x40, bytesOf "InitWorker"⟩], 0x77, 0x9⟩

/-- A second module, `other`, at base `0x2000` with the record `(0x20, "Main")`. -/
def otherTable : Table :=
  ⟨bytesOf "other" ++ [0], 0x2000, 0x4A5BC610, [⟨0x20, bytesOf "Main"⟩], 0x78, 0xA⟩

/-- The store that holds `driver` at address `0x100` and then `other` at
address `0x200`. -/
def twoStore : SymState := storeOf [(0x100, driverTable), (0x200, otherTable)]

/-- The routine ended in a fault. -/
def Run.isFault {α : Type} : Run α → Bool
  | Run.fault => true
  | _ => false

/-- Memory before `SymInitialize`: no list, no table. -/
def bootState : SymState := ⟨fun _ => ⟨NULL, NULL⟩, fun _ => none, []⟩

/-- Collaborators that let the load of `driver.sys` succeed: the module is at
`0x1000`, its symbol file is the file of `driverTable`, and the new `MOD_SYM`
is allocated at `0x100`. -/
def driverEnv : Env :=
  { ExAllocatePool := 0x100
    RtlUnicodeStringToAnsiString := fun s => s ++ [0]
    FindImage := fun _ => 0x1000
    RegOpenKey := 0x5
    RegQueryValue := fun _ => some (bytesOf "driver.sym")
    EngMapFile := fun _ => some (driverTable.sym.LoadedSymbols, 0x9)
    LockMem := fun _ => 0x77
    TimeDateStamp := fun _ => 0x4A5BC60F }

/-- A table with the single record `(0x10, "Init")`, at base `0x1000`. -/
def singleTable : Table :=
  ⟨bytesOf "driver" ++ [0], 0x1000, 0x4A5BC60F, [⟨0x10, bytesOf "Init"⟩], 0x77, 0x9⟩

/-- The store that holds the table with the single record alone. -/
def singleStore : SymState := storeOf [(0x100, singleTable)]

/-- A table whose record has a name of 130 characters. -/
def longTable : Table :=
  ⟨bytesOf "driver" ++ [0], 0x1000, 0x4A5BC60F, [⟨0x10, List.replicate 130 65⟩], 0x77, 0x9⟩

/-- The store that holds the table with the long name alone. -/
def longStore : SymState := storeOf [(0x100, longTable)]

/-- A table of module `driver` whose record `Init` is followed by a record with
a name of 250 letters, so that the delta that follows `Init` in the file is 258,
with two non-zero bytes. -/
def bigTable : Table :=
  ⟨bytesOf "driver" ++ [0], 0x1000, 0x4A5BC60F,
    [⟨0x10, bytesOf "Init"⟩, ⟨0x40, List.replicate 250 66⟩], 0x77, 0x9⟩

/-- The store that holds the table `bigTable` alone, at address `0x100`. -/
def bigStore : SymState := storeOf [(0x100, bigTable)]

/-- Collaborators as in `driverEnv`, except that the image reports another time
stamp than the symbol file. -/
def staleEnv : Env := { driverEnv with TimeDateStamp := fun _ => 0x4A5BC000 }

/-! ## Reading an encoded file -/

theorem drop_of_drop_append {m : List Nat} {i : Nat} {a rest : List Nat}
    (h : m.drop i = a ++ rest) : m.drop (i + a.length) = rest := by
  have h2 : (m.drop i).drop a.length = rest := by rw [h]; simp
  rw [List.drop_drop] at h2
  exact h2

theorem le32_length (n : Nat) : (le32 n).length = 4 := rfl

theorem readULONG_of_drop {m : List Nat} {i n : Nat} {rest : List Nat}
    (h : m.drop i = le32 n ++ rest) (hn : n < ULONG_MOD) : readULONG m i = some n := by
  unfold readULONG
  rw [h]
  simp only [le32, List.cons_append, List.nil_append]
  unfold ULONG_MOD at hn
  congr 1
  omega

theorem encodeRecs_cons (r : SymRec) (rs : List SymRec) :
    encodeRecs (r :: rs) =
      le32 (SymNameOffset + r.SymName.length) ++
        (le32 r.SymOffset ++ (r.SymName ++ encodeRecs rs)) := by
  simp [encodeRecs, encodeRec]

theorem drop_four_encodeBlob (stamp : Nat) (rs : List SymRec) :
    (encodeBlob stamp rs).drop 4 = encodeRecs rs := by
  simp [encodeBlob, le32]

theorem encodeRecs_length_pos (rs : List SymRec) : rs.length < (encodeRecs rs).length := by
  induction rs with
  | nil => simp [encodeRecs, le32]
  | cons r rs ih => simp [encodeRecs, encodeRec, le32]; omega

theorem encodeBlob_length_gt (stamp : Nat) (rs : List SymRec) :
    rs.length < (encodeBlob stamp rs).length := by
  have := encodeRecs_length_pos rs
  simp [encodeBlob, le32]; omega

/-- The reads at a record of an encoded file. -/
theorem reads_at_record {m : List Nat} {p : Nat} {r : SymRec} {rs : List SymRec}
    (h : m.drop p = encodeRecs (r :: rs)) (hr : r.Wf) :
    readULONG m p = some (SymNameOffset + r.SymName.length) ∧
    readULONG m (p + 4) = some r.SymOffset ∧
    m.drop (p + SymNameOffset) = r.SymName ++ encodeRecs rs ∧
    m.drop (p + (SymNameOffset + r.SymName.length)) = encodeRecs rs := by
  rw [encodeRecs_cons] at h
  have h1 := drop_of_drop_append h
  rw [le32_length] at h1
  have h2 := drop_of_drop_append h1
  rw [le32_length] at h2
  have h3 := drop_of_drop_append h2
  refine ⟨readULONG_of_drop h hr.2.1, readULONG_of_drop h1 hr.1, ?_, ?_⟩
  · simpa [SymNameOffset, Nat.add_assoc] using h2
  · simpa [SymNameOffset, Nat.add_assoc] using h3

theorem read_at_end {m : List Nat} {p : Nat} (h : m.drop p = encodeRecs []) :
    readULONG m p = some 0 := by
  have : m.drop p = le32 0 ++ [] := by simpa [encodeRecs] using h
  exact readULONG_of_drop this (by decide)

/-! ## The record walks always end

Every step of a record walk moves forward in the mapping and a read outside the
mapping is a fault, so the budget the routines start with, one more than the
length of the mapping, never runs out, whatever the bytes of the mapping. -/

theorem readULONG_some_le {m : List Nat} {i n : Nat} (h : readULONG m i = some n) :
    i + 4 ≤ m.length := by
  unfold readULONG at h
  have hl : (m.drop i).length = m.length - i := List.length_drop i m
  match hd : m.drop i, h with
  | b0 :: b1 :: b2 :: b3 :: rest, _ =>
    rw [hd] at hl
    simp at hl
    omega

theorem addr_walk_ends (Sym : MOD_SYM) (Offset : Nat) (Symbol : Buffer) (SymLen : Nat) :
    ∀ (fuel p : Nat), 0 < fuel → Sym.LoadedSymbols.length < p + fuel →
      SymGetSymbolByAddress.walk Sym Offset Symbol SymLen fuel p ≠ Run.outOfFuel
  | 0, _, h, _ => absurd h (Nat.lt_irrefl 0)
  | fuel + 1, p, _, hf => by
    rw [SymGetSymbolByAddress.walk]
    cases h1 : readULONG Sym.LoadedSymbols p with
    | none => simp
    | some d =>
      have hle := readULONG_some_le h1
      simp only
      by_cases hd : d = 0
      · simp [hd]
      · simp only [hd, if_false]
        cases h2 : readULONG Sym.LoadedSymbols (p + 4) with
        | none => simp
        | some off =>
          simp only
          split
          · split
            · simp
            · split <;> simp
          · exact addr_walk_ends Sym Offset Symbol SymLen fuel (p + d) (by omega) (by omega)

/-- The lookup by address in one table returns or faults: it does not run out
of steps. -/
theorem SymGetSymbolByAddress_ends (Sym : MOD_SYM) (Address : Nat) (Symbol : Buffer)
    (SymLen : Nat) : SymGetSymbolByAddress Sym Address Symbol SymLen ≠ Run.outOfFuel :=
  addr_walk_ends Sym _ Symbol SymLen _ 4 (by omega) (by omega)

theorem name_walk_ends (Sym : MOD_SYM) (Symbol : List Nat) (SymAddr : Option Nat) :
    ∀ (fuel p : Nat), 0 < fuel → Sym.LoadedSymbols.length < p + fuel →
      SymGetSymbolByName.walk Sym Symbol SymAddr fuel p ≠ Run.outOfFuel
  | 0, _, h, _ => absurd h (Nat.lt_irrefl 0)
  | fuel + 1, p, _, hf => by
    rw [SymGetSymbolByName.walk]
    cases h1 : readULONG Sym.LoadedSymbols p with
    | none => simp
    | some d =>
      have hle := readULONG_some_le h1
      simp only
      by_cases hd : d = 0
      · simp [hd]
      · simp only [hd, if_false]
        split
        · simp
        · split <;> simp
        · exact name_walk_ends Sym Symbol SymAddr fuel (p + d) (by omega) (by omega)

/-- The lookup by name in one table returns or faults: it does not run out of
steps. -/
theorem SymGetSymbolByName_ends (Sym : MOD_SYM) (Symbol : List Nat) (SymAddr : Option Nat) :
    SymGetSymbolByName Sym Symbol SymAddr ≠ Run.outOfFuel :=
  name_walk_ends Sym Symbol SymAddr _ 4 (by omega) (by omega)

theorem scan_ends (a : Nat) (t : MOD_SYM) (Address : Nat) :
    ∀ (fuel p : Nat) (s : NearestMin), 0 < fuel → t.LoadedSymbols.length < p + fuel →
      SymGlobGetNearestSymbolByAddress.scan a t Address fuel p s ≠ Run.outOfFuel
  | 0, _, _, h, _ => absurd h (Nat.lt_irrefl 0)
  | fuel + 1, p, s, _, hf => by
    rw [SymGlobGetNearestSymbolByAddress.scan]
    cases h1 : readULONG t.LoadedSymbols p with
    | none => simp
    | some d =>
      have hle := readULONG_some_le h1
      simp only
      by_cases hd : d = 0
      · simp [hd]
      · simp only [hd, if_false]
        cases h2 : readULONG t.LoadedSymbols (p + 4) with
        | none => simp
        | some off => exact scan_ends a t Address fuel (p + d) _ (by omega) (by omega)

theorem sizeWalk_ends (m : List Nat) :
    ∀ (fuel info Size : Nat), 0 < fuel → m.length < info + fuel →
      SymLoadSymbolFile.sizeWalk m fuel info Size ≠ Run.outOfFuel
  | 0, _, _, h, _ => absurd h (Nat.lt_irrefl 0)
  | fuel + 1, p, s, _, hf => by
    rw [SymLoadSymbolFile.sizeWalk]
    cases h1 : readULONG m p with
    | none => simp
    | some d =>
      have hle := readULONG_some_le h1
      simp only
      by_cases hd : d = 0
      · simp [hd]
      · simp only [hd, if_false]
        exact sizeWalk_ends m fuel (p + d) _ (by omega) (by omega)

/-! ## Strings and buffers -/

theorem cstr_append_of_not_mem {N : List Nat} (X : List Nat) (hN : 0 ∉ N) :
    cstr (N ++ X) = N ++ cstr X := by
  induction N with
  | nil => rfl
  | cons b N ih =>
    have hb : b ≠ 0 := fun h => hN (by simp [h])
    have hN2 : 0 ∉ N := fun h => hN (by simp [h])
    have := ih hN2
    unfold cstr at this ⊢
    rw [List.cons_append, List.takeWhile_cons]
    simp [hb, this]

theorem cstr_not_mem (X : List Nat) : 0 ∉ cstr X := by
  unfold cstr
  intro h
  have := List.mem_takeWhile_imp h
  simp at this

theorem cstr_of_not_mem {N : List Nat} (hN : 0 ∉ N) : cstr N = N := by
  have := cstr_append_of_not_mem [] hN
  simpa [cstr] using this

theorem cstr_append_nul {N : List Nat} (X : List Nat) (hN : 0 ∉ N) : cstr (N ++ 0 :: X) = N := by
  rw [cstr_append_of_not_mem _ hN]
  simp [cstr]

theorem zero_mem_encodeRecs (rs : List SymRec) : 0 ∈ encodeRecs rs := by
  induction rs with
  | nil => simp [encodeRecs, le32]
  | cons r rs ih => simp [encodeRecs, ih]

theorem cstrAt_of_drop {m : List Nat} {i : Nat} {N : List Nat} {rs : List SymRec}
    (h : m.drop i = N ++ encodeRecs rs) (hN : 0 ∉ N) :
    cstrAt m i = some (N ++ cstr (encodeRecs rs)) := by
  unfold cstrAt
  rw [h, cstr_append_of_not_mem _ hN]
  simp [zero_mem_encodeRecs]

theorem strlenBuf_map {A : List Nat} (B : List Nat) (hA : 0 ∉ A) :
    strlenBuf ((A ++ 0 :: B).map some) = A.length := by
  induction A with
  | nil => simp [strlenBuf, List.takeWhile]
  | cons b A ih =>
    have hb : b ≠ 0 := fun h => hA (by simp [h])
    have hA2 : 0 ∉ A := fun h => hA (by simp [h])
    have := ih hA2
    unfold strlenBuf at this ⊢
    rw [List.cons_append, List.map_cons, List.takeWhile_cons]
    simp only [List.map_append, List.map_cons] at this
    simp [hb, this]

theorem writeBytes_tail (A B C : List Nat) (h : B.length ≤ C.length) :
    writeBytes ((A ++ B).map some) A.length C = (A ++ C).map some := by
  unfold writeBytes
  have h1 : List.take A.length (List.map some (A ++ B)) = A.map some := by
    rw [List.map_append, List.take_left']
    simp
  have h2 : List.drop (A.length + C.length) (List.map some (A ++ B)) = [] := by
    apply List.drop_eq_nil_of_le
    simp; omega
  rw [h1, h2]
  simp

theorem writeBytes_inside (A : List Nat) (b c : Nat) (B : List Nat) :
    writeBytes ((A ++ b :: B).map some) A.length [c] = (A ++ c :: B).map some := by
  unfold writeBytes
  have h1 : List.take A.length (List.map some (A ++ b :: B)) = A.map some := by
    rw [List.map_append, List.take_left']
    simp
  have h2 : List.drop (A.length + [c].length) (List.map some (A ++ b :: B)) = B.map some := by
    rw [List.map_append, List.drop_append_eq_append_drop]
    simp
  rw [h1, h2]
  simp

theorem strcpy_nil (M : List Nat) : strcpy [] M = (M ++ [0]).map some := by
  simp [strcpy, writeBytes]

theorem strcat_map {A : List Nat} (C : List Nat) (hA : 0 ∉ A) :
    strcat ((A ++ [0]).map some) C = (A ++ (C ++ [0])).map some := by
  unfold strcat
  rw [strlenBuf_map [] hA]
  exact writeBytes_tail A [0] (C ++ [0]) (by simp)

theorem bufString_map {A : List Nat} (B : List Nat) (hA : 0 ∉ A) :
    bufString ((A ++ 0 :: B).map some) = some A := by
  induction A with
  | nil => simp [bufString]
  | cons b A ih =>
    have hb : b ≠ 0 := fun h => hA (by simp [h])
    have hA2 : 0 ∉ A := fun h => hA (by simp [h])
    have := ih hA2
    rw [List.cons_append, List.map_cons]
    unfold bufString
    rw [this]
    simp [hb]

theorem bufString_not_mem : ∀ (buf : Buffer) (L : List Nat), bufString buf = some L → 0 ∉ L
  | [], L, h => by simp [bufString] at h
  | none :: _, L, h => by simp [bufString] at h
  | some b :: rest, L, h => by
    unfold bufString at h
    by_cases hb : b = 0
    · simp [hb] at h; subst h; simp
    · simp only [hb, if_false] at h
      cases hr : bufString rest with
      | none => simp [hr] at h
      | some L2 =>
        simp [hr] at h
        subst h
        have := bufString_not_mem rest L2 hr
        simp [this]
        exact fun h => hb h.symm

/-- The bytes the formatting code leaves in a fresh buffer: module, `!`, name,
the terminator, and after it what `strcat` copied beyond the name. -/
theorem format_buffer (M N X : List Nat) (hM : 0 ∉ M) :
    writeBytes (strcat (strcat (strcpy [] M) (bytesOf "!")) (N ++ X)) (M.length + 1 + N.length) [0]
      = ((M ++ bytesOf "!" ++ N) ++ 0 :: (X ++ [0]).tail).map some := by
  have h33 : bytesOf "!" = [33] := by decide
  rw [strcpy_nil, strcat_map _ hM, h33]
  have hA : 0 ∉ M ++ [33] := by simp [hM]
  have e1 : M ++ ([33] ++ [0]) = (M ++ [33]) ++ [0] := by simp
  rw [e1, strcat_map _ hA]
  have hlen : M.length + 1 + N.length = (M ++ [33] ++ N).length := by simp; omega
  rw [hlen]
  cases X with
  | nil =>
    have e2 : M ++ [33] ++ (N ++ [] ++ [0]) = (M ++ [33] ++ N) ++ 0 :: [] := by simp
    rw [e2, writeBytes_inside]
    simp
  | cons x X =>
    have e2 : M ++ [33] ++ (N ++ x :: X ++ [0]) = (M ++ [33] ++ N) ++ x :: (X ++ [0]) := by simp
    rw [e2, writeBytes_inside]
    simp

theorem format_string (M N X : List Nat) (hM : 0 ∉ M) (hN : 0 ∉ N) :
    bufString (writeBytes (strcat (strcat (strcpy [] M) (bytesOf "!")) (N ++ X))
      (M.length + 1 + N.length) [0]) = some (M ++ bytesOf "!" ++ N) := by
  rw [format_buffer M N X hM]
  apply bufString_map
  have h33 : bytesOf "!" = [33] := by decide
  simp [hM, hN, h33]

/-! ## The per-table lookup by address on an encoded file -/

theorem subULONG_addULONG (B O : Nat) (hO : O < ULONG_MOD) : subULONG (addULONG B O) B = O := by
  unfold subULONG addULONG ULONG_MOD at *
  omega

theorem format_len (m n : Nat) (h : m + 1 + n < ULONG_MOD) :
    (m + 1 + (SymNameOffset + n) + (ULONG_MOD - SymNameOffset)) % ULONG_MOD = m + 1 + n := by
  unfold ULONG_MOD SymNameOffset at *
  omega

/-- Records whose offset differs are stepped over. -/
theorem addr_walk_skip (Sym : MOD_SYM) (Offset : Nat) (Symbol : Buffer) (SymLen : Nat) :
    ∀ (pre rest : List SymRec) (p : Nat),
      Sym.LoadedSymbols.drop p = encodeRecs (pre ++ rest) →
      (∀ r ∈ pre, r.Wf) → (∀ r ∈ pre, r.SymOffset ≠ Offset) →
      ∃ q, Sym.LoadedSymbols.drop q = encodeRecs rest ∧
        ∀ fuel, SymGetSymbolByAddress.walk Sym Offset Symbol SymLen (pre.length + fuel) p =
          SymGetSymbolByAddress.walk Sym Offset Symbol SymLen fuel q
  | [], rest, p, h, _, _ => ⟨p, by simpa using h, fun fuel => by simp⟩
  | r :: pre, rest, p, h, hwf, hne => by
    have hr := reads_at_record (by simpa using h) (hwf r (by simp))
    obtain ⟨q, hq, hstep⟩ := addr_walk_skip Sym Offset Symbol SymLen pre rest
      (p + (SymNameOffset + r.SymName.length)) hr.2.2.2
      (fun x hx => hwf x (by simp [hx])) (fun x hx => hne x (by simp [hx]))
    refine ⟨q, hq, fun fuel => ?_⟩
    have e : (r :: pre).length + fuel = (pre.length + fuel) + 1 := by simp; omega
    rw [e, SymGetSymbolByAddress.walk, hr.1, hr.2.1]
    have h0 : SymNameOffset + r.SymName.length ≠ 0 := by unfold SymNameOffset; omega
    simp only [h0, if_false, hne r (by simp)]
    exact hstep fuel

theorem addr_walk_end (Sym : MOD_SYM) (Offset : Nat) (Symbol : Buffer) (SymLen : Nat)
    (p fuel : Nat) (h : Sym.LoadedSymbols.drop p = encodeRecs []) :
    SymGetSymbolByAddress.walk Sym Offset Symbol SymLen (fuel + 1) p =
      Run.done ⟨STATUS_NOT_FOUND, Symbol, SymLen⟩ := by
  rw [SymGetSymbolByAddress.walk, read_at_end h]
  simp

theorem addr_walk_hit (Sym : MOD_SYM) (SymLen : Nat) (r : SymRec) (post : List SymRec)
    (p fuel : Nat) (h : Sym.LoadedSymbols.drop p = encodeRecs (r :: post)) (hr : r.Wf)
    (hcap : (cstr Sym.ModName).length + 1 + r.SymName.length ≤ SymLen) (hlen : SymLen < ULONG_MOD) :
    SymGetSymbolByAddress.walk Sym r.SymOffset [] SymLen (fuel + 1) p =
      Run.done ⟨STATUS_SUCCESS, storedBytes (cstr Sym.ModName) r.SymName post,
        ((cstr Sym.ModName).length + 1 + r.SymName.length + 1) % ULONG_MOD⟩ := by
  have hrd := reads_at_record h hr
  rw [SymGetSymbolByAddress.walk, hrd.1, hrd.2.1]
  have h0 : SymNameOffset + r.SymName.length ≠ 0 := by unfold SymNameOffset; omega
  have hl := format_len (cstr Sym.ModName).length r.SymName.length (by omega)
  simp only [h0, if_false, if_true, hl, Nat.not_lt.mpr hcap, cstrAt_of_drop hrd.2.2.1 hr.2.2]
  rw [format_buffer _ _ _ (cstr_not_mem _)]
  rfl

theorem addr_walk_short (Sym : MOD_SYM) (Symbol : Buffer) (SymLen : Nat) (r : SymRec)
    (post : List SymRec) (p fuel : Nat)
    (h : Sym.LoadedSymbols.drop p = encodeRecs (r :: post)) (hr : r.Wf)
    (hcap : SymLen < (cstr Sym.ModName).length + 1 + r.SymName.length)
    (hlen : (cstr Sym.ModName).length + 1 + r.SymName.length < ULONG_MOD) :
    SymGetSymbolByAddress.walk Sym r.SymOffset Symbol SymLen (fuel + 1) p =
      Run.done ⟨STATUS_BUFFER_OVERFLOW, Symbol, SymLen⟩ := by
  have hrd := reads_at_record h hr
  rw [SymGetSymbolByAddress.walk, hrd.1, hrd.2.1]
  have h0 : SymNameOffset + r.SymName.length ≠ 0 := by unfold SymNameOffset; omega
  have hl := format_len (cstr Sym.ModName).length r.SymName.length hlen
  simp only [h0, if_false, if_true, hl, hcap]

theorem bufString_storedBytes (M N : List Nat) (post : List SymRec) (hM : 0 ∉ M) (hN : 0 ∉ N) :
    bufString (storedBytes M N post) = some (M ++ bytesOf "!" ++ N) := by
  unfold storedBytes
  apply bufString_map
  have h33 : bytesOf "!" = [33] := by decide
  simp [hM, hN, h33]

/-- The per-table lookup by address finds the first record with the offset. -/
theorem addr_lookup_first (T : Table) (pre post : List SymRec) (r : SymRec) (SymLen : Nat)
    (hrec : T.Records = pre ++ r :: post) (hwf : T.Wf)
    (hfirst : ∀ x ∈ pre, x.SymOffset ≠ r.SymOffset)
    (hcap : T.name.length + 1 + r.SymName.length ≤ SymLen) (hlen : SymLen < ULONG_MOD) :
    SymGetSymbolByAddress T.sym (T.addrOf r) [] SymLen =
      Run.done ⟨STATUS_SUCCESS, storedBytes T.name r.SymName post,
        (T.name.length + 1 + r.SymName.length + 1) % ULONG_MOD⟩ := by
  have hr : r.Wf := hwf r (by simp [hrec])
  unfold SymGetSymbolByAddress Table.addrOf
  have hoff : subULONG (addULONG T.sym.ImageBase r.SymOffset) T.sym.ImageBase = r.SymOffset :=
    subULONG_addULONG _ _ hr.1
  have hb : T.sym.LoadedSymbols.drop 4 = encodeRecs (pre ++ r :: post) := by
    rw [← hrec]; exact drop_four_encodeBlob _ _
  obtain ⟨q, hq, hstep⟩ := addr_walk_skip T.sym r.SymOffset [] SymLen pre (r :: post) 4 hb
    (fun x hx => hwf x (by simp [hrec, hx])) hfirst
  have hfuel : pre.length < T.sym.LoadedSymbols.length := by
    have h1 : T.Records.length < T.sym.LoadedSymbols.length :=
      encodeBlob_length_gt T.TimeDateStamp T.Records
    have h2 : T.Records.length = pre.length + (post.length + 1) := by rw [hrec]; simp
    omega
  obtain ⟨k, hk⟩ : ∃ k, T.sym.LoadedSymbols.length + 1 = pre.length + (k + 1) :=
    ⟨T.sym.LoadedSymbols.length - pre.length, by omega⟩
  have hoff2 : subULONG (addULONG T.ImageBase r.SymOffset) T.sym.ImageBase = r.SymOffset := hoff
  rw [hoff2, hk, hstep (k + 1)]
  exact addr_walk_hit T.sym SymLen r post q k hq hr hcap hlen

/-- The per-table lookup by address misses when no record has the offset. -/
theorem addr_lookup_miss (T : Table) (Address : Nat) (Symbol : Buffer) (SymLen : Nat) (hwf : T.Wf)
    (hne : ∀ x ∈ T.Records, x.SymOffset ≠ subULONG Address T.ImageBase) :
    SymGetSymbolByAddress T.sym Address Symbol SymLen =
      Run.done ⟨STATUS_NOT_FOUND, Symbol, SymLen⟩ := by
  unfold SymGetSymbolByAddress
  have hb : T.sym.LoadedSymbols.drop 4 = encodeRecs (T.Records ++ []) := by
    rw [List.append_nil]; exact drop_four_encodeBlob _ _
  obtain ⟨q, hq, hstep⟩ := addr_walk_skip T.sym (subULONG Address T.sym.ImageBase) Symbol SymLen
    T.Records [] 4 hb hwf hne
  have hfuel : T.Records.length < T.sym.LoadedSymbols.length :=
    encodeBlob_length_gt T.TimeDateStamp T.Records
  obtain ⟨k, hk⟩ : ∃ k, T.sym.LoadedSymbols.length + 1 = T.Records.length + (k + 1) :=
    ⟨T.sym.LoadedSymbols.length - T.Records.length, by omega⟩
  rw [hk, hstep (k + 1)]
  exact addr_walk_end T.sym _ Symbol SymLen q k hq

/-! ## The per-table lookup by name on an encoded file -/

theorem tolower_eq_zero {c : Nat} (h : tolower c = 0) : c = 0 := by
  unfold tolower at h
  split at h <;> omega

theorem strnicmp_same (rest : List Nat) :
    ∀ (N q : List Nat), sameName N q → strnicmpZero (N ++ rest) q N.length = some true
  | [], _, _ => by cases rest <;> simp [strnicmpZero]
  | c :: cs, [], hs => by simp [sameName] at hs
  | c :: cs, d :: ds, hs => by
    have hs2 : tolower c = tolower d ∧ sameName cs ds := by simpa [sameName] using hs
    have ih := strnicmp_same rest cs ds hs2.2
    simp only [List.length_cons, strnicmpZero, List.cons_append, List.headD_cons, hs2.1,
      if_true, List.tail_cons, Nat.add_sub_cancel, Nat.succ_ne_zero, if_false]
    split
    · rfl
    · exact ih

theorem strnicmp_differs (rest : List Nat) :
    ∀ (N q : List Nat), 0 ∉ N → ¬ prefixName N q →
      strnicmpZero (N ++ rest) q N.length = some false
  | [], q, _, hp => absurd (by simp [prefixName]) hp
  | c :: cs, q, hN, hp => by
    have hc : c ≠ 0 := fun e => hN (by simp [e])
    have hcs : 0 ∉ cs := fun e => hN (by simp [e])
    have hf : tolower c ≠ 0 := fun e => hc (tolower_eq_zero e)
    simp only [List.length_cons, strnicmpZero, List.cons_append, Nat.add_sub_cancel,
      Nat.succ_ne_zero, if_false]
    cases q with
    | nil =>
      have : tolower c ≠ tolower 0 := by simpa [tolower] using hf
      simp [this]
    | cons d ds =>
      by_cases e : tolower c = tolower d
      · have hp2 : ¬ prefixName cs ds := by
          intro hh
          apply hp
          unfold prefixName at hh ⊢
          simp only [List.map_cons, e]
          exact (List.cons_prefix_cons).mpr ⟨rfl, hh⟩
        have ih := strnicmp_differs rest cs ds hcs hp2
        simp only [List.headD_cons, e, if_true, List.tail_cons]
        rw [← e]
        simp only [hf, if_false]
        exact ih
      · simp [e]

theorem name_count (n : Nat) (h : SymNameOffset + n < ULONG_MOD) :
    (SymNameOffset + n + (ULONG_MOD - SymNameOffset)) % ULONG_MOD = n := by
  unfold ULONG_MOD SymNameOffset at *
  omega

/-- Records whose stored name is not a prefix of the query are stepped over. -/
theorem name_walk_skip (Sym : MOD_SYM) (Symbol : List Nat) (SymAddr : Option Nat) :
    ∀ (pre rest : List SymRec) (p : Nat),
      Sym.LoadedSymbols.drop p = encodeRecs (pre ++ rest) →
      (∀ r ∈ pre, r.Wf) → (∀ r ∈ pre, ¬ prefixName r.SymName Symbol) →
      ∃ q, Sym.LoadedSymbols.drop q = encodeRecs rest ∧
        ∀ fuel, SymGetSymbolByName.walk Sym Symbol SymAddr (pre.length + fuel) p =
          SymGetSymbolByName.walk Sym Symbol SymAddr fuel q
  | [], rest, p, h, _, _ => ⟨p, by simpa using h, fun fuel => by simp⟩
  | r :: pre, rest, p, h, hwf, hne => by
    have hrw := hwf r (by simp)
    have hr := reads_at_record (by simpa using h) hrw
    obtain ⟨q, hq, hstep⟩ := name_walk_skip Sym Symbol SymAddr pre rest
      (p + (SymNameOffset + r.SymName.length)) hr.2.2.2
      (fun x hx => hwf x (by simp [hx])) (fun x hx => hne x (by simp [hx]))
    refine ⟨q, hq, fun fuel => ?_⟩
    have e : (r :: pre).length + fuel = (pre.length + fuel) + 1 := by simp; omega
    rw [e, SymGetSymbolByName.walk, hr.1]
    have h0 : SymNameOffset + r.SymName.length ≠ 0 := by unfold SymNameOffset; omega
    simp only [h0, if_false]
    rw [name_count _ hrw.2.1, hr.2.2.1, strnicmp_differs _ _ _ hrw.2.2 (hne r (by simp))]
    exact hstep fuel

theorem name_walk_end (Sym : MOD_SYM) (Symbol : List Nat) (SymAddr : Option Nat)
    (p fuel : Nat) (h : Sym.LoadedSymbols.drop p = encodeRecs []) :
    SymGetSymbolByName.walk Sym Symbol SymAddr (fuel + 1) p =
      Run.done ⟨STATUS_NOT_FOUND, SymAddr⟩ := by
  rw [SymGetSymbolByName.walk, read_at_end h]
  simp

theorem name_walk_hit (Sym : MOD_SYM) (Symbol : List Nat) (SymAddr : Option Nat) (r : SymRec)
    (post : List SymRec) (p fuel : Nat)
    (h : Sym.LoadedSymbols.drop p = encodeRecs (r :: post)) (hr : r.Wf)
    (hs : sameName r.SymName Symbol) :
    SymGetSymbolByName.walk Sym Symbol SymAddr (fuel + 1) p =
      Run.done ⟨STATUS_SUCCESS, some (addULONG Sym.ImageBase r.SymOffset)⟩ := by
  have hrd := reads_at_record h hr
  rw [SymGetSymbolByName.walk, hrd.1]
  have h0 : SymNameOffset + r.SymName.length ≠ 0 := by unfold SymNameOffset; omega
  simp only [h0, if_false]
  rw [name_count _ hr.2.1, hrd.2.2.1, strnicmp_same _ _ _ hs]
  simp only [hrd.2.1]

theorem table_fuel (T : Table) (n : Nat) (h : n ≤ T.Records.length) :
    ∃ k, T.sym.LoadedSymbols.length + 1 = n + (k + 1) := by
  have hfuel : T.Records.length < T.sym.LoadedSymbols.length :=
    encodeBlob_length_gt T.TimeDateStamp T.Records
  exact ⟨T.sym.LoadedSymbols.length - n, by omega⟩

/-- The per-table lookup by name finds the first record whose stored name is a
prefix of the query, here a record with the queried name. -/
theorem name_lookup_first (T : Table) (pre post : List SymRec) (r : SymRec) (Symbol : List Nat)
    (SymAddr : Option Nat) (hrec : T.Records = pre ++ r :: post) (hwf : T.Wf)
    (hfirst : ∀ x ∈ pre, ¬ prefixName x.SymName Symbol) (hs : sameName r.SymName Symbol) :
    SymGetSymbolByName T.sym Symbol SymAddr = Run.done ⟨STATUS_SUCCESS, some (T.addrOf r)⟩ := by
  have hr : r.Wf := hwf r (by simp [hrec])
  unfold SymGetSymbolByName
  have hb : T.sym.LoadedSymbols.drop 4 = encodeRecs (pre ++ r :: post) := by
    rw [← hrec]; exact drop_four_encodeBlob _ _
  obtain ⟨q, hq, hstep⟩ := name_walk_skip T.sym Symbol SymAddr pre (r :: post) 4 hb
    (fun x hx => hwf x (by simp [hrec, hx])) hfirst
  obtain ⟨k, hk⟩ := table_fuel T pre.length (by rw [hrec]; simp)
  rw [hk, hstep (k + 1)]
  exact name_walk_hit T.sym Symbol SymAddr r post q k hq hr hs

/-- The per-table lookup by name misses when no stored name is a prefix of the
query. -/
theorem name_lookup_miss (T : Table) (Symbol : List Nat) (SymAddr : Option Nat) (hwf : T.Wf)
    (hne : ∀ x ∈ T.Records, ¬ prefixName x.SymName Symbol) :
    SymGetSymbolByName T.sym Symbol SymAddr = Run.done ⟨STATUS_NOT_FOUND, SymAddr⟩ := by
  unfold SymGetSymbolByName
  have hb : T.sym.LoadedSymbols.drop 4 = encodeRecs (T.Records ++ []) := by
    rw [List.append_nil]; exact drop_four_encodeBlob _ _
  obtain ⟨q, hq, hstep⟩ := name_walk_skip T.sym Symbol SymAddr T.Records [] 4 hb hwf hne
  obtain ⟨k, hk⟩ := table_fuel T T.Records.length (Nat.le_refl _)
  rw [hk, hstep (k + 1)]
  exact name_walk_end T.sym Symbol SymAddr q k hq

/-! ## The lookups over all tables of a store -/

theorem chain_append {st : SymState} :
    ∀ (pre rest : List (Nat × Table)) (p : Nat), Chain st p (pre ++ rest) →
      ∃ q, Chain st q rest
  | [], _, p, h => ⟨p, h⟩
  | _ :: pre, rest, _, h => chain_append pre rest _ h.2.2.2.2

/-- The global lookup by address returns the result of the first table whose
lookup succeeds, the earlier tables all missing. -/
theorem glob_addr_first (st : SymState) (Address : Nat) (Symbol : Buffer) (SymLen : Nat)
    (e : Nat × Table) (post : List (Nat × Table)) (r : SymbolResult)
    (hhit : SymGetSymbolByAddress e.2.sym Address Symbol SymLen = Run.done r)
    (hok : r.Status = STATUS_SUCCESS) :
    ∀ (pre : List (Nat × Table)) (p : Nat), Chain st p (pre ++ e :: post) →
      (∀ x ∈ pre, SymGetSymbolByAddress x.2.sym Address Symbol SymLen =
        Run.done ⟨STATUS_NOT_FOUND, Symbol, SymLen⟩) →
      ∀ fuel Status, SymGlobGetSymbolByAddress.loop st Address (pre.length + fuel + 1) p Status
        Symbol SymLen = Run.done r
  | [], p, hc, _, fuel, Status => by
    obtain ⟨hp, hh, _, hpool, _⟩ := hc
    subst hp
    have e1 : ([] : List (Nat × Table)).length + fuel + 1 = fuel + 1 := by simp
    rw [e1, SymGlobGetSymbolByAddress.loop]
    simp only [hh, if_false, hpool, hhit, hok, if_true]
  | x :: pre, p, hc, hmiss, fuel, Status => by
    obtain ⟨hp, hh, _, hpool, hrest⟩ := hc
    subst hp
    have ih := glob_addr_first st Address Symbol SymLen e post r hhit hok pre _ hrest
      (fun y hy => hmiss y (by simp [hy])) fuel STATUS_NOT_FOUND
    have e1 : (x :: pre).length + fuel + 1 = (pre.length + fuel + 1) + 1 := by simp; omega
    rw [e1, SymGlobGetSymbolByAddress.loop]
    have hne : STATUS_NOT_FOUND ≠ STATUS_SUCCESS := by decide
    simp only [hh, if_false, hpool, hmiss x (by simp), hne]
    exact ih

/-- The global lookup by name returns the result of the first table whose
lookup succeeds, the earlier tables all missing. -/
theorem glob_name_first (st : SymState) (Symbol : List Nat) (SymAddr : Option Nat)
    (e : Nat × Table) (post : List (Nat × Table)) (r : NameResult)
    (hhit : SymGetSymbolByName e.2.sym Symbol SymAddr = Run.done r)
    (hok : r.Status = STATUS_SUCCESS) :
    ∀ (pre : List (Nat × Table)) (p : Nat), Chain st p (pre ++ e :: post) →
      (∀ x ∈ pre, SymGetSymbolByName x.2.sym Symbol SymAddr =
        Run.done ⟨STATUS_NOT_FOUND, SymAddr⟩) →
      ∀ fuel Status, SymGlobGetSymbolByName.loop st Symbol (pre.length + fuel + 1) p Status
        SymAddr = Run.done r
  | [], p, hc, _, fuel, Status => by
    obtain ⟨hp, hh, _, hpool, _⟩ := hc
    subst hp
    have e1 : ([] : List (Nat × Table)).length + fuel + 1 = fuel + 1 := by simp
    rw [e1, SymGlobGetSymbolByName.loop]
    simp only [hh, if_false, hpool, hhit, hok, if_true]
  | x :: pre, p, hc, hmiss, fuel, Status => by
    obtain ⟨hp, hh, _, hpool, hrest⟩ := hc
    subst hp
    have ih := glob_name_first st Symbol SymAddr e post r hhit hok pre _ hrest
      (fun y hy => hmiss y (by simp [hy])) fuel STATUS_NOT_FOUND
    have e1 : (x :: pre).length + fuel + 1 = (pre.length + fuel + 1) + 1 := by simp; omega
    rw [e1, SymGlobGetSymbolByName.loop]
    have hne : STATUS_NOT_FOUND ≠ STATUS_SUCCESS := by decide
    simp only [hh, if_false, hpool, hmiss x (by simp), hne]
    exact ih

/-! ## The nearest lookup as a minimum search -/

theorem scan_eq_pick (a : Nat) (T : Table) (Address : Nat) :
    ∀ (rs : List SymRec) (p : Nat) (s : NearestMin) (fuel : Nat),
      T.sym.LoadedSymbols.drop p = encodeRecs rs → (∀ r ∈ rs, r.Wf) → rs.length < fuel →
      SymGlobGetNearestSymbolByAddress.scan a T.sym Address fuel p s =
        Run.done (pick Address s (candsFrom a T p rs))
  | _, _, _, 0, _, _, hf => absurd hf (Nat.not_lt_zero _)
  | [], p, s, fuel + 1, h, _, _ => by
    rw [SymGlobGetNearestSymbolByAddress.scan, read_at_end h]
    simp [candsFrom, pick]
  | r :: rs, p, s, fuel + 1, h, hwf, hf => by
    have hr := reads_at_record h (hwf r (by simp))
    have h0 : SymNameOffset + r.SymName.length ≠ 0 := by unfold SymNameOffset; omega
    rw [SymGlobGetNearestSymbolByAddress.scan, hr.1, hr.2.1]
    simp only [h0, if_false]
    rw [scan_eq_pick a T Address rs _ _ fuel hr.2.2.2 (fun x hx => hwf x (by simp [hx]))
      (by simpa using hf)]
    rfl

theorem pick_append (Address : Nat) (s : NearestMin) (xs ys : List Cand) :
    pick Address s (xs ++ ys) = pick Address (pick Address s xs) ys := by
  simp [pick, List.foldl_append]

theorem loop_eq_pick (st : SymState) (Address : Nat) :
    ∀ (ts : List (Nat × Table)) (p : Nat) (s : NearestMin) (fuel : Nat),
      Chain st p ts → (∀ e ∈ ts, e.2.Wf) → ts.length < fuel →
      SymGlobGetNearestSymbolByAddress.loop st Address fuel p s =
        Run.done (pick Address s (storeCands ts))
  | _, _, _, 0, _, _, hf => absurd hf (Nat.not_lt_zero _)
  | [], p, s, fuel + 1, hc, _, _ => by
    have hp : p = SymListHead := hc
    rw [SymGlobGetNearestSymbolByAddress.loop]
    simp [hp, storeCands, pick]
  | e :: ts, p, s, fuel + 1, hc, hwf, hf => by
    obtain ⟨hp, hh, _, hpool, hrest⟩ := hc
    subst hp
    rw [SymGlobGetNearestSymbolByAddress.loop]
    simp only [hh, if_false, hpool]
    obtain ⟨k, hk⟩ := table_fuel e.2 e.2.Records.length (Nat.le_refl _)
    rw [scan_eq_pick e.1 e.2 Address e.2.Records 4 s _ (drop_four_encodeBlob _ _)
      (hwf e (by simp)) (by omega)]
    simp only
    rw [loop_eq_pick st Address ts _ _ fuel hrest (fun x hx => hwf x (by simp [hx]))
      (by simpa using hf)]
    simp [storeCands, pick_append]

theorem pick_keep (Address : Nat) :
    ∀ (cs : List Cand) (s : NearestMin), (∀ x ∈ cs, s.MinimumDistance ≤ x.dist Address) →
      pick Address s cs = s
  | [], _, _ => rfl
  | c :: cs, s, h => by
    have hc : ¬ c.dist Address < s.MinimumDistance := Nat.not_lt.mpr (h c (by simp))
    have : pick Address s (c :: cs) = pick Address s cs := by
      simp [pick, pickStep, hc]
    rw [this]
    exact pick_keep Address cs s (fun x hx => h x (by simp [hx]))

theorem pick_above (Address d : Nat) :
    ∀ (cs : List Cand) (s : NearestMin), (∀ x ∈ cs, d < x.dist Address) →
      d < s.MinimumDistance → d < (pick Address s cs).MinimumDistance
  | [], _, _, hs => hs
  | c :: cs, s, h, hs => by
    have : pick Address s (c :: cs) = pick Address (pickStep Address s c) cs := by simp [pick]
    rw [this]
    apply pick_above Address d cs _ (fun x hx => h x (by simp [hx]))
    unfold pickStep
    split
    · exact h c (by simp)
    · exact hs

/-- The search ends on a record that is strictly nearer than every earlier
record and at least as near as every later one. -/
theorem pick_target (Address : Nat) (s : NearestMin) (pre post : List Cand) (c : Cand)
    (hpre : ∀ x ∈ pre, c.dist Address < x.dist Address)
    (hpost : ∀ x ∈ post, c.dist Address ≤ x.dist Address)
    (hs : c.dist Address < s.MinimumDistance) :
    pick Address s (pre ++ c :: post) = ⟨c.dist Address, some c.Info, c.Sym⟩ := by
  have h1 := pick_above Address (c.dist Address) pre s hpre hs
  rw [pick_append]
  have h2 : pick Address (pick Address s pre) (c :: post) =
      pick Address ⟨c.dist Address, some c.Info, c.Sym⟩ post := by
    have h3 : pickStep Address (pick Address s pre) c = ⟨c.dist Address, some c.Info, c.Sym⟩ := by
      simp [pickStep, h1]
    show List.foldl (pickStep Address) (pickStep Address (pick Address s pre) c) post = _
    rw [h3]
    rfl
  rw [h2]
  exact pick_keep Address post _ hpost

/-- The search either keeps its start, every record being no nearer, or ends on
a record that is nearer than the start and no farther than any record. -/
theorem pick_spec (Address : Nat) :
    ∀ (cs : List Cand) (s : NearestMin),
      (pick Address s cs = s ∧ ∀ x ∈ cs, s.MinimumDistance ≤ x.dist Address) ∨
      ∃ c ∈ cs, pick Address s cs = ⟨c.dist Address, some c.Info, c.Sym⟩ ∧
        c.dist Address < s.MinimumDistance ∧ ∀ x ∈ cs, c.dist Address ≤ x.dist Address
  | [], s => Or.inl ⟨rfl, fun _ hx => by simp at hx⟩
  | c :: cs, s => by
    have hstep : pick Address s (c :: cs) = pick Address (pickStep Address s c) cs := by
      simp [pick]
    rw [hstep]
    by_cases hc : c.dist Address < s.MinimumDistance
    · have hs1 : pickStep Address s c = ⟨c.dist Address, some c.Info, c.Sym⟩ := by
        simp [pickStep, hc]
      rw [hs1]
      rcases pick_spec Address cs ⟨c.dist Address, some c.Info, c.Sym⟩ with ⟨h1, h2⟩ | ⟨y, hy, h1, h2, h3⟩
      · refine Or.inr ⟨c, by simp, h1, hc, ?_⟩
        intro x hx
        rcases List.mem_cons.mp hx with rfl | hx
        · exact Nat.le_refl _
        · exact h2 x hx
      · refine Or.inr ⟨y, by simp [hy], h1, Nat.lt_trans h2 hc, ?_⟩
        intro x hx
        rcases List.mem_cons.mp hx with rfl | hx
        · exact Nat.le_of_lt h2
        · exact h3 x hx
    · have hs1 : pickStep Address s c = s := by simp [pickStep, hc]
      rw [hs1]
      rcases pick_spec Address cs s with ⟨h1, h2⟩ | ⟨y, hy, h1, h2, h3⟩
      · refine Or.inl ⟨h1, ?_⟩
        intro x hx
        rcases List.mem_cons.mp hx with rfl | hx
        · exact Nat.not_lt.mp hc
        · exact h2 x hx
      · refine Or.inr ⟨y, by simp [hy], h1, h2, ?_⟩
        intro x hx
        rcases List.mem_cons.mp hx with rfl | hx
        · exact Nat.le_trans (Nat.le_of_lt h2) (Nat.not_lt.mp hc)
        · exact h3 x hx

theorem candsFrom_ok (st : SymState) (a : Nat) (T : Table) (ha : a ≠ NULL)
    (hpool : st.pool a = some T.sym) :
    ∀ (rs : List SymRec) (p : Nat), T.sym.LoadedSymbols.drop p = encodeRecs rs →
      (∀ r ∈ rs, r.Wf) → ∀ c ∈ candsFrom a T p rs, CandOk st c ∧ c.Sym = a ∧ c.T = T ∧ c.r ∈ rs
  | [], _, _, _, c, hc => by simp [candsFrom] at hc
  | r :: rs, p, h, hwf, c, hc => by
    have hr := reads_at_record h (hwf r (by simp))
    rcases List.mem_cons.mp hc with rfl | hc
    · exact ⟨⟨ha, hpool, hwf r (by simp), rs, h⟩, rfl, rfl, by simp⟩
    · have := candsFrom_ok st a T ha hpool rs _ hr.2.2.2 (fun x hx => hwf x (by simp [hx])) c hc
      exact ⟨this.1, this.2.1, this.2.2.1, by simp [this.2.2.2]⟩

theorem storeCands_ok (st : SymState) :
    ∀ (ts : List (Nat × Table)) (p : Nat), Chain st p ts → (∀ e ∈ ts, e.2.Wf) →
      ∀ c ∈ storeCands ts, CandOk st c ∧ ∃ e ∈ ts, c.Sym = e.1 ∧ c.T = e.2 ∧ c.r ∈ e.2.Records
  | [], _, _, _, c, hc => by simp [storeCands] at hc
  | e :: ts, p, hch, hwf, c, hc => by
    obtain ⟨_, _, hnull, hpool, hrest⟩ := hch
    rcases List.mem_append.mp hc with hc | hc
    · have := candsFrom_ok st e.1 e.2 hnull hpool e.2.Records 4 (drop_four_encodeBlob _ _)
        (hwf e (by simp)) c hc
      exact ⟨this.1, e, by simp, this.2⟩
    · obtain ⟨h1, e2, he2, h2⟩ := storeCands_ok st ts _ hrest (fun x hx => hwf x (by simp [hx])) c hc
      exact ⟨h1, e2, by simp [he2], h2⟩

/-- Formatting the record the search ended on, the buffer being large enough. -/
theorem format_ok (st : SymState) (Status0 d : Nat) (c : Cand) (SymLen : Nat) (hc : CandOk st c)
    (hcap : c.text.length ≤ SymLen) (hlen : SymLen < ULONG_MOD) :
    ∃ post, SymGlobGetNearestSymbolByAddress.format st Status0 ⟨d, some c.Info, c.Sym⟩ [] SymLen =
      Run.done ⟨Status0, storedBytes c.T.name c.r.SymName post,
        (c.text.length + 1) % ULONG_MOD, some d⟩ := by
  obtain ⟨hnull, hpool, hr, post, hdrop⟩ := hc
  refine ⟨post, ?_⟩
  have hrd := reads_at_record hdrop hr
  have htl : c.text.length = (cstr c.T.sym.ModName).length + 1 + c.r.SymName.length := by
    have h33 : bytesOf "!" = [33] := by decide
    simp [Cand.text, Table.name, Table.sym, h33]
    omega
  have h0 : SymNameOffset + c.r.SymName.length ≠ 0 := by unfold SymNameOffset; omega
  have hl := format_len (cstr c.T.sym.ModName).length c.r.SymName.length (by omega)
  unfold SymGlobGetNearestSymbolByAddress.format
  simp only [hnull, if_false, hpool, hrd.1, hl]
  have hcap2 : ¬ SymLen < (cstr c.T.sym.ModName).length + 1 + c.r.SymName.length := by omega
  simp only [hcap2, if_false, cstrAt_of_drop hrd.2.2.1 hr.2.2]
  rw [format_buffer _ _ _ (cstr_not_mem _), htl]
  rfl

theorem addr_le_of_dist_le (A a : Nat) (hA : A < ULONG_MOD) (ha : a < ULONG_MOD)
    (h : subULONG A a ≤ A) : a ≤ A := by
  unfold subULONG ULONG_MOD at *
  omega

theorem dist_of_addr_le (A a : Nat) (hA : A < ULONG_MOD) (h : a ≤ A) : subULONG A a = A - a := by
  unfold subULONG ULONG_MOD at *
  omega

theorem dist_of_lt_addr (A a : Nat) (ha : a < ULONG_MOD) (h : A < a) :
    subULONG A a = A + ULONG_MOD - a := by
  unfold subULONG ULONG_MOD at *
  omega

theorem cand_addr_lt (c : Cand) : c.addr < ULONG_MOD := by
  unfold Cand.addr Table.addrOf addULONG
  exact Nat.mod_lt _ (by decide)

/-! ## Two defects, in general -/

/-- On a list that is not empty `SymUnloadSymbolFile` leaves the links of
`SymListHead` as they were and frees the object: the entry that was first stays
first, also when it is the one being unloaded. -/
theorem unload_leaves_head_links (st : SymState) (Sym : Nat) (t : MOD_SYM)
    (hF : (st.list SymListHead).Flink ≠ SymListHead)
    (hB : (st.list SymListHead).Blink ≠ SymListHead) (hp : st.pool Sym = some t) :
    ∃ s, SymUnloadSymbolFile st Sym = Run.done s ∧
      s.list SymListHead = st.list SymListHead ∧ s.pool Sym = none := by
  unfold SymUnloadSymbolFile InternalSymUnloadSymbolTable
  simp only [hp]
  refine ⟨_, rfl, ?_, ?_⟩
  · simp [RemoveEntryList, setCell, hF.symm, hB.symm]
  · simp

/-- On a store whose tables have no record the nearest lookup reads through the
null `MinModule`. -/
theorem nearest_faults_without_records (st : SymState) (ts : List (Nat × Table))
    (fuel Status0 Address : Nat) (Symbol : Buffer) (SymLen : Nat)
    (hst : Holds st ts) (hwf : ∀ e ∈ ts, e.2.Wf) (hfuel : ts.length < fuel)
    (hnone : storeCands ts = []) :
    SymGlobGetNearestSymbolByAddress st fuel Status0 Address Symbol SymLen = Run.fault := by
  unfold SymGlobGetNearestSymbolByAddress
  rw [loop_eq_pick st Address ts _ _ fuel hst hwf hfuel, hnone]
  simp [pick, SymGlobGetNearestSymbolByAddress.format]

/-! ## Claims -/

theorem addULONG_subULONG (A B : Nat) (hA : A < ULONG_MOD) : addULONG B (subULONG A B) = A := by
  unfold subULONG addULONG ULONG_MOD at *
  omega

/-- C1, counterexample: in the scenario of the specification the nearest lookup
of `0x0FF0`, an address below every symbol, does not report `STATUS_NOT_FOUND`:
it selects `Worker`, the record at `0x1040`, which lies after the query
address, and hands back `driver!Worker` with the distance `0xFFFFFFB0`. -/
theorem nearest_selects_symbol_after_query :
    Holds driverStore [(0x100, driverTable)] ∧
    SymGlobGetNearestSymbolByAddress.loop driverStore 0x0FF0 2
      (driverStore.list SymListHead).Flink ⟨0xFFFFFFFF, none, NULL⟩ =
        Run.done ⟨0xFFFFFFB0, some 16, 0x100⟩ ∧
    SymGlobGetNearestSymbolByAddress driverStore 2 STATUS_SUCCESS 0x0FF0 [] 100 =
      Run.done ⟨STATUS_SUCCESS, storedBytes (bytesOf "driver") (bytesOf "Worker") [], 14,
        some 0xFFFFFFB0⟩ ∧
    bufString (storedBytes (bytesOf "driver") (bytesOf "Worker") []) =
      some (bytesOf "driver!Worker") ∧
    ¬ (driverTable.addrOf ⟨0x40, bytesOf "Worker"⟩ ≤ 0x0FF0) := by
  decide

/-- C1, amended: on a store of well-formed tables in which some record has a
wraparound distance `(A - (B+O)) mod 2^32` other than `0xFFFFFFFF`, the nearest
lookup of a 32-bit address `A`, given a buffer that is large enough, selects a
record whose wraparound distance is minimal over all records of all tables and
hands back its text and that distance.  If some record lies at or before `A`,
the selected record lies at or before `A` (`B+O <= A`) and the distance is
`A - (B+O)`.  If every record lies after `A` a record is selected all the same:
the lookup has no not-found exit. -/
theorem nearest_minimises_wraparound_distance (st : SymState) (ts : List (Nat × Table))
    (fuel Status0 Address SymLen : Nat)
    (hst : Holds st ts) (hwf : ∀ e ∈ ts, e.2.Wf) (hfuel : ts.length < fuel)
    (hA : Address < ULONG_MOD) (hlen : SymLen < ULONG_MOD)
    (hcap : ∀ x ∈ storeCands ts, x.text.length ≤ SymLen)
    (hsome : ∃ x ∈ storeCands ts, x.dist Address < 0xFFFFFFFF) :
    ∃ c ∈ storeCands ts, ∃ r,
      SymGlobGetNearestSymbolByAddress st fuel Status0 Address [] SymLen = Run.done r ∧
      bufString r.Symbol = some c.text ∧ r.Distance = some (c.dist Address) ∧
      (∀ x ∈ storeCands ts, c.dist Address ≤ x.dist Address) ∧
      ((∃ x ∈ storeCands ts, x.addr ≤ Address) →
        c.addr ≤ Address ∧ c.dist Address = Address - c.addr) := by
  have hloop := loop_eq_pick st Address ts _ ⟨0xFFFFFFFF, none, NULL⟩ fuel hst hwf hfuel
  rcases pick_spec Address (storeCands ts) ⟨0xFFFFFFFF, none, NULL⟩ with
    ⟨_, h2⟩ | ⟨c, hc, h1, _, h3⟩
  · obtain ⟨x, hx, hxd⟩ := hsome
    exact absurd (h2 x hx) (Nat.not_le.mpr hxd)
  · have hok := (storeCands_ok st ts _ hst hwf c hc).1
    obtain ⟨post, hfmt⟩ := format_ok st Status0 (c.dist Address) c SymLen hok (hcap c hc) hlen
    refine ⟨c, hc, ⟨Status0, storedBytes c.T.name c.r.SymName post,
      (c.text.length + 1) % ULONG_MOD, some (c.dist Address)⟩, ?_, ?_, rfl, h3, ?_⟩
    · unfold SymGlobGetNearestSymbolByAddress
      rw [hloop, h1]
      exact hfmt
    · exact bufString_storedBytes _ _ _ (cstr_not_mem _) hok.2.2.1.2.2
    · rintro ⟨x, hx, hxa⟩
      have hd : x.dist Address = Address - x.addr := dist_of_addr_le Address x.addr hA hxa
      have hle : c.dist Address ≤ Address := by
        have := h3 x hx
        omega
      have hca := addr_le_of_dist_le Address c.addr hA (cand_addr_lt c) hle
      exact ⟨hca, dist_of_addr_le Address c.addr hA hca⟩

/-- C1, witness: the amended statement at the scenario of the specification and
the query `0x0FF0`. -/
theorem nearest_minimises_wraparound_distance_witness :
    ∃ c ∈ storeCands [(0x100, driverTable)], ∃ r,
      SymGlobGetNearestSymbolByAddress driverStore 2 STATUS_SUCCESS 0x0FF0 [] 100 = Run.done r ∧
      bufString r.Symbol = some c.text ∧ r.Distance = some (c.dist 0x0FF0) ∧
      (∀ x ∈ storeCands [(0x100, driverTable)], c.dist 0x0FF0 ≤ x.dist 0x0FF0) ∧
      ((∃ x ∈ storeCands [(0x100, driverTable)], x.addr ≤ 0x0FF0) →
        c.addr ≤ 0x0FF0 ∧ c.dist 0x0FF0 = 0x0FF0 - c.addr) :=
  nearest_minimises_wraparound_distance driverStore [(0x100, driverTable)] 2 STATUS_SUCCESS
    0x0FF0 100 (by decide) (by decide) (by decide) (by decide) (by decide) (by decide) (by decide)

/-- C2, counterexample: in a table that has two records with the offset `0x10`,
`Init` and then `Start`, the lookup of the address of `Start` produces
`driver!Init`, so the round trip fails for the record `Start`. -/
theorem address_round_trip_fails_for_alias :
    ¬ ∀ r ∈ aliasTable.Records, ∃ res,
      SymGetSymbolByAddress aliasTable.sym (aliasTable.addrOf r) [] 100 = Run.done res ∧
      res.Status = STATUS_SUCCESS ∧
      bufString res.Symbol = some (aliasTable.name ++ bytesOf "!" ++ r.SymName) := by
  intro h
  obtain ⟨res, h1, _, h3⟩ := h ⟨0x10, bytesOf "Start"⟩ (by decide)
  have h2 : SymGetSymbolByAddress aliasTable.sym (aliasTable.addrOf ⟨0x10, bytesOf "Start"⟩) [] 100
      = Run.done ⟨STATUS_SUCCESS,
          storedBytes (bytesOf "driver") (bytesOf "Init") [⟨0x10, bytesOf "Start"⟩], 12⟩ := by
    decide
  rw [h2] at h1
  cases h1
  revert h3
  decide

/-- C2, amended: for a well-formed table loaded for module `M` at base `B` and
a record `(O, N)` that is the first record of the table with the offset `O`,
`SymGetSymbolByAddress` on the address `B+O`, with a buffer that has room for
`M!N` and its terminator, succeeds and produces exactly `M!N`; so does
`SymGlobGetSymbolByAddress` when the tables before this one in the store are
well formed and have no record at the address `B+O`. -/
theorem address_round_trip_first_match (st : SymState) (tpre tpost : List (Nat × Table))
    (a : Nat) (T : Table) (pre post : List SymRec) (r : SymRec) (fuel Status0 SymLen : Nat)
    (hst : Holds st (tpre ++ (a, T) :: tpost)) (hfuel : tpre.length < fuel)
    (hrec : T.Records = pre ++ r :: post) (hwf : T.Wf)
    (hfirst : ∀ x ∈ pre, x.SymOffset ≠ r.SymOffset)
    (hearlier : ∀ e ∈ tpre, e.2.Wf ∧ ∀ x ∈ e.2.Records, e.2.addrOf x ≠ T.addrOf r)
    (hcap : T.name.length + 1 + r.SymName.length < SymLen) (hlen : SymLen < ULONG_MOD) :
    (∃ res, SymGetSymbolByAddress T.sym (T.addrOf r) [] SymLen = Run.done res ∧
      res.Status = STATUS_SUCCESS ∧
      bufString res.Symbol = some (T.name ++ bytesOf "!" ++ r.SymName) ∧
      res.SymLen = T.name.length + 1 + r.SymName.length + 1) ∧
    (∃ res, SymGlobGetSymbolByAddress st fuel Status0 (T.addrOf r) [] SymLen = Run.done res ∧
      res.Status = STATUS_SUCCESS ∧
      bufString res.Symbol = some (T.name ++ bytesOf "!" ++ r.SymName) ∧
      res.SymLen = T.name.length + 1 + r.SymName.length + 1) := by
  have hr : r.Wf := hwf r (by simp [hrec])
  have hone := addr_lookup_first T pre post r SymLen hrec hwf hfirst (Nat.le_of_lt hcap) hlen
  have hmod : (T.name.length + 1 + r.SymName.length + 1) % ULONG_MOD =
      T.name.length + 1 + r.SymName.length + 1 := Nat.mod_eq_of_lt (by omega)
  have hstr := bufString_storedBytes T.name r.SymName post (cstr_not_mem _) hr.2.2
  have hA : T.addrOf r < ULONG_MOD := Nat.mod_lt _ (by decide)
  refine ⟨⟨⟨STATUS_SUCCESS, storedBytes T.name r.SymName post,
      (T.name.length + 1 + r.SymName.length + 1) % ULONG_MOD⟩, hone, rfl, hstr, hmod⟩,
    ⟨⟨STATUS_SUCCESS, storedBytes T.name r.SymName post,
      (T.name.length + 1 + r.SymName.length + 1) % ULONG_MOD⟩, ?_, rfl, hstr, hmod⟩⟩
  obtain ⟨k, hk⟩ : ∃ k, fuel = tpre.length + k + 1 := ⟨fuel - tpre.length - 1, by omega⟩
  unfold SymGlobGetSymbolByAddress
  rw [hk]
  apply glob_addr_first st (T.addrOf r) [] SymLen (a, T) tpost _ hone rfl tpre _ hst
  intro e he
  apply addr_lookup_miss e.2 _ _ _ (hearlier e he).1
  intro x hx heq
  apply (hearlier e he).2 x hx
  unfold Table.addrOf at heq ⊢
  rw [heq]
  exact addULONG_subULONG _ _ hA

/-- C2, witness: the scenario of the specification, `0x1010` gives
`driver!Init`. -/
theorem address_round_trip_first_match_witness :
    (∃ res, SymGetSymbolByAddress driverTable.sym 0x1010 [] 100 = Run.done res ∧
      res.Status = STATUS_SUCCESS ∧ bufString res.Symbol = some (bytesOf "driver!Init") ∧
      res.SymLen = 12) ∧
    (∃ res, SymGlobGetSymbolByAddress driverStore 2 STATUS_NOT_FOUND 0x1010 [] 100 =
        Run.done res ∧
      res.Status = STATUS_SUCCESS ∧ bufString res.Symbol = some (bytesOf "driver!Init") ∧
      res.SymLen = 12) :=
  address_round_trip_first_match driverStore [] [] 0x100 driverTable []
    [⟨0x40, bytesOf "Worker"⟩] ⟨0x10, bytesOf "Init"⟩ 2 STATUS_NOT_FOUND 100
    (by decide) (by decide) (by decide) (by decide) (by decide) (by decide) (by decide)
    (by decide)

/-- C3, counterexample: in a table with the records `Init` and then
`InitWorker`, the lookup of the name `InitWorker` returns the address of
`Init`, so the round trip fails for the record `InitWorker`. -/
theorem name_round_trip_fails_after_shorter_name :
    ¬ ∀ r ∈ prefixTable.Records,
      SymGetSymbolByName prefixTable.sym r.SymName none =
        Run.done ⟨STATUS_SUCCESS, some (prefixTable.addrOf r)⟩ := by
  decide

/-- C3, amended: for a well-formed table at base `B`, a record `(O, N)` and a
query `q` that equals `N` up to letter case, such that no record before it in
the table has a stored name that is, up to letter case, a prefix of `q` (an
equal name included), `SymGetSymbolByName` succeeds and returns `B+O`; so does
`SymGlobGetSymbolByName` when the tables before this one in the store are well
formed and have no record whose stored name is such a prefix. -/
theorem name_round_trip_first_match (st : SymState) (tpre tpost : List (Nat × Table))
    (a : Nat) (T : Table) (pre post : List SymRec) (r : SymRec) (q : List Nat)
    (fuel Status0 : Nat)
    (hst : Holds st (tpre ++ (a, T) :: tpost)) (hfuel : tpre.length < fuel)
    (hrec : T.Records = pre ++ r :: post) (hwf : T.Wf)
    (hq : sameName r.SymName q)
    (hfirst : ∀ x ∈ pre, ¬ prefixName x.SymName q)
    (hearlier : ∀ e ∈ tpre, e.2.Wf ∧ ∀ x ∈ e.2.Records, ¬ prefixName x.SymName q) :
    SymGetSymbolByName T.sym q none = Run.done ⟨STATUS_SUCCESS, some (T.addrOf r)⟩ ∧
    SymGlobGetSymbolByName st fuel Status0 q none =
      Run.done ⟨STATUS_SUCCESS, some (T.addrOf r)⟩ := by
  have hone := name_lookup_first T pre post r q none hrec hwf hfirst hq
  refine ⟨hone, ?_⟩
  obtain ⟨k, hk⟩ : ∃ k, fuel = tpre.length + k + 1 := ⟨fuel - tpre.length - 1, by omega⟩
  unfold SymGlobGetSymbolByName
  rw [hk]
  apply glob_name_first st q none (a, T) tpost _ hone rfl tpre _ hst
  intro e he
  exact name_lookup_miss e.2 q none (hearlier e he).1 (hearlier e he).2

/-- C3, witness: the scenario of the specification, the name `worker` resolves
to `0x1040`. -/
theorem name_round_trip_first_match_witness :
    SymGetSymbolByName driverTable.sym (bytesOf "worker") none =
      Run.done ⟨STATUS_SUCCESS, some 0x1040⟩ ∧
    SymGlobGetSymbolByName driverStore 2 STATUS_NOT_FOUND (bytesOf "worker") none =
      Run.done ⟨STATUS_SUCCESS, some 0x1040⟩ :=
  name_round_trip_first_match driverStore [] [] 0x100 driverTable [⟨0x10, bytesOf "Init"⟩] []
    ⟨0x40, bytesOf "Worker"⟩ (bytesOf "worker") 2 STATUS_NOT_FOUND
    (by decide) (by decide) (by decide) (by decide) (by decide) (by decide) (by decide)

/-- C4: unloading `driver` from the store that holds `driver` and then `other`
unlinks `SymListHead` instead of the entry: the freed `driver` object is still
the first entry after the head, the store does not hold `other` alone, and the
lookup of `0x2020`, a symbol of `other`, runs into the freed object. -/
theorem unload_unlinks_list_head :
    Holds twoStore [(0x100, driverTable), (0x200, otherTable)] ∧
    ∃ s, SymUnloadSymbolFile twoStore 0x100 = Run.done s ∧
      s.pool 0x100 = none ∧ (s.list SymListHead).Flink = 0x100 ∧
      ¬ Holds s [(0x200, otherTable)] ∧
      SymGlobGetSymbolByAddress s 3 STATUS_NOT_FOUND 0x2020 [] 100 = Run.fault :=
  ⟨by decide, _, rfl, by decide, by decide, by decide, by decide⟩

/-- C5: after `SymInitialize`, a successful `SymLoadSymbolFile` of `driver.sys`
and `SymUnloadSymbolFile` of the loaded table, the freed table is still
reachable from the list head, its `Flink` points to itself, so the walk from
the head never comes back to the head, and `SymFreeSymbolTables` as well as the
lookups run into the freed object. -/
theorem freed_table_stays_reachable :
    ∃ s1 s2, SymLoadSymbolFile driverEnv (SymInitialize bootState) (bytesOf "driver.sys") NULL =
        Run.done (STATUS_SUCCESS, s1) ∧
      Holds s1 [(0x100, driverTable)] ∧
      SymUnloadSymbolFile s1 0x100 = Run.done s2 ∧
      s2.pool 0x100 = none ∧ (s2.list SymListHead).Flink = 0x100 ∧
      (s2.list 0x100).Flink = 0x100 ∧ ¬ Holds s2 [] ∧
      (SymFreeSymbolTables 3 s2).isFault = true ∧
      SymGlobGetSymbolByName s2 3 STATUS_NOT_FOUND (bytesOf "Init") none = Run.fault :=
  ⟨_, _, rfl, by decide, rfl, by decide, by decide, by decide, by decide, by decide, by decide⟩

/-- C6: in the scenario of the specification the required length of
`driver!Init` with its terminator is 12.  With a capacity of 11 the lookup of
`0x1010` does not return `STATUS_BUFFER_OVERFLOW`: it succeeds and stores bytes
at the indices 0 to 12.  With a capacity of 12 it stores a byte at index 12 as
well. -/
theorem exact_lookup_stores_past_capacity :
    driverTable.name.length + 1 + (bytesOf "Init").length + 1 = 12 ∧
    SymGetSymbolByAddress driverTable.sym 0x1010 [] 11 =
      Run.done ⟨STATUS_SUCCESS,
        storedBytes (bytesOf "driver") (bytesOf "Init") [⟨0x40, bytesOf "Worker"⟩], 12⟩ ∧
    SymGetSymbolByAddress driverTable.sym 0x1010 [] 12 =
      Run.done ⟨STATUS_SUCCESS,
        storedBytes (bytesOf "driver") (bytesOf "Init") [⟨0x40, bytesOf "Worker"⟩], 12⟩ ∧
    writtenAt (storedBytes (bytesOf "driver") (bytesOf "Init") [⟨0x40, bytesOf "Worker"⟩]) 11
      = true ∧
    writtenAt (storedBytes (bytesOf "driver") (bytesOf "Init") [⟨0x40, bytesOf "Worker"⟩]) 12
      = true := by
  decide

/-- C7: on the empty store left by `SymInitialize` the nearest lookup does not
return: it reads through the null `MinModule`. -/
theorem nearest_lookup_faults_on_empty_store (st : SymState)
    (fuel Status0 Address : Nat) (Symbol : Buffer) (SymLen : Nat) :
    SymGlobGetNearestSymbolByAddress (SymInitialize st) (fuel + 1) Status0 Address Symbol SymLen
      = Run.fault := by
  simp [SymGlobGetNearestSymbolByAddress, SymGlobGetNearestSymbolByAddress.loop,
    SymGlobGetNearestSymbolByAddress.format, SymInitialize, InitializeListHead, setCell]

/-- C8: on the empty store left by `SymInitialize` the global lookups by address
and by name return the value their local `Status` happens to hold, whatever it
is, not `STATUS_NOT_FOUND`. -/
theorem global_lookups_return_indeterminate_status (st : SymState)
    (fuel Status0 Address : Nat) (Symbol : Buffer) (SymLen : Nat) (Name : List Nat)
    (SymAddr : Option Nat) :
    SymGlobGetSymbolByAddress (SymInitialize st) (fuel + 1) Status0 Address Symbol SymLen
      = Run.done ⟨Status0, Symbol, SymLen⟩ ∧
    SymGlobGetSymbolByName (SymInitialize st) (fuel + 1) Status0 Name SymAddr
      = Run.done ⟨Status0, SymAddr⟩ := by
  simp [SymGlobGetSymbolByAddress, SymGlobGetSymbolByAddress.loop, SymGlobGetSymbolByName,
    SymGlobGetSymbolByName.loop, SymInitialize, InitializeListHead, setCell]

/-- C9, counterexample: the record `(0x10, "Start")` of the table with the
alias lies at `0x1010`, at or before the query `0x1015`, and no symbol lies
between; the nearest lookup hands back `driver!Init`, the earlier record at the
same address, not `driver!Start`. -/
theorem nearest_returns_earlier_alias :
    Holds aliasStore [(0x100, aliasTable)] ∧
    (⟨0x10, bytesOf "Start"⟩ : SymRec) ∈ aliasTable.Records ∧
    aliasTable.addrOf ⟨0x10, bytesOf "Start"⟩ ≤ 0x1015 ∧
    (∀ x ∈ aliasTable.Records, ¬ (aliasTable.addrOf ⟨0x10, bytesOf "Start"⟩ < aliasTable.addrOf x ∧
      aliasTable.addrOf x ≤ 0x1015)) ∧
    SymGlobGetNearestSymbolByAddress aliasStore 2 STATUS_SUCCESS 0x1015 [] 100 =
      Run.done ⟨STATUS_SUCCESS,
        storedBytes (bytesOf "driver") (bytesOf "Init") [⟨0x10, bytesOf "Start"⟩], 12, some 5⟩ ∧
    bufString (storedBytes (bytesOf "driver") (bytesOf "Init") [⟨0x10, bytesOf "Start"⟩]) =
      some (bytesOf "driver!Init") ∧
    bytesOf "driver!Init" ≠ bytesOf "driver!Start" := by
  decide

/-- C9, amended: on a store of well-formed tables, for a record `(O, N)` of a
table for module `M` at base `B` that is the first record, in table order and
then record order, at its address `B+O`, and for every 32-bit address `A` with
`B+O <= A`, no record of the store lying after `B+O` and at or before `A`, and
`A - (B+O)` other than `0xFFFFFFFF`, the nearest lookup, given a buffer that is
large enough, hands back the text `M!N` and the distance `A - (B+O)`. -/
theorem nearest_between_symbols (st : SymState) (ts : List (Nat × Table))
    (fuel Status0 Address SymLen : Nat) (pre post : List Cand) (c : Cand)
    (hst : Holds st ts) (hwf : ∀ e ∈ ts, e.2.Wf) (hfuel : ts.length < fuel)
    (hA : Address < ULONG_MOD) (hlen : SymLen < ULONG_MOD)
    (hcs : storeCands ts = pre ++ c :: post)
    (hle : c.addr ≤ Address)
    (hnext : ∀ x ∈ pre ++ post, x.addr ≤ c.addr ∨ Address < x.addr)
    (hfirst : ∀ x ∈ pre, x.addr ≠ c.addr)
    (hsent : Address - c.addr < 0xFFFFFFFF)
    (hcap : c.text.length ≤ SymLen) :
    ∃ r, SymGlobGetNearestSymbolByAddress st fuel Status0 Address [] SymLen = Run.done r ∧
      bufString r.Symbol = some c.text ∧ r.Distance = some (Address - c.addr) := by
  have hloop := loop_eq_pick st Address ts _ ⟨0xFFFFFFFF, none, NULL⟩ fuel hst hwf hfuel
  have hd : c.dist Address = Address - c.addr := dist_of_addr_le Address c.addr hA hle
  have hfar : ∀ x : Cand, (x.addr ≤ c.addr ∨ Address < x.addr) → x.addr ≠ c.addr →
      c.dist Address < x.dist Address := by
    intro x hx hne
    have hxl := cand_addr_lt x
    rcases hx with hx | hx
    · have : x.dist Address = Address - x.addr := dist_of_addr_le Address x.addr hA (by omega)
      omega
    · have : x.dist Address = Address + ULONG_MOD - x.addr :=
        dist_of_lt_addr Address x.addr hxl hx
      omega
  have hnear : ∀ x : Cand, (x.addr ≤ c.addr ∨ Address < x.addr) →
      c.dist Address ≤ x.dist Address := by
    intro x hx
    by_cases hne : x.addr = c.addr
    · have : x.dist Address = c.dist Address := by unfold Cand.dist; rw [hne]
      omega
    · exact Nat.le_of_lt (hfar x hx hne)
  have hpick := pick_target Address ⟨0xFFFFFFFF, none, NULL⟩ pre post c
    (fun x hx => hfar x (hnext x (by simp [hx])) (hfirst x hx))
    (fun x hx => hnear x (hnext x (by simp [hx])))
    (by show c.dist Address < 0xFFFFFFFF; omega)
  have hc : c ∈ storeCands ts := by rw [hcs]; simp
  have hok := (storeCands_ok st ts _ hst hwf c hc).1
  obtain ⟨post2, hfmt⟩ := format_ok st Status0 (c.dist Address) c SymLen hok hcap hlen
  refine ⟨⟨Status0, storedBytes c.T.name c.r.SymName post2, (c.text.length + 1) % ULONG_MOD,
    some (c.dist Address)⟩, ?_, ?_, ?_⟩
  · unfold SymGlobGetNearestSymbolByAddress
    rw [hloop, hcs, hpick]
    exact hfmt
  · exact bufString_storedBytes _ _ _ (cstr_not_mem _) hok.2.2.1.2.2
  · show some (c.dist Address) = _
    rw [hd]

/-- C9, witness: the scenario of the specification, the query `0x1025` gives
`driver!Init` at distance `0x15`. -/
theorem nearest_between_symbols_witness :
    ∃ r, SymGlobGetNearestSymbolByAddress driverStore 2 STATUS_SUCCESS 0x1025 [] 100 =
        Run.done r ∧
      bufString r.Symbol = some (bytesOf "driver!Init") ∧ r.Distance = some 0x15 :=
  nearest_between_symbols driverStore [(0x100, driverTable)] 2 STATUS_SUCCESS 0x1025 100
    [] [⟨0x100, driverTable, 16, ⟨0x40, bytesOf "Worker"⟩⟩]
    ⟨0x100, driverTable, 4, ⟨0x10, bytesOf "Init"⟩⟩
    (by decide) (by decide) (by decide) (by decide) (by decide) (by decide) (by decide)
    (by decide) (by decide) (by decide) (by decide)

theorem hexDigit_ne_zero (d : Nat) : hexDigit d ≠ 0 := by
  unfold hexDigit
  split <;> omega

theorem hexDigits_not_mem : ∀ (fuel n : Nat), 0 ∉ hexDigits fuel n
  | 0, _ => by simp [hexDigits]
  | fuel + 1, n => by
    unfold hexDigits
    split
    · simp [(hexDigit_ne_zero n).symm]
    · have := hexDigits_not_mem fuel (n / 16)
      simp [this, (hexDigit_ne_zero (n % 16)).symm]

/-- C10, counterexample: in the scenario of the specification the formatted
nearest lookup of `0x1025` yields `driver!Init+15`, not `driver!Init+0x15`. -/
theorem formatted_nearest_has_no_0x :
    ∃ res, SymWrGetNearestSymbolByAddress driverStore 2 STATUS_SUCCESS 0x1025 [] 100 =
        Run.done res ∧
      res.Status = STATUS_SUCCESS ∧
      bufString res.Symbol = some (bytesOf "driver!Init+15") ∧
      bufString res.Symbol ≠ some (bytesOf "driver!Init+0x15") :=
  ⟨_, rfl, by decide, by decide, by decide⟩

/-! ## Walks over the objects of a store -/

theorem visits_of_chain (st : SymState) :
    ∀ (ts : List (Nat × Table)) (p : Nat), Chain st p ts →
      Visits st p (ts.map (fun e => (e.1, e.2.sym)))
  | [], _, h => h
  | _ :: ts, _, h => ⟨h.1, h.2.1, h.2.2.2.1, visits_of_chain st ts _ h.2.2.2.2⟩

theorem visits_unique (st : SymState) :
    ∀ (es es2 : List (Nat × MOD_SYM)) (p : Nat), Visits st p es → Visits st p es2 → es = es2
  | [], [], _, _, _ => rfl
  | [], e :: _, _, h1, h2 => absurd (h2.1.symm.trans h1) h2.2.1
  | e :: _, [], _, h1, h2 => absurd (h1.1.symm.trans h2) h1.2.1
  | e :: es, e2 :: es2, p, h1, h2 => by
    have ha : e.1 = e2.1 := h1.1.symm.trans h2.1
    have hb : e.2 = e2.2 := by
      have := h1.2.2.1
      rw [ha, h2.2.2.1] at this
      exact (Option.some.inj this).symm
    have he : e = e2 := Prod.ext ha hb
    subst he
    rw [visits_unique st es es2 _ h1.2.2.2 h2.2.2.2]

theorem visits_suffix (st : SymState) :
    ∀ (xs ys : List (Nat × MOD_SYM)) (p : Nat), Visits st p (xs ++ ys) → ∃ q, Visits st q ys
  | [], _, p, h => ⟨p, h⟩
  | _ :: xs, ys, _, h => visits_suffix st xs ys _ h.2.2.2

theorem visits_not_mem (st : SymState) (e : Nat × MOD_SYM) (rest : List (Nat × MOD_SYM))
    (p : Nat) (h : Visits st p (e :: rest)) : ∀ x ∈ rest, x.1 ≠ e.1 := by
  intro x hx hxe
  obtain ⟨r1, r2, hr⟩ := List.append_of_mem hx
  have h2 : Visits st (st.list e.1).Flink (r1 ++ x :: r2) := by rw [← hr]; exact h.2.2.2
  obtain ⟨q, hq⟩ := visits_suffix st r1 (x :: r2) _ h2
  have hq1 : q = e.1 := hq.1.trans hxe
  have hp : p = e.1 := h.1
  rw [hq1, ← hp] at hq
  have := visits_unique st _ _ p h hq
  have hl := congrArg List.length this
  rw [hr] at hl
  simp at hl
  omega

theorem visits_congr (st st2 : SymState) (hl : st2.list = st.list) :
    ∀ (es : List (Nat × MOD_SYM)) (p : Nat), (∀ x ∈ es, st2.pool x.1 = st.pool x.1) →
      Visits st p es → Visits st2 p es
  | [], _, _, h => h
  | e :: es, _, hp, h => by
    refine ⟨h.1, h.2.1, ?_, ?_⟩
    · rw [hp e (by simp)]; exact h.2.2.1
    · rw [hl]
      exact visits_congr st st2 hl es _ (fun x hx => hp x (by simp [hx])) h.2.2.2

/-! ## First hit of the global lookups -/

theorem addr_walk_fail_keeps (Sym : MOD_SYM) (Offset : Nat) (Symbol : Buffer) (SymLen : Nat) :
    ∀ (fuel p : Nat) (r : SymbolResult),
      SymGetSymbolByAddress.walk Sym Offset Symbol SymLen fuel p = Run.done r →
      r.Status ≠ STATUS_SUCCESS → r.Symbol = Symbol ∧ r.SymLen = SymLen
  | 0, _, _, h, _ => by simp [SymGetSymbolByAddress.walk] at h
  | fuel + 1, p, r, h, hne => by
    rw [SymGetSymbolByAddress.walk] at h
    split at h
    · simp at h
    · split at h
      · cases h; exact ⟨rfl, rfl⟩
      · split at h
        · simp at h
        · split at h
          · simp only at h
            split at h
            · cases h; exact ⟨rfl, rfl⟩
            · split at h
              · simp at h
              · cases h; exact absurd rfl hne
          · exact addr_walk_fail_keeps Sym Offset Symbol SymLen fuel _ r h hne

theorem name_walk_fail_keeps (Sym : MOD_SYM) (Symbol : List Nat) (SymAddr : Option Nat) :
    ∀ (fuel p : Nat) (r : NameResult),
      SymGetSymbolByName.walk Sym Symbol SymAddr fuel p = Run.done r →
      r.Status ≠ STATUS_SUCCESS → r.SymAddr = SymAddr
  | 0, _, _, h, _ => by simp [SymGetSymbolByName.walk] at h
  | fuel + 1, p, r, h, hne => by
    rw [SymGetSymbolByName.walk] at h
    split at h
    · simp at h
    · split at h
      · cases h; rfl
      · split at h
        · simp at h
        · split at h
          · simp at h
          · cases h; exact absurd rfl hne
        · exact name_walk_fail_keeps Sym Symbol SymAddr fuel _ r h hne

/-- The global lookup by address returns the result of the first entry whose
lookup succeeds, whatever status the earlier entries failed with. -/
theorem glob_addr_first_hit (st : SymState) (Address : Nat) (Symbol : Buffer) (SymLen : Nat)
    (e : Nat × MOD_SYM) (post : List (Nat × MOD_SYM)) (r : SymbolResult)
    (hhit : SymGetSymbolByAddress e.2 Address Symbol SymLen = Run.done r)
    (hok : r.Status = STATUS_SUCCESS) :
    ∀ (pre : List (Nat × MOD_SYM)) (p : Nat), Visits st p (pre ++ e :: post) →
      (∀ x ∈ pre, ∃ rx, SymGetSymbolByAddress x.2 Address Symbol SymLen = Run.done rx ∧
        rx.Status ≠ STATUS_SUCCESS) →
      ∀ fuel Status, SymGlobGetSymbolByAddress.loop st Address (pre.length + fuel + 1) p Status
        Symbol SymLen = Run.done r
  | [], p, hc, _, fuel, Status => by
    obtain ⟨hp, hh, hpool, _⟩ := hc
    subst hp
    have e1 : ([] : List (Nat × MOD_SYM)).length + fuel + 1 = fuel + 1 := by simp
    rw [e1, SymGlobGetSymbolByAddress.loop]
    simp only [hh, if_false, hpool, hhit, hok, if_true]
  | x :: pre, p, hc, hmiss, fuel, Status => by
    obtain ⟨hp, hh, hpool, hrest⟩ := hc
    subst hp
    obtain ⟨rx, hrx, hne⟩ := hmiss x (by simp)
    have hkeep := addr_walk_fail_keeps x.2 _ Symbol SymLen _ _ rx hrx hne
    have ih := glob_addr_first_hit st Address Symbol SymLen e post r hhit hok pre _ hrest
      (fun y hy => hmiss y (by simp [hy])) fuel rx.Status
    have e1 : (x :: pre).length + fuel + 1 = (pre.length + fuel + 1) + 1 := by simp; omega
    rw [e1, SymGlobGetSymbolByAddress.loop]
    simp only [hh, if_false, hpool, hrx, hne, hkeep.1, hkeep.2]
    exact ih

/-- The global lookup by name returns the result of the first entry whose
lookup succeeds. -/
theorem glob_name_first_hit (st : SymState) (Symbol : List Nat) (SymAddr : Option Nat)
    (e : Nat × MOD_SYM) (post : List (Nat × MOD_SYM)) (r : NameResult)
    (hhit : SymGetSymbolByName e.2 Symbol SymAddr = Run.done r)
    (hok : r.Status = STATUS_SUCCESS) :
    ∀ (pre : List (Nat × MOD_SYM)) (p : Nat), Visits st p (pre ++ e :: post) →
      (∀ x ∈ pre, ∃ rx, SymGetSymbolByName x.2 Symbol SymAddr = Run.done rx ∧
        rx.Status ≠ STATUS_SUCCESS) →
      ∀ fuel Status, SymGlobGetSymbolByName.loop st Symbol (pre.length + fuel + 1) p Status
        SymAddr = Run.done r
  | [], p, hc, _, fuel, Status => by
    obtain ⟨hp, hh, hpool, _⟩ := hc
    subst hp
    have e1 : ([] : List (Nat × MOD_SYM)).length + fuel + 1 = fuel + 1 := by simp
    rw [e1, SymGlobGetSymbolByName.loop]
    simp only [hh, if_false, hpool, hhit, hok, if_true]
  | x :: pre, p, hc, hmiss, fuel, Status => by
    obtain ⟨hp, hh, hpool, hrest⟩ := hc
    subst hp
    obtain ⟨rx, hrx, hne⟩ := hmiss x (by simp)
    have hkeep := name_walk_fail_keeps x.2 Symbol SymAddr _ _ rx hrx hne
    have ih := glob_name_first_hit st Symbol SymAddr e post r hhit hok pre _ hrest
      (fun y hy => hmiss y (by simp [hy])) fuel rx.Status
    have e1 : (x :: pre).length + fuel + 1 = (pre.length + fuel + 1) + 1 := by simp; omega
    rw [e1, SymGlobGetSymbolByName.loop]
    simp only [hh, if_false, hpool, hrx, hne, hkeep]
    exact ih

/-! ## Unloading all tables -/

theorem free_loop_spec :
    ∀ (es : List (Nat × MOD_SYM)) (st : SymState) (p fuel : Nat),
      Visits st p es → es.length < fuel →
      ∃ st2, SymFreeSymbolTables.loop fuel st p = Run.done st2 ∧
        st2.list = st.list ∧
        st2.effects = st.effects ++ unloadAllEffects es ∧
        (∀ x ∈ es, st2.pool x.1 = none) ∧
        (∀ a, (∀ x ∈ es, x.1 ≠ a) → st2.pool a = st.pool a)
  | _, _, _, 0, _, hf => absurd hf (Nat.not_lt_zero _)
  | [], st, p, fuel + 1, hv, _ => by
    have hp : p = SymListHead := hv
    refine ⟨st, ?_, rfl, by simp [unloadAllEffects], by simp, fun _ _ => rfl⟩
    rw [SymFreeSymbolTables.loop]
    simp [hp]
  | e :: es, st, p, fuel + 1, hv, hf => by
    obtain ⟨hp, hh, hpool, hrest⟩ := hv
    have hnm := visits_not_mem st e es p ⟨hp, hh, hpool, hrest⟩
    subst hp
    let st1 : SymState :=
      { st with
        pool := fun a => if a = e.1 then none else st.pool a
        effects := st.effects ++
          [Effect.UnlockMem e.2.Mdl, Effect.EngUnmapFile e.2.iMappedSymbols,
            Effect.ExFreePool e.1] }
    have hun : InternalSymUnloadSymbolTable st e.1 = Run.done st1 := by
      unfold InternalSymUnloadSymbolTable
      simp only [hpool]
    have hv1 : Visits st1 (st.list e.1).Flink es :=
      visits_congr st st1 rfl es _ (fun x hx => by simp [st1, hnm x hx]) hrest
    obtain ⟨st2, hrun, hl, he, hnone, hkeep⟩ :=
      free_loop_spec es st1 (st.list e.1).Flink fuel hv1 (by simpa using hf)
    refine ⟨st2, ?_, hl, ?_, ?_, ?_⟩
    · rw [SymFreeSymbolTables.loop]
      simp only [hh, if_false, hpool, hun]
      exact hrun
    · rw [he]
      simp [st1, unloadAllEffects, unloadEffects]
    · intro x hx
      rcases List.mem_cons.mp hx with rfl | hx
      · by_cases hm : ∃ y ∈ es, y.1 = x.1
        · obtain ⟨y, hy, hyx⟩ := hm
          rw [← hyx]; exact hnone y hy
        · rw [hkeep x.1 (fun y hy hyx => hm ⟨y, hy, hyx⟩)]
          simp [st1]
      · exact hnone x hx
    · intro a ha
      rw [hkeep a (fun x hx => ha x (by simp [hx]))]
      have : a ≠ e.1 := fun h => ha e (by simp) h.symm
      simp [st1, this]

/-! ## Linking a new entry at the tail -/

theorem lastAddr_cons_cons (e e2 : Nat × MOD_SYM) (rest : List (Nat × MOD_SYM)) :
    lastAddr (e :: e2 :: rest) = lastAddr (e2 :: rest) := rfl

theorem lastAddr_mem : ∀ (e : Nat × MOD_SYM) (rest : List (Nat × MOD_SYM)),
    ∃ x ∈ e :: rest, x.1 = lastAddr (e :: rest)
  | e, [] => ⟨e, by simp, rfl⟩
  | e, e2 :: rest => by
    obtain ⟨x, hx, h⟩ := lastAddr_mem e2 rest
    exact ⟨x, by simp [List.mem_cons.mp hx], by rw [lastAddr_cons_cons]; exact h⟩

theorem lastAddr_append (sym : Nat) (t : MOD_SYM) :
    ∀ (es : List (Nat × MOD_SYM)), lastAddr (es ++ [(sym, t)]) = sym
  | [] => rfl
  | [_] => rfl
  | e :: e2 :: rest => by
    have := lastAddr_append sym t (e2 :: rest)
    simpa [lastAddr] using this

/-- The cells after `InsertTailList (SymListHead, sym)`, `b` being the old
`SymListHead.Blink`. -/
theorem insertTail_cells (m : Nat → LIST_ENTRY) (sym : Nat) (hs : sym ≠ SymListHead)
    (hsb : sym ≠ (m SymListHead).Blink) :
    (InsertTailList m SymListHead sym) sym = ⟨SymListHead, (m SymListHead).Blink⟩ ∧
    ((InsertTailList m SymListHead sym) SymListHead).Blink = sym ∧
    ((m SymListHead).Blink = SymListHead →
      ((InsertTailList m SymListHead sym) SymListHead).Flink = sym) ∧
    ((m SymListHead).Blink ≠ SymListHead →
      ((InsertTailList m SymListHead sym) SymListHead).Flink = (m SymListHead).Flink) ∧
    (∀ x, x ≠ SymListHead → x ≠ sym → x = (m SymListHead).Blink →
      ((InsertTailList m SymListHead sym) x).Flink = sym) ∧
    (∀ x, x ≠ SymListHead → x ≠ sym → x ≠ (m SymListHead).Blink →
      (InsertTailList m SymListHead sym) x = m x) := by
  refine ⟨?_, ?_, ?_, ?_, ?_, ?_⟩
  · simp [InsertTailList, setCell, hs, hsb]
  · simp [InsertTailList, setCell]
  · intro hb
    simp [InsertTailList, setCell, hb]
  · intro hb
    have hb2 : SymListHead ≠ (m SymListHead).Blink := fun h => hb h.symm
    simp [InsertTailList, setCell, hb2, hs.symm]
  · intro x hx hxs hxb
    simp [InsertTailList, setCell, hx, hxb.symm]
  · intro x hx hxs hxb
    simp [InsertTailList, setCell, hx, hxs, hxb]

theorem visits_pool (st : SymState) :
    ∀ (es : List (Nat × MOD_SYM)) (p : Nat), Visits st p es →
      ∀ x ∈ es, st.pool x.1 = some x.2 ∧ x.1 ≠ SymListHead
  | [], _, _, x, hx => by simp at hx
  | e :: es, _, h, x, hx => by
    rcases List.mem_cons.mp hx with rfl | hx
    · exact ⟨h.2.2.1, h.2.1⟩
    · exact visits_pool st es _ h.2.2.2 x hx

theorem visits_insertTail (st st2 : SymState) (sym : Nat) (t : MOD_SYM)
    (hs : sym ≠ SymListHead) (hfresh : st.pool sym = none)
    (hl : st2.list = InsertTailList st.list SymListHead sym)
    (hp : st2.pool = fun a => if a = sym then some t else st.pool a) :
    ∀ (es : List (Nat × MOD_SYM)) (p : Nat), es ≠ [] → Visits st p es →
      lastAddr es = (st.list SymListHead).Blink → Visits st2 p (es ++ [(sym, t)])
  | [], _, hne, _, _ => absurd rfl hne
  | [e], p, _, hv, hb => by
    have hes : e.1 ≠ sym := fun h => by
      have := hv.2.2.1
      rw [h, hfresh] at this
      cases this
    have hb1 : e.1 = (st.list SymListHead).Blink := hb
    have hsb : sym ≠ (st.list SymListHead).Blink := fun h => hes (hb1.trans h.symm)
    have hc := insertTail_cells st.list sym hs hsb
    refine ⟨hv.1, hv.2.1, ?_, ?_, hs, ?_, ?_⟩
    · rw [hp]; simp [hes, hv.2.2.1]
    · rw [hl]; exact hc.2.2.2.2.1 e.1 hv.2.1 hes hb1
    · rw [hp]; simp
    · show (st2.list sym).Flink = SymListHead
      rw [hl, hc.1]
  | e :: e2 :: rest, p, _, hv, hb => by
    have hes : e.1 ≠ sym := fun h => by
      have := hv.2.2.1
      rw [h, hfresh] at this
      cases this
    obtain ⟨x, hx, hxl⟩ := lastAddr_mem e2 rest
    have hne := visits_not_mem st e (e2 :: rest) p hv x hx
    have hb2 : lastAddr (e2 :: rest) = (st.list SymListHead).Blink := hb
    have heb : e.1 ≠ (st.list SymListHead).Blink := by
      rw [← hb2, ← hxl]; exact fun h => hne h.symm
    have hxs : x.1 ≠ sym := fun h => by
      have := (visits_pool st _ _ hv x (by simp [List.mem_cons.mp hx])).1
      rw [h, hfresh] at this
      cases this
    have hsb : sym ≠ (st.list SymListHead).Blink := by
      rw [← hb2, ← hxl]; exact fun h => hxs h.symm
    have hc := insertTail_cells st.list sym hs hsb
    have ih := visits_insertTail st st2 sym t hs hfresh hl hp (e2 :: rest) _ (by simp)
      hv.2.2.2 hb2
    refine ⟨hv.1, hv.2.1, ?_, ?_⟩
    · rw [hp]; simp [hes, hv.2.2.1]
    · rw [hl, hc.2.2.2.2.2 e.1 hv.2.1 hes heb]
      exact ih

/-- Linking a fresh object at the tail of a well-formed ring gives the ring
with that object as its last entry. -/
theorem ring_insertTail (st st2 : SymState) (sym : Nat) (t : MOD_SYM)
    (es : List (Nat × MOD_SYM)) (hr : Ring st es)
    (hs : sym ≠ SymListHead) (hfresh : st.pool sym = none)
    (hl : st2.list = InsertTailList st.list SymListHead sym)
    (hp : st2.pool = fun a => if a = sym then some t else st.pool a) :
    Ring st2 (es ++ [(sym, t)]) := by
  obtain ⟨hv, hb⟩ := hr
  refine ⟨?_, ?_⟩
  · cases es with
    | nil =>
      have hb0 : (st.list SymListHead).Blink = SymListHead := hb
      have hsb : sym ≠ (st.list SymListHead).Blink := by rw [hb0]; exact hs
      have hc := insertTail_cells st.list sym hs hsb
      refine ⟨?_, hs, ?_, ?_⟩
      · rw [hl]; exact hc.2.2.1 hb0
      · rw [hp]; simp
      · show (st2.list sym).Flink = SymListHead
        rw [hl, hc.1]
    | cons e rest =>
      obtain ⟨x, hx, hxl⟩ := lastAddr_mem e rest
      have hxp := visits_pool st _ _ hv x hx
      have hxs : x.1 ≠ sym := fun h => by
        have := hxp.1
        rw [h, hfresh] at this
        cases this
      have hsb : sym ≠ (st.list SymListHead).Blink := by
        rw [hb, ← hxl]; exact fun h => hxs h.symm
      have hbh : (st.list SymListHead).Blink ≠ SymListHead := by
        rw [hb, ← hxl]; exact hxp.2
      have hc := insertTail_cells st.list sym hs hsb
      have := visits_insertTail st st2 sym t hs hfresh hl hp (e :: rest) _ (by simp) hv hb.symm
      rw [hl, hc.2.2.2.1 hbh]
      exact this
  · rw [lastAddr_append, hl]
    simp [InsertTailList, setCell]

/-- C11: whenever `SymLoadSymbolFile` returns a status other than
`STATUS_SUCCESS`, the list memory and the pool of tables are what they were
before the call.  When it returns `STATUS_SUCCESS`, the time stamp of the
mapped file equals the time stamp of the image (a file with another stamp is
never inserted), and if the list was a well-formed ring over the entries `es`
and the allocated object is fresh, the list afterwards is the well-formed ring
over `es` followed by the new object: exactly one entry is added, at the
tail, and no other object changes. -/
theorem failed_load_leaves_store (env : Env) (st : SymState) (ModuleName : List Nat)
    (ImageBase status : Nat) (st2 : SymState)
    (hrun : SymLoadSymbolFile env st ModuleName ImageBase = Run.done (status, st2)) :
    (status ≠ STATUS_SUCCESS → st2.list = st.list ∧ st2.pool = st.pool) ∧
    (status = STATUS_SUCCESS →
      (∃ SymFileName LoadedSymbols iMappedSymbols,
        env.RegQueryValue ModuleName = some SymFileName ∧
        env.EngMapFile SymFileName = some (LoadedSymbols, iMappedSymbols) ∧
        readULONG LoadedSymbols 0 = some (env.TimeDateStamp
          (if ImageBase ≠ NULL then ImageBase else env.FindImage ModuleName))) ∧
      ∀ es, Ring st es → st.pool env.ExAllocatePool = none →
        env.ExAllocatePool ≠ SymListHead →
        ∃ t, Ring st2 (es ++ [(env.ExAllocatePool, t)]) ∧
          ∀ a, a ≠ env.ExAllocatePool → st2.pool a = st.pool a) := by
  unfold SymLoadSymbolFile at hrun
  simp only at hrun
  repeat' split at hrun
  all_goals first
    | (cases hrun; done)
    | (cases hrun; exact ⟨fun _ => ⟨rfl, rfl⟩, fun h => absurd h (by decide)⟩)
    | (cases hrun
       refine ⟨fun h => absurd rfl h, fun _ => ⟨⟨_, _, _, by assumption, by assumption, ?_⟩, ?_⟩⟩
       · simp_all
       · intro es hr hf hs
         exact ⟨_, ring_insertTail st _ _ _ es hr hs hf rfl rfl, fun a ha => by simp [ha]⟩)

/-- C11, witness: loading `driver.sys` into the store of the scenario while the
image reports another time stamp fails with `STATUS_UNSUCCESSFUL` and leaves
the list and the pool as they were; loading it into the empty store with the
matching time stamp succeeds and the list then holds the new object alone. -/
theorem failed_load_leaves_store_witness :
    (∃ status st2, SymLoadSymbolFile { staleEnv with ExAllocatePool := 0x200 } driverStore
        (bytesOf "driver.sys") NULL = Run.done (status, st2) ∧
      status = STATUS_UNSUCCESSFUL ∧
      (status ≠ STATUS_SUCCESS → st2.list = driverStore.list ∧ st2.pool = driverStore.pool)) ∧
    (∃ st2, SymLoadSymbolFile driverEnv (SymInitialize bootState) (bytesOf "driver.sys") NULL =
        Run.done (STATUS_SUCCESS, st2) ∧
      ∃ t, Ring st2 ([] ++ [(driverEnv.ExAllocatePool, t)]) ∧
        ∀ a, a ≠ driverEnv.ExAllocatePool → st2.pool a = (SymInitialize bootState).pool a) :=
  ⟨⟨_, _, rfl, rfl,
    (failed_load_leaves_store { staleEnv with ExAllocatePool := 0x200 } driverStore
      (bytesOf "driver.sys") NULL _ _ rfl).1⟩,
   ⟨_, rfl,
    ((failed_load_leaves_store driverEnv (SymInitialize bootState)
      (bytesOf "driver.sys") NULL _ _ rfl).2 rfl).2 [] (by decide) (by decide) (by decide)⟩⟩

/-- C17: in a store whose list visits the entries `pre`, then `e`, then
`post`, if the per-table lookup on `e` succeeds and the per-table lookups on
the entries of `pre` return without success, the global lookup returns exactly
the result of the per-table lookup on `e`; by address and by name alike. -/
theorem global_lookups_return_first_hit (st : SymState) (pre post : List (Nat × MOD_SYM))
    (e : Nat × MOD_SYM) (fuel Status0 Address : Nat) (Symbol : Buffer) (SymLen : Nat)
    (Name : List Nat) (SymAddr : Option Nat)
    (hst : Visits st (st.list SymListHead).Flink (pre ++ e :: post))
    (hfuel : pre.length < fuel) :
    (∀ r, SymGetSymbolByAddress e.2 Address Symbol SymLen = Run.done r →
      r.Status = STATUS_SUCCESS →
      (∀ x ∈ pre, ∃ rx, SymGetSymbolByAddress x.2 Address Symbol SymLen = Run.done rx ∧
        rx.Status ≠ STATUS_SUCCESS) →
      SymGlobGetSymbolByAddress st fuel Status0 Address Symbol SymLen = Run.done r) ∧
    (∀ r, SymGetSymbolByName e.2 Name SymAddr = Run.done r →
      r.Status = STATUS_SUCCESS →
      (∀ x ∈ pre, ∃ rx, SymGetSymbolByName x.2 Name SymAddr = Run.done rx ∧
        rx.Status ≠ STATUS_SUCCESS) →
      SymGlobGetSymbolByName st fuel Status0 Name SymAddr = Run.done r) := by
  obtain ⟨k, hk⟩ : ∃ k, fuel = pre.length + k + 1 := ⟨fuel - pre.length - 1, by omega⟩
  refine ⟨?_, ?_⟩
  · intro r hhit hok hpre
    unfold SymGlobGetSymbolByAddress
    rw [hk]
    exact glob_addr_first_hit st Address Symbol SymLen e post r hhit hok pre _ hst hpre k Status0
  · intro r hhit hok hpre
    unfold SymGlobGetSymbolByName
    rw [hk]
    exact glob_name_first_hit st Name SymAddr e post r hhit hok pre _ hst hpre k Status0

/-- C17, witness: in the store that holds `driver` and then `other`, the
lookups of `0x2020` and of `main` miss in `driver` and return what the lookups
in `other` return: `other!Main` and `0x2020`. -/
theorem global_lookups_return_first_hit_witness :
    SymGlobGetSymbolByAddress twoStore 3 STATUS_UNSUCCESSFUL 0x2020 [] 100 =
      Run.done ⟨STATUS_SUCCESS, storedBytes (bytesOf "other") (bytesOf "Main") [], 11⟩ ∧
    SymGlobGetSymbolByName twoStore 3 STATUS_UNSUCCESSFUL (bytesOf "main") none =
      Run.done ⟨STATUS_SUCCESS, some 0x2020⟩ :=
  ⟨(global_lookups_return_first_hit twoStore [(0x100, driverTable.sym)] []
      (0x200, otherTable.sym) 3 STATUS_UNSUCCESSFUL 0x2020 [] 100 (bytesOf "main") none
      (by decide) (by decide)).1 _ (by decide) (by decide)
      (fun x hx => by
        rw [List.mem_singleton] at hx
        subst hx
        exact ⟨⟨STATUS_NOT_FOUND, [], 100⟩, by decide, by decide⟩),
   (global_lookups_return_first_hit twoStore [(0x100, driverTable.sym)] []
      (0x200, otherTable.sym) 3 STATUS_UNSUCCESSFUL 0x2020 [] 100 (bytesOf "main") none
      (by decide) (by decide)).2 _ (by decide) (by decide)
      (fun x hx => by
        rw [List.mem_singleton] at hx
        subst hx
        exact ⟨⟨STATUS_NOT_FOUND, none⟩, by decide, by decide⟩)⟩

/-- C18: on a store whose list visits the entries `es` and comes back to the
head, `SymFreeSymbolTables` returns; it has unpinned, unmapped and freed each
entry once, in insertion order, no entry of `es` is allocated any more, every
other object is as before, and the list is the empty ring, so that a walk from
the head visits no table. -/
theorem free_all_empties_store (st : SymState) (es : List (Nat × MOD_SYM)) (fuel : Nat)
    (hst : Visits st (st.list SymListHead).Flink es) (hfuel : es.length < fuel) :
    ∃ st2, SymFreeSymbolTables fuel st = Run.done st2 ∧
      st2.effects = st.effects ++ unloadAllEffects es ∧
      (∀ e ∈ es, st2.pool e.1 = none) ∧
      (∀ a, (∀ e ∈ es, e.1 ≠ a) → st2.pool a = st.pool a) ∧
      Ring st2 [] ∧ Holds st2 [] := by
  obtain ⟨s1, hrun, hl, he, hnone, hkeep⟩ := free_loop_spec es st _ fuel hst hfuel
  refine ⟨{ s1 with list := InitializeListHead s1.list SymListHead }, ?_, he, hnone, hkeep,
    ?_, ?_⟩
  · unfold SymFreeSymbolTables
    rw [hrun]
  · constructor
    · show (InitializeListHead s1.list SymListHead SymListHead).Flink = SymListHead
      simp [InitializeListHead, setCell]
    · show (InitializeListHead s1.list SymListHead SymListHead).Blink = SymListHead
      simp [InitializeListHead, setCell]
  · show (InitializeListHead s1.list SymListHead SymListHead).Flink = SymListHead
    simp [InitializeListHead, setCell]

/-- C18, witness: the store that holds `driver` and then `other`. -/
theorem free_all_empties_store_witness :
    ∃ st2, SymFreeSymbolTables 3 twoStore = Run.done st2 ∧
      st2.effects = twoStore.effects ++
        unloadAllEffects [(0x100, driverTable.sym), (0x200, otherTable.sym)] ∧
      (∀ e ∈ [(0x100, driverTable.sym), (0x200, otherTable.sym)], st2.pool e.1 = none) ∧
      (∀ a, (∀ e ∈ [(0x100, driverTable.sym), (0x200, otherTable.sym)], e.1 ≠ a) →
        st2.pool a = twoStore.pool a) ∧
      Ring st2 [] ∧ Holds st2 [] :=
  free_all_empties_store twoStore [(0x100, driverTable.sym), (0x200, otherTable.sym)] 3
    (by decide) (by decide)

/-! ## The lookup by name matches a stored name that is a prefix of the query -/

theorem strnicmp_prefix (rest : List Nat) :
    ∀ (N q : List Nat), prefixName N q → strnicmpZero (N ++ rest) q N.length = some true
  | [], _, _ => by cases rest <;> simp [strnicmpZero]
  | c :: cs, [], hs => by simp [prefixName] at hs
  | c :: cs, d :: ds, hs => by
    have hs2 : tolower c = tolower d ∧ prefixName cs ds := by
      unfold prefixName at hs ⊢
      simpa [List.cons_prefix_cons] using hs
    have ih := strnicmp_prefix rest cs ds hs2.2
    simp only [List.length_cons, strnicmpZero, List.cons_append, List.headD_cons, hs2.1,
      if_true, List.tail_cons, Nat.add_sub_cancel, Nat.succ_ne_zero, if_false]
    split
    · rfl
    · exact ih

theorem name_walk_hit_prefix (Sym : MOD_SYM) (Symbol : List Nat) (SymAddr : Option Nat)
    (r : SymRec) (post : List SymRec) (p fuel : Nat)
    (h : Sym.LoadedSymbols.drop p = encodeRecs (r :: post)) (hr : r.Wf)
    (hs : prefixName r.SymName Symbol) :
    SymGetSymbolByName.walk Sym Symbol SymAddr (fuel + 1) p =
      Run.done ⟨STATUS_SUCCESS, some (addULONG Sym.ImageBase r.SymOffset)⟩ := by
  have hrd := reads_at_record h hr
  rw [SymGetSymbolByName.walk, hrd.1]
  have h0 : SymNameOffset + r.SymName.length ≠ 0 := by unfold SymNameOffset; omega
  simp only [h0, if_false]
  rw [name_count _ hr.2.1, hrd.2.2.1, strnicmp_prefix _ _ _ hs]
  simp only [hrd.2.1]

theorem name_lookup_first_prefix (T : Table) (pre post : List SymRec) (r : SymRec)
    (Symbol : List Nat) (SymAddr : Option Nat) (hrec : T.Records = pre ++ r :: post)
    (hwf : T.Wf) (hfirst : ∀ x ∈ pre, ¬ prefixName x.SymName Symbol)
    (hs : prefixName r.SymName Symbol) :
    SymGetSymbolByName T.sym Symbol SymAddr = Run.done ⟨STATUS_SUCCESS, some (T.addrOf r)⟩ := by
  have hr : r.Wf := hwf r (by simp [hrec])
  unfold SymGetSymbolByName
  have hb : T.sym.LoadedSymbols.drop 4 = encodeRecs (pre ++ r :: post) := by
    rw [← hrec]; exact drop_four_encodeBlob _ _
  obtain ⟨q, hq, hstep⟩ := name_walk_skip T.sym Symbol SymAddr pre (r :: post) 4 hb
    (fun x hx => hwf x (by simp [hrec, hx])) hfirst
  obtain ⟨k, hk⟩ := table_fuel T pre.length (by rw [hrec]; simp)
  rw [hk, hstep (k + 1)]
  exact name_walk_hit_prefix T.sym Symbol SymAddr r post q k hq hr hs

theorem first_with (P : SymRec → Prop) [DecidablePred P] :
    ∀ (l : List SymRec), (∃ r ∈ l, P r) →
      ∃ pre r post, l = pre ++ r :: post ∧ P r ∧ ∀ x ∈ pre, ¬ P x
  | [], h => by obtain ⟨r, hr, _⟩ := h; simp at hr
  | a :: l, h => by
    by_cases ha : P a
    · exact ⟨[], a, l, rfl, ha, by simp⟩
    · have h2 : ∃ r ∈ l, P r := by
        obtain ⟨r, hr, hp⟩ := h
        rcases List.mem_cons.mp hr with rfl | hr
        · exact absurd hp ha
        · exact ⟨r, hr, hp⟩
      obtain ⟨pre, r, post, hl, hp, hn⟩ := first_with P l h2
      refine ⟨a :: pre, r, post, by simp [hl], hp, ?_⟩
      intro x hx
      rcases List.mem_cons.mp hx with rfl | hx
      · exact ha
      · exact hn x hx

/-- C13, counterexample: in the scenario of the specification no stored name
equals `Initialize`, in any letter case, yet the lookup of `Initialize` succeeds
and returns `0x1010`, the address of `Init`. -/
theorem name_lookup_accepts_longer_query :
    (¬ ∃ r ∈ driverTable.Records, sameName r.SymName (bytesOf "Initialize")) ∧
    SymGetSymbolByName driverTable.sym (bytesOf "Initialize") none =
      Run.done ⟨STATUS_SUCCESS, some 0x1010⟩ := by
  decide

/-- C13, amended: on a well-formed table `SymGetSymbolByName (table, q)` returns,
and it succeeds exactly when some record's stored name is, up to letter case,
a prefix of `q` (an equal name included); it then returns base + offset of the
first such record in table order.  A query that no stored name is such a prefix
of, in particular a query shorter than every stored name, yields
`STATUS_NOT_FOUND` and stores no address. -/
theorem name_lookup_matches_stored_prefix (T : Table) (q : List Nat) (hwf : T.Wf) :
    ∃ res, SymGetSymbolByName T.sym q none = Run.done res ∧
      (res.Status = STATUS_SUCCESS ↔ ∃ r ∈ T.Records, prefixName r.SymName q) ∧
      (∀ pre r post, T.Records = pre ++ r :: post → prefixName r.SymName q →
        (∀ x ∈ pre, ¬ prefixName x.SymName q) →
        res = ⟨STATUS_SUCCESS, some (T.addrOf r)⟩) ∧
      ((∀ r ∈ T.Records, ¬ prefixName r.SymName q) → res = ⟨STATUS_NOT_FOUND, none⟩) := by
  by_cases h : ∃ r ∈ T.Records, prefixName r.SymName q
  · obtain ⟨pre, r, post, hl, hp, hn⟩ := first_with (fun r => prefixName r.SymName q) _ h
    have hres := name_lookup_first_prefix T pre post r q none hl hwf hn hp
    refine ⟨⟨STATUS_SUCCESS, some (T.addrOf r)⟩, hres, ⟨fun _ => h, fun _ => rfl⟩, ?_, ?_⟩
    · intro pre2 r2 post2 hl2 hp2 hn2
      have hres2 := name_lookup_first_prefix T pre2 post2 r2 q none hl2 hwf hn2 hp2
      rw [hres] at hres2
      exact Run.done.inj hres2
    · intro hnone
      obtain ⟨x, hx, hxp⟩ := h
      exact absurd hxp (hnone x hx)
  · have hnone : ∀ r ∈ T.Records, ¬ prefixName r.SymName q := fun r hr hp => h ⟨r, hr, hp⟩
    have hres := name_lookup_miss T q none hwf hnone
    refine ⟨⟨STATUS_NOT_FOUND, none⟩, hres, ⟨fun hs => absurd hs (by decide), fun hx => absurd hx h⟩,
      ?_, fun _ => rfl⟩
    intro pre r post hl hp _
    exact absurd hp (hnone r (by simp [hl]))

/-- C13, witness: the scenario of the specification and the query
`Initialize`. -/
theorem name_lookup_matches_stored_prefix_witness :
    ∃ res, SymGetSymbolByName driverTable.sym (bytesOf "Initialize") none = Run.done res ∧
      (res.Status = STATUS_SUCCESS ↔
        ∃ r ∈ driverTable.Records, prefixName r.SymName (bytesOf "Initialize")) ∧
      (∀ pre r post, driverTable.Records = pre ++ r :: post →
        prefixName r.SymName (bytesOf "Initialize") →
        (∀ x ∈ pre, ¬ prefixName x.SymName (bytesOf "Initialize")) →
        res = ⟨STATUS_SUCCESS, some (driverTable.addrOf r)⟩) ∧
      ((∀ r ∈ driverTable.Records, ¬ prefixName r.SymName (bytesOf "Initialize")) →
        res = ⟨STATUS_NOT_FOUND, none⟩) :=
  name_lookup_matches_stored_prefix driverTable (bytesOf "Initialize") (by decide)

/-! ## The size computed at load -/

theorem recsSize_eq_length (rs : List SymRec) : (encodeRecs rs).length = recsSize rs + 4 := by
  induction rs with
  | nil => rfl
  | cons r rs ih =>
    simp only [encodeRecs, encodeRec, List.length_append, le32_length, ih, recsSize, SymNameOffset]
    omega

theorem sizeWalk_encoded (m : List Nat) :
    ∀ (rs : List SymRec) (p Size fuel : Nat), m.drop p = encodeRecs rs → (∀ r ∈ rs, r.Wf) →
      rs.length < fuel → Size < ULONG_MOD →
      SymLoadSymbolFile.sizeWalk m fuel p Size = Run.done ((Size + recsSize rs) % ULONG_MOD)
  | _, _, _, 0, _, _, hf, _ => absurd hf (Nat.not_lt_zero _)
  | [], p, Size, fuel + 1, h, _, _, hs => by
    rw [SymLoadSymbolFile.sizeWalk, read_at_end h]
    simp [recsSize, Nat.mod_eq_of_lt hs]
  | r :: rs, p, Size, fuel + 1, h, hwf, hf, _ => by
    have hr := reads_at_record h (hwf r (by simp))
    have h0 : SymNameOffset + r.SymName.length ≠ 0 := by unfold SymNameOffset; omega
    rw [SymLoadSymbolFile.sizeWalk, hr.1]
    simp only [h0, if_false]
    rw [sizeWalk_encoded m rs _ (addULONG Size (SymNameOffset + r.SymName.length)) fuel
      hr.2.2.2 (fun x hx => hwf x (by simp [hx])) (by simpa using hf)
      (by unfold addULONG; exact Nat.mod_lt _ (by decide))]
    congr 1
    have hsz : recsSize (r :: rs) = SymNameOffset + r.SymName.length + recsSize rs := rfl
    unfold addULONG
    rw [Nat.mod_add_mod, hsz]
    congr 1
    omega

/-- The size that `SymLoadSymbolFile` computes for a well-formed file is the
length of the file less the four bytes of the closing zero delta: that delta
lies at the byte indices from the computed size on. -/
theorem size_of_encoded_file (T : Table) (hwf : T.Wf)
    (hsmall : T.sym.LoadedSymbols.length < ULONG_MOD) :
    SymLoadSymbolFile.sizeWalk T.sym.LoadedSymbols (T.sym.LoadedSymbols.length + 1) 4 4 =
      Run.done (T.sym.LoadedSymbols.length - 4) := by
  have hlen : T.sym.LoadedSymbols.length = 4 + (recsSize T.Records + 4) := by
    show (encodeBlob T.TimeDateStamp T.Records).length = _
    simp [encodeBlob, le32_length, recsSize_eq_length]
  have hfuel : T.Records.length < T.sym.LoadedSymbols.length :=
    encodeBlob_length_gt T.TimeDateStamp T.Records
  rw [sizeWalk_encoded T.sym.LoadedSymbols T.Records 4 4 (T.sym.LoadedSymbols.length + 1)
    (drop_four_encodeBlob _ _) hwf (by omega) (by decide)]
  congr 1
  rw [Nat.mod_eq_of_lt (by omega)]
  omega

/-- C14: the symbol file of the scenario of the specification has 34 bytes.
`SymLoadSymbolFile` computes the size 30 for it, yet its size walk reads the
bytes 30 to 33, the closing zero delta, and so does the record walk of a lookup
that finds nothing. -/
theorem size_walk_reads_past_computed_size :
    driverTable.sym.LoadedSymbols.length = 34 ∧
    SymLoadSymbolFile.sizeWalk driverTable.sym.LoadedSymbols 35 4 4 = Run.done 30 ∧
    readULONG driverTable.sym.LoadedSymbols 30 = some 0 ∧
    (∀ i ∈ [30, 31, 32, 33], i ∈ SymLoadSymbolFile.sizeWalkReads driverTable.sym.LoadedSymbols 35 4) ∧
    SymGetSymbolByName driverTable.sym (bytesOf "Nothing") none =
      Run.done ⟨STATUS_NOT_FOUND, none⟩ ∧
    (∀ i ∈ [30, 31, 32, 33],
      i ∈ SymGetSymbolByName.walkReads driverTable.sym (bytesOf "Nothing") 35 4) := by
  decide

/-! ## The nearest lookup and the first minimum -/

theorem firstMin_spec (Address : Nat) :
    ∀ (cs : List Cand) (c : Cand), firstMin Address cs = some c →
      ∃ pre post, cs = pre ++ c :: post ∧
        (∀ x ∈ pre, c.dist Address < x.dist Address) ∧
        (∀ x ∈ post, c.dist Address ≤ x.dist Address)
  | [], _, h => by simp [firstMin] at h
  | x :: cs, c, h => by
    unfold firstMin at h
    cases hm : firstMin Address cs with
    | none =>
      rw [hm] at h
      have hcs : cs = [] := by
        cases cs with
        | nil => rfl
        | cons y ys =>
          unfold firstMin at hm
          split at hm
          · cases hm
          · split at hm <;> cases hm
      cases h
      exact ⟨[], [], by simp [hcs], by simp, by simp⟩
    | some m =>
      rw [hm] at h
      obtain ⟨pre, post, hl, hpre, hpost⟩ := firstMin_spec Address cs m hm
      simp only at h
      split at h
      · rename_i hlt
        cases h
        refine ⟨x :: pre, post, by simp [hl], ?_, hpost⟩
        intro y hy
        rcases List.mem_cons.mp hy with rfl | hy
        · exact hlt
        · exact hpre y hy
      · rename_i hge
        cases h
        refine ⟨[], cs, rfl, by simp, ?_⟩
        intro y hy
        have hmy : m.dist Address ≤ y.dist Address := by
          rw [hl] at hy
          rcases List.mem_append.mp hy with hy | hy
          · exact Nat.le_of_lt (hpre y hy)
          · rcases List.mem_cons.mp hy with rfl | hy
            · exact Nat.le_refl _
            · exact hpost y hy
        omega

/-- Where the first minimum is below `0xFFFFFFFF` the minimum search of the
routine ends on it. -/
theorem pick_eq_firstMin (Address : Nat) (cs : List Cand) (c : Cand)
    (h : firstMin Address cs = some c) (hs : c.dist Address < 0xFFFFFFFF) :
    pick Address ⟨0xFFFFFFFF, none, NULL⟩ cs = ⟨c.dist Address, some c.Info, c.Sym⟩ := by
  obtain ⟨pre, post, hl, hpre, hpost⟩ := firstMin_spec Address cs c h
  rw [hl]
  exact pick_target Address _ pre post c hpre hpost hs

/-- Where the first minimum is below `0xFFFFFFFF`, the nearest lookup, given a
buffer that is large enough, hands back the text of the first-minimum record
and its distance. -/
theorem nearest_refines_firstMin (st : SymState) (ts : List (Nat × Table))
    (fuel Status0 Address SymLen : Nat) (c : Cand)
    (hst : Holds st ts) (hwf : ∀ e ∈ ts, e.2.Wf) (hfuel : ts.length < fuel)
    (hmin : firstMin Address (storeCands ts) = some c) (hs : c.dist Address < 0xFFFFFFFF)
    (hcap : c.text.length ≤ SymLen) (hlen : SymLen < ULONG_MOD) :
    ∃ r, SymGlobGetNearestSymbolByAddress st fuel Status0 Address [] SymLen = Run.done r ∧
      r.Status = Status0 ∧ bufString r.Symbol = some c.text ∧
      r.Distance = some (c.dist Address) ∧ r.SymLen = (c.text.length + 1) % ULONG_MOD := by
  have hloop := loop_eq_pick st Address ts _ ⟨0xFFFFFFFF, none, NULL⟩ fuel hst hwf hfuel
  have hc : c ∈ storeCands ts := by
    obtain ⟨pre, post, hl, _, _⟩ := firstMin_spec Address _ c hmin
    rw [hl]; simp
  have hok := (storeCands_ok st ts _ hst hwf c hc).1
  obtain ⟨post, hfmt⟩ := format_ok st Status0 (c.dist Address) c SymLen hok hcap hlen
  refine ⟨⟨Status0, storedBytes c.T.name c.r.SymName post, (c.text.length + 1) % ULONG_MOD,
    some (c.dist Address)⟩, ?_, rfl, ?_, rfl, rfl⟩
  · unfold SymGlobGetNearestSymbolByAddress
    rw [hloop, pick_eq_firstMin Address _ c hmin hs]
    exact hfmt
  · exact bufString_storedBytes _ _ _ (cstr_not_mem _) hok.2.2.1.2.2

/-- C16: in the store that holds the single record `Init` at `0x1010`, the
record with the minimum distance from `0x100F` is `Init`, at the distance
`0xFFFFFFFF`; the nearest lookup of `0x100F` does not return it: it reads
through the null `MinModule`. -/
theorem nearest_misses_minimum_at_sentinel :
    Holds singleStore [(0x100, singleTable)] ∧
    firstMin 0x100F (storeCands [(0x100, singleTable)]) =
      some ⟨0x100, singleTable, 4, ⟨0x10, bytesOf "Init"⟩⟩ ∧
    Cand.dist 0x100F ⟨0x100, singleTable, 4, ⟨0x10, bytesOf "Init"⟩⟩ = 0xFFFFFFFF ∧
    SymGlobGetNearestSymbolByAddress singleStore 2 STATUS_SUCCESS 0x100F [] 100 = Run.fault := by
  decide

/-- C20: in the scenario of the specification, with a capacity of 100, the
nearest lookup of `0x1025` stores `driver!Init`, the length 12 and the distance
`0x15`, and returns the value its local `Status` happened to hold: with
`STATUS_UNSUCCESSFUL` there it returns `STATUS_UNSUCCESSFUL`, and
`SymWrGetNearestSymbolByAddress` then formats nothing; with `STATUS_SUCCESS`
there it returns `STATUS_SUCCESS`.  Two runs on equal inputs differ in their
status. -/
theorem nearest_status_is_indeterminate :
    SymGlobGetNearestSymbolByAddress driverStore 2 STATUS_UNSUCCESSFUL 0x1025 [] 100 =
      Run.done ⟨STATUS_UNSUCCESSFUL,
        storedBytes (bytesOf "driver") (bytesOf "Init") [⟨0x40, bytesOf "Worker"⟩], 12,
        some 0x15⟩ ∧
    SymGlobGetNearestSymbolByAddress driverStore 2 STATUS_SUCCESS 0x1025 [] 100 =
      Run.done ⟨STATUS_SUCCESS,
        storedBytes (bytesOf "driver") (bytesOf "Init") [⟨0x40, bytesOf "Worker"⟩], 12,
        some 0x15⟩ ∧
    SymWrGetNearestSymbolByAddress driverStore 2 STATUS_UNSUCCESSFUL 0x1025 [] 100 =
      Run.done ⟨STATUS_UNSUCCESSFUL, [], 100⟩ ∧
    STATUS_UNSUCCESSFUL ≠ STATUS_SUCCESS := by
  decide

/-! ## The formatted nearest lookup -/

theorem bufString_length_lt : ∀ (buf : Buffer) (L : List Nat), bufString buf = some L →
    L.length < buf.length
  | [], L, h => by simp [bufString] at h
  | none :: _, L, h => by simp [bufString] at h
  | some b :: rest, L, h => by
    unfold bufString at h
    by_cases hb : b = 0
    · simp [hb] at h; subst h; simp
    · simp only [hb, if_false] at h
      cases hr : bufString rest with
      | none => simp [hr] at h
      | some L2 =>
        simp [hr] at h
        subst h
        have := bufString_length_lt rest L2 hr
        simp
        omega

theorem hexDigits_length_le : ∀ (fuel n : Nat), (hexDigits fuel n).length ≤ fuel
  | 0, _ => by simp [hexDigits]
  | fuel + 1, n => by
    unfold hexDigits
    split
    · simp
    · have := hexDigits_length_le fuel (n / 16)
      simp
      omega

/-- What `SymWrGetNearestSymbolByAddress` does with a successful result of the
nearest lookup that fits `LocalSymbol`. -/
theorem wr_formats (st : SymState)
    (fuel Status0 Address SymLen : Nat) (r : NearestResult) (L : List Nat) (d : Nat)
    (hr : SymGlobGetNearestSymbolByAddress st fuel Status0 Address [] (128 - 1) = Run.done r)
    (hok : NT_SUCCESS r.Status = true) (hloc : r.Symbol.length ≤ 128)
    (hL : bufString r.Symbol = some L) (hd : r.Distance = some d)
    (hmax : SymLen ≤ NTSTRSAFE_MAX_CCH) :
    (SymLen < L.length + (bytesOf "+" ++ hexDigits 8 d).length + 1 →
      SymWrGetNearestSymbolByAddress st fuel Status0 Address [] SymLen =
        Run.done ⟨STATUS_BUFFER_OVERFLOW, [], SymLen⟩) ∧
    (L.length + (bytesOf "+" ++ hexDigits 8 d).length + 1 ≤ SymLen →
      ∃ res, SymWrGetNearestSymbolByAddress st fuel Status0 Address [] SymLen = Run.done res ∧
        res.Status = r.Status ∧
        bufString res.Symbol = some (L ++ bytesOf "+" ++ hexDigits 8 d) ∧
        res.SymLen = L.length + (bytesOf "+" ++ hexDigits 8 d).length + 1) := by
  have hLlen := bufString_length_lt _ _ hL
  have hhex := hexDigits_length_le 8 d
  have h43 : bytesOf "+" = [43] := by decide
  have hmod : (L.length + (bytesOf "+" ++ hexDigits 8 d).length + 1) % ULONG_MOD =
      L.length + (bytesOf "+" ++ hexDigits 8 d).length + 1 := by
    apply Nat.mod_eq_of_lt
    rw [h43]
    simp only [List.length_append, List.length_singleton]
    unfold ULONG_MOD
    omega
  have hnl : ¬ 128 < r.Symbol.length := by omega
  refine ⟨?_, ?_⟩
  · intro hsmall
    unfold SymWrGetNearestSymbolByAddress
    rw [hr]
    simp only [hnl, if_false, hok, if_true, hL, hd, hmod, hsmall]
  · intro hcap
    have hnc : ¬ SymLen < L.length + (bytesOf "+" ++ hexDigits 8 d).length + 1 := by omega
    have hp : ¬ (SymLen = 0 ∨ NTSTRSAFE_MAX_CCH < SymLen) := by omega
    have htake : (L ++ (bytesOf "+" ++ hexDigits 8 d)).take (SymLen - 1) =
        L ++ (bytesOf "+" ++ hexDigits 8 d) := by
      apply List.take_of_length_le
      simp only [List.length_append] at hcap ⊢
      omega
    refine ⟨⟨r.Status, RtlStringCchPrintfA [] SymLen (L ++ (bytesOf "+" ++ hexDigits 8 d)),
      (L.length + (bytesOf "+" ++ hexDigits 8 d).length + 1) % ULONG_MOD⟩, ?_, rfl, ?_, hmod⟩
    · unfold SymWrGetNearestSymbolByAddress
      rw [hr]
      simp only [hnl, if_false, hok, if_true, hL, hd, hmod, hnc]
    · show bufString (RtlStringCchPrintfA [] SymLen (L ++ (bytesOf "+" ++ hexDigits 8 d))) = _
      unfold RtlStringCchPrintfA
      simp only [hp, if_false, htake]
      have hw : writeBytes [] 0 (L ++ (bytesOf "+" ++ hexDigits 8 d) ++ [0]) =
          ((L ++ (bytesOf "+" ++ hexDigits 8 d)) ++ 0 :: []).map some := by
        simp [writeBytes]
      rw [hw, bufString_map]
      · simp
      · have h1 := bufString_not_mem _ _ hL
        have h2 := hexDigits_not_mem 8 d
        simp [h1, h2, h43]

theorem text_length (c : Cand) :
    c.text.length = (cstr c.T.sym.ModName).length + 1 + c.r.SymName.length := by
  have h33 : bytesOf "!" = [33] := by decide
  simp [Cand.text, Table.name, Table.sym, h33]
  omega

/-- Formatting a record whose text does not fit the capacity. -/
theorem format_short_at (st : SymState) (Status0 d : Nat) (c : Cand) (post : List SymRec)
    (Symbol : Buffer) (SymLen : Nat) (hnull : c.Sym ≠ NULL)
    (hpool : st.pool c.Sym = some c.T.sym) (hr : c.r.Wf)
    (hdrop : c.T.sym.LoadedSymbols.drop c.Info = encodeRecs (c.r :: post))
    (hcap : SymLen < c.text.length) (hlen : c.text.length < ULONG_MOD) :
    SymGlobGetNearestSymbolByAddress.format st Status0 ⟨d, some c.Info, c.Sym⟩ Symbol SymLen =
      Run.done ⟨STATUS_BUFFER_OVERFLOW, Symbol, SymLen, none⟩ := by
  have hrd := reads_at_record hdrop hr
  have htl := text_length c
  have hl := format_len (cstr c.T.sym.ModName).length c.r.SymName.length (by omega)
  unfold SymGlobGetNearestSymbolByAddress.format
  simp only [hnull, if_false, hpool, hrd.1, hl]
  have hcap2 : SymLen < (cstr c.T.sym.ModName).length + 1 + c.r.SymName.length := by omega
  simp only [hcap2, if_true]

/-- Formatting a record whose text fits the capacity, the records after it in
the file being `post`. -/
theorem format_ok_at (st : SymState) (Status0 d : Nat) (c : Cand) (post : List SymRec)
    (SymLen : Nat) (hnull : c.Sym ≠ NULL)
    (hpool : st.pool c.Sym = some c.T.sym) (hr : c.r.Wf)
    (hdrop : c.T.sym.LoadedSymbols.drop c.Info = encodeRecs (c.r :: post))
    (hcap : c.text.length ≤ SymLen) (hlen : SymLen < ULONG_MOD) :
    SymGlobGetNearestSymbolByAddress.format st Status0 ⟨d, some c.Info, c.Sym⟩ [] SymLen =
      Run.done ⟨Status0, storedBytes c.T.name c.r.SymName post,
        (c.text.length + 1) % ULONG_MOD, some d⟩ := by
  have hrd := reads_at_record hdrop hr
  have htl := text_length c
  have hl := format_len (cstr c.T.sym.ModName).length c.r.SymName.length (by omega)
  unfold SymGlobGetNearestSymbolByAddress.format
  simp only [hnull, if_false, hpool, hrd.1, hl]
  have hcap2 : ¬ SymLen < (cstr c.T.sym.ModName).length + 1 + c.r.SymName.length := by omega
  simp only [hcap2, if_false, cstrAt_of_drop hrd.2.2.1 hr.2.2]
  rw [format_buffer _ _ _ (cstr_not_mem _), htl]
  rfl

theorem candsFrom_post (a : Nat) (T : Table) :
    ∀ (rs : List SymRec) (p : Nat), T.sym.LoadedSymbols.drop p = encodeRecs rs →
      (∀ r ∈ rs, r.Wf) → ∀ c ∈ candsFrom a T p rs,
        ∃ post, c.T.sym.LoadedSymbols.drop c.Info = encodeRecs (c.r :: post) ∧
          ∀ x ∈ post, x ∈ rs
  | [], _, _, _, c, hc => by simp [candsFrom] at hc
  | r :: rs, p, h, hwf, c, hc => by
    have hr := reads_at_record h (hwf r (by simp))
    rcases List.mem_cons.mp hc with rfl | hc
    · exact ⟨rs, h, fun x hx => by simp [hx]⟩
    · obtain ⟨post, h1, h2⟩ :=
        candsFrom_post a T rs _ hr.2.2.2 (fun x hx => hwf x (by simp [hx])) c hc
      exact ⟨post, h1, fun x hx => by simp [h2 x hx]⟩

theorem storeCands_post (st : SymState) :
    ∀ (ts : List (Nat × Table)) (p : Nat), Chain st p ts → (∀ e ∈ ts, e.2.Wf) →
      ∀ c ∈ storeCands ts, ∃ e ∈ ts, ∃ post,
        c.T.sym.LoadedSymbols.drop c.Info = encodeRecs (c.r :: post) ∧
          ∀ x ∈ post, x ∈ e.2.Records
  | [], _, _, _, c, hc => by simp [storeCands] at hc
  | e :: ts, p, hch, hwf, c, hc => by
    obtain ⟨_, _, _, _, hrest⟩ := hch
    rcases List.mem_append.mp hc with hc | hc
    · obtain ⟨post, h1, h2⟩ := candsFrom_post e.1 e.2 e.2.Records 4 (drop_four_encodeBlob _ _)
        (hwf e (by simp)) c hc
      exact ⟨e, by simp, post, h1, h2⟩
    · obtain ⟨e2, he2, post, h1, h2⟩ :=
        storeCands_post st ts _ hrest (fun x hx => hwf x (by simp [hx])) c hc
      exact ⟨e2, by simp [he2], post, h1, h2⟩

theorem cstr_encodeRecs_short (post : List SymRec)
    (h : ∀ x ∈ post, SymNameOffset + x.SymName.length < 256) :
    (cstr (encodeRecs post)).length ≤ 1 := by
  cases post with
  | nil => simp [encodeRecs, le32, cstr]
  | cons r rs =>
    have hr := h r (by simp)
    have h1 : (SymNameOffset + r.SymName.length) / 256 % 256 = 0 := by omega
    simp only [encodeRecs, encodeRec, le32, List.cons_append, List.nil_append, cstr]
    rw [List.takeWhile_cons]
    split
    · rw [List.takeWhile_cons]
      simp [h1]
    · simp

theorem storedBytes_length (M N : List Nat) (post : List SymRec) :
    (storedBytes M N post).length =
      (M ++ bytesOf "!" ++ N).length + 1 + (cstr (encodeRecs post)).length := by
  simp [storedBytes]
  omega

theorem copied_eq (c : Cand) (post : List SymRec) (hr : c.r.Wf)
    (hdrop : c.T.sym.LoadedSymbols.drop c.Info = encodeRecs (c.r :: post)) :
    c.copied = c.r.SymName ++ cstr (encodeRecs post) := by
  unfold Cand.copied
  rw [(reads_at_record hdrop hr).2.2.1, cstr_append_of_not_mem _ hr.2.2]

theorem stored_length (c : Cand) (post : List SymRec) (hr : c.r.Wf)
    (hdrop : c.T.sym.LoadedSymbols.drop c.Info = encodeRecs (c.r :: post)) :
    c.stored.length = c.text.length + (cstr (encodeRecs post)).length := by
  unfold Cand.stored Cand.text
  rw [copied_eq c post hr hdrop]
  simp only [List.length_append]
  omega

/-- The nearest lookup as `SymWrGetNearestSymbolByAddress` calls it, on
`LocalSymbol` with a length of 127, for the first record of minimum distance:
an overflow when the text is longer than 127 characters, and otherwise the
text, with `post` the records that follow the record in its file. -/
theorem nearest_local (st : SymState) (ts : List (Nat × Table))
    (fuel Status0 Address : Nat) (c : Cand)
    (hst : Holds st ts) (hwf : ∀ e ∈ ts, e.2.Wf) (hfuel : ts.length < fuel)
    (hmin : firstMin Address (storeCands ts) = some c) (hs : c.dist Address < 0xFFFFFFFF) :
    ∃ post, c.r.Wf ∧ c.stored.length = c.text.length + (cstr (encodeRecs post)).length ∧
      (127 < c.text.length → c.text.length < ULONG_MOD →
        SymGlobGetNearestSymbolByAddress st fuel Status0 Address [] (128 - 1) =
          Run.done ⟨STATUS_BUFFER_OVERFLOW, [], 128 - 1, none⟩) ∧
      (c.text.length ≤ 127 →
        SymGlobGetNearestSymbolByAddress st fuel Status0 Address [] (128 - 1) =
          Run.done ⟨Status0, storedBytes c.T.name c.r.SymName post,
            (c.text.length + 1) % ULONG_MOD, some (c.dist Address)⟩) := by
  have hloop := loop_eq_pick st Address ts _ ⟨0xFFFFFFFF, none, NULL⟩ fuel hst hwf hfuel
  have hpick := pick_eq_firstMin Address _ c hmin hs
  have hc : c ∈ storeCands ts := by
    obtain ⟨pre, post, hl, _, _⟩ := firstMin_spec Address _ c hmin
    rw [hl]; simp
  obtain ⟨hnull, hpool, hr, _⟩ := (storeCands_ok st ts _ hst hwf c hc).1
  obtain ⟨e, he, post, hdrop, hpost⟩ := storeCands_post st ts _ hst hwf c hc
  refine ⟨post, hr, stored_length c post hr hdrop, ?_, ?_⟩
  · intro hlong hlt
    unfold SymGlobGetNearestSymbolByAddress
    rw [hloop, hpick]
    exact format_short_at st Status0 _ c post [] _ hnull hpool hr hdrop (by omega) hlt
  · intro hshort
    unfold SymGlobGetNearestSymbolByAddress
    rw [hloop, hpick]
    exact format_ok_at st Status0 _ c post _ hnull hpool hr hdrop (by omega) (by decide)

/-- A text of more than 127 characters does not fit `LocalSymbol`: the routine
returns `STATUS_BUFFER_OVERFLOW` and stores nothing, whatever the capacity. -/
theorem wr_rejects_long (st : SymState) (ts : List (Nat × Table))
    (fuel Status0 Address SymLen : Nat) (c : Cand)
    (hst : Holds st ts) (hwf : ∀ e ∈ ts, e.2.Wf) (hfuel : ts.length < fuel)
    (hmin : firstMin Address (storeCands ts) = some c) (hs : c.dist Address < 0xFFFFFFFF)
    (hlong : 127 < c.text.length) (hlt : c.text.length < ULONG_MOD) :
    SymWrGetNearestSymbolByAddress st fuel Status0 Address [] SymLen =
      Run.done ⟨STATUS_BUFFER_OVERFLOW, [], SymLen⟩ := by
  obtain ⟨post, _, _, hinner, _⟩ := nearest_local st ts fuel Status0 Address c hst hwf hfuel hmin hs
  unfold SymWrGetNearestSymbolByAddress
  rw [hinner hlong hlt]
  have hno : NT_SUCCESS STATUS_BUFFER_OVERFLOW = false := by decide
  simp [hno]

/-- When what the nearest lookup stores stays inside `LocalSymbol`, its status
is a success value and the capacity does not exceed `NTSTRSAFE_MAX_CCH`, the
routine returns `STATUS_BUFFER_OVERFLOW` and stores nothing below the length
of the formatted string plus one, and stores the formatted string from there
on. -/
theorem wr_contract (st : SymState) (ts : List (Nat × Table))
    (fuel Status0 Address SymLen : Nat) (c : Cand)
    (hst : Holds st ts) (hwf : ∀ e ∈ ts, e.2.Wf) (hfuel : ts.length < fuel)
    (hmin : firstMin Address (storeCands ts) = some c) (hs : c.dist Address < 0xFFFFFFFF)
    (hfit : c.stored.length ≤ 127) (hok : NT_SUCCESS Status0 = true)
    (hmax : SymLen ≤ NTSTRSAFE_MAX_CCH) :
    (SymLen < (c.text ++ bytesOf "+" ++ hexDigits 8 (c.dist Address)).length + 1 →
      SymWrGetNearestSymbolByAddress st fuel Status0 Address [] SymLen =
        Run.done ⟨STATUS_BUFFER_OVERFLOW, [], SymLen⟩) ∧
    ((c.text ++ bytesOf "+" ++ hexDigits 8 (c.dist Address)).length + 1 ≤ SymLen →
      ∃ res, SymWrGetNearestSymbolByAddress st fuel Status0 Address [] SymLen = Run.done res ∧
        res.Status = Status0 ∧
        bufString res.Symbol = some (c.text ++ bytesOf "+" ++ hexDigits 8 (c.dist Address)) ∧
        res.SymLen = (c.text ++ bytesOf "+" ++ hexDigits 8 (c.dist Address)).length + 1) := by
  obtain ⟨post, hr, hlen, _, hinner⟩ :=
    nearest_local st ts fuel Status0 Address c hst hwf hfuel hmin hs
  have hstr : bufString (storedBytes c.T.name c.r.SymName post) = some c.text :=
    bufString_storedBytes _ _ _ (cstr_not_mem _) hr.2.2
  have hloc : (storedBytes c.T.name c.r.SymName post).length ≤ 128 := by
    rw [storedBytes_length]
    have : (c.T.name ++ bytesOf "!" ++ c.r.SymName).length = c.text.length := rfl
    omega
  have hw := wr_formats st fuel Status0 Address SymLen _ c.text (c.dist Address)
    (hinner (by omega)) hok hloc hstr rfl hmax
  have hlen2 : (c.text ++ bytesOf "+" ++ hexDigits 8 (c.dist Address)).length =
      c.text.length + (bytesOf "+" ++ hexDigits 8 (c.dist Address)).length := by
    simp [List.length_append]
  rw [hlen2]
  exact hw

/-- A success status comes from the path that formats: with a text that fits
a `ULONG` and a capacity that does not exceed `NTSTRSAFE_MAX_CCH`, a result
with a success status holds the formatted string. -/
theorem wr_success_formats (st : SymState) (ts : List (Nat × Table))
    (fuel Status0 Address SymLen : Nat) (c : Cand)
    (hst : Holds st ts) (hwf : ∀ e ∈ ts, e.2.Wf) (hfuel : ts.length < fuel)
    (hmin : firstMin Address (storeCands ts) = some c) (hs : c.dist Address < 0xFFFFFFFF)
    (hlt : c.text.length < ULONG_MOD) (hmax : SymLen ≤ NTSTRSAFE_MAX_CCH)
    (res : SymbolResult)
    (hrun : SymWrGetNearestSymbolByAddress st fuel Status0 Address [] SymLen = Run.done res)
    (hsucc : NT_SUCCESS res.Status = true) :
    res.Status = Status0 ∧
    bufString res.Symbol = some (c.text ++ bytesOf "+" ++ hexDigits 8 (c.dist Address)) ∧
    res.SymLen = (c.text ++ bytesOf "+" ++ hexDigits 8 (c.dist Address)).length + 1 := by
  have hno : NT_SUCCESS STATUS_BUFFER_OVERFLOW = false := by decide
  by_cases hlong : 127 < c.text.length
  · rw [wr_rejects_long st ts fuel Status0 Address SymLen c hst hwf hfuel hmin hs hlong hlt] at hrun
    have := Run.done.inj hrun
    subst this
    rw [hno] at hsucc
    cases hsucc
  · obtain ⟨post, hr, hlen, _, hinner⟩ :=
      nearest_local st ts fuel Status0 Address c hst hwf hfuel hmin hs
    have hin := hinner (by omega)
    by_cases hfit : c.stored.length ≤ 127
    · by_cases hok : NT_SUCCESS Status0 = true
      · have hw := wr_contract st ts fuel Status0 Address SymLen c hst hwf hfuel hmin hs hfit hok hmax
        by_cases hcap : SymLen < (c.text ++ bytesOf "+" ++ hexDigits 8 (c.dist Address)).length + 1
        · rw [hw.1 hcap] at hrun
          have := Run.done.inj hrun
          subst this
          rw [hno] at hsucc
          cases hsucc
        · obtain ⟨res2, hrun2, h1, h2, h3⟩ := hw.2 (by omega)
          rw [hrun2] at hrun
          have := Run.done.inj hrun
          subst this
          exact ⟨h1, h2, h3⟩
      · have hloc : ¬ 128 < (storedBytes c.T.name c.r.SymName post).length := by
          rw [storedBytes_length]
          have : (c.T.name ++ bytesOf "!" ++ c.r.SymName).length = c.text.length := rfl
          omega
        unfold SymWrGetNearestSymbolByAddress at hrun
        rw [hin] at hrun
        simp only [hloc, if_false, hok] at hrun
        have := Run.done.inj hrun
        subst this
        exact absurd hsucc hok
    · have hloc : 128 < (storedBytes c.T.name c.r.SymName post).length := by
        rw [storedBytes_length]
        have : (c.T.name ++ bytesOf "!" ++ c.r.SymName).length = c.text.length := rfl
        omega
      unfold SymWrGetNearestSymbolByAddress at hrun
      rw [hin] at hrun
      simp only [hloc, if_true] at hrun
      cases hrun

/-! ## Claims on the formatted nearest lookup -/

/-- C10, amended: on a store of well-formed tables let the nearest record be
the first record with the minimum wraparound distance, that distance being
below `0xFFFFFFFF`, and let `F` be its text `<module>!<name>` followed by `+`
and the distance in upper-case hexadecimal digits, without `0x`.  When what
the nearest lookup stores stays inside `LocalSymbol`, the local `Status` of the
nearest lookup holds a success value and the capacity is at least the length
of `F` plus one and at most `NTSTRSAFE_MAX_CCH`, the routine returns that
success value and the caller's buffer holds `F`.  And with such a capacity,
whenever the routine returns a success status, the caller's buffer holds
`F`. -/
theorem formatted_nearest_appends_hex_distance (st : SymState) (ts : List (Nat × Table))
    (fuel Status0 Address SymLen : Nat) (c : Cand)
    (hst : Holds st ts) (hwf : ∀ e ∈ ts, e.2.Wf) (hfuel : ts.length < fuel)
    (hmin : firstMin Address (storeCands ts) = some c) (hs : c.dist Address < 0xFFFFFFFF)
    (hmax : SymLen ≤ NTSTRSAFE_MAX_CCH) :
    (c.stored.length ≤ 127 → NT_SUCCESS Status0 = true →
      (c.text ++ bytesOf "+" ++ hexDigits 8 (c.dist Address)).length + 1 ≤ SymLen →
      ∃ res, SymWrGetNearestSymbolByAddress st fuel Status0 Address [] SymLen = Run.done res ∧
        res.Status = Status0 ∧
        bufString res.Symbol = some (c.text ++ bytesOf "+" ++ hexDigits 8 (c.dist Address)) ∧
        res.SymLen = (c.text ++ bytesOf "+" ++ hexDigits 8 (c.dist Address)).length + 1) ∧
    (c.text.length < ULONG_MOD → ∀ res,
      SymWrGetNearestSymbolByAddress st fuel Status0 Address [] SymLen = Run.done res →
      NT_SUCCESS res.Status = true →
      res.Status = Status0 ∧
      bufString res.Symbol = some (c.text ++ bytesOf "+" ++ hexDigits 8 (c.dist Address)) ∧
      res.SymLen = (c.text ++ bytesOf "+" ++ hexDigits 8 (c.dist Address)).length + 1) :=
  ⟨fun hfit hok hcap =>
      (wr_contract st ts fuel Status0 Address SymLen c hst hwf hfuel hmin hs hfit hok hmax).2 hcap,
    fun hlt res hrun hsucc =>
      wr_success_formats st ts fuel Status0 Address SymLen c hst hwf hfuel hmin hs hlt hmax
        res hrun hsucc⟩

/-- C10, witness: the scenario of the specification, the query `0x1025` gives
`driver!Init+15`. -/
theorem formatted_nearest_appends_hex_distance_witness :
    (∃ res, SymWrGetNearestSymbolByAddress driverStore 2 STATUS_SUCCESS 0x1025 [] 100 =
        Run.done res ∧
      res.Status = STATUS_SUCCESS ∧
      bufString res.Symbol = some (bytesOf "driver!Init+15") ∧ res.SymLen = 15) ∧
    bufString (RtlStringCchPrintfA [] 100 (bytesOf "driver!Init+15")) =
      some (bytesOf "driver!Init+15") :=
  ⟨(formatted_nearest_appends_hex_distance driverStore [(0x100, driverTable)] 2 STATUS_SUCCESS
      0x1025 100 ⟨0x100, driverTable, 4, ⟨0x10, bytesOf "Init"⟩⟩
      (by decide) (by decide) (by decide) (by decide) (by decide) (by decide)).1
      (by decide) (by decide) (by decide),
   ((formatted_nearest_appends_hex_distance driverStore [(0x100, driverTable)] 2 STATUS_SUCCESS
      0x1025 100 ⟨0x100, driverTable, 4, ⟨0x10, bytesOf "Init"⟩⟩
      (by decide) (by decide) (by decide) (by decide) (by decide) (by decide)).2
      (by decide)
      ⟨STATUS_SUCCESS, RtlStringCchPrintfA [] 100 (bytesOf "driver!Init+15"), 15⟩
      (by decide) (by decide)).2.1⟩

set_option maxRecDepth 20000 in
/-- C15, counterexample: in the store whose only record has a name of 130
characters the formatted string for the query `0x1015` has 139 characters, and
with a capacity of 1000 the routine returns `STATUS_BUFFER_OVERFLOW` and writes
nothing. -/
theorem formatted_nearest_rejects_long_name :
    Holds longStore [(0x100, longTable)] ∧
    firstMin 0x1015 (storeCands [(0x100, longTable)]) =
      some ⟨0x100, longTable, 4, ⟨0x10, List.replicate 130 65⟩⟩ ∧
    (Cand.text ⟨0x100, longTable, 4, ⟨0x10, List.replicate 130 65⟩⟩ ++ bytesOf "+" ++
      hexDigits 8 (Cand.dist 0x1015 ⟨0x100, longTable, 4, ⟨0x10, List.replicate 130 65⟩⟩)).length
      + 1 = 140 ∧
    SymWrGetNearestSymbolByAddress longStore 2 STATUS_SUCCESS 0x1015 [] 1000 =
      Run.done ⟨STATUS_BUFFER_OVERFLOW, [], 1000⟩ := by
  decide

/-- C15, amended: on a store of well-formed tables let the nearest record be
the first record with the minimum wraparound distance, that distance being
below `0xFFFFFFFF`, and let `F` be its text `<module>!<name>` followed by `+`
and the distance in hexadecimal.  When `<module>!<name>` has more than 127
characters the routine returns `STATUS_BUFFER_OVERFLOW` and writes nothing,
whatever the capacity.  When what the nearest lookup stores into `LocalSymbol`
(the module, `!`, and the name with the bytes that follow it in the file up to
the first NUL) has at most 127 characters, the local `Status` of the nearest
lookup holds a success value and the capacity does not exceed
`NTSTRSAFE_MAX_CCH`, the routine returns `STATUS_BUFFER_OVERFLOW` and writes
nothing when the capacity is below the length of `F` plus one, and otherwise
returns the success value and writes `F` untruncated. -/
theorem formatted_nearest_buffer_contract (st : SymState) (ts : List (Nat × Table))
    (fuel Status0 Address SymLen : Nat) (c : Cand)
    (hst : Holds st ts) (hwf : ∀ e ∈ ts, e.2.Wf) (hfuel : ts.length < fuel)
    (hmin : firstMin Address (storeCands ts) = some c) (hs : c.dist Address < 0xFFFFFFFF) :
    (127 < c.text.length → c.text.length < ULONG_MOD →
      SymWrGetNearestSymbolByAddress st fuel Status0 Address [] SymLen =
        Run.done ⟨STATUS_BUFFER_OVERFLOW, [], SymLen⟩) ∧
    (c.stored.length ≤ 127 →
      NT_SUCCESS Status0 = true → SymLen ≤ NTSTRSAFE_MAX_CCH →
      (SymLen < (c.text ++ bytesOf "+" ++ hexDigits 8 (c.dist Address)).length + 1 →
        SymWrGetNearestSymbolByAddress st fuel Status0 Address [] SymLen =
          Run.done ⟨STATUS_BUFFER_OVERFLOW, [], SymLen⟩) ∧
      ((c.text ++ bytesOf "+" ++ hexDigits 8 (c.dist Address)).length + 1 ≤ SymLen →
        ∃ res, SymWrGetNearestSymbolByAddress st fuel Status0 Address [] SymLen = Run.done res ∧
          res.Status = Status0 ∧
          bufString res.Symbol = some (c.text ++ bytesOf "+" ++ hexDigits 8 (c.dist Address)) ∧
          res.SymLen = (c.text ++ bytesOf "+" ++ hexDigits 8 (c.dist Address)).length + 1)) :=
  ⟨fun hlong hlt =>
      wr_rejects_long st ts fuel Status0 Address SymLen c hst hwf hfuel hmin hs hlong hlt,
    fun hfit hok hmax =>
      wr_contract st ts fuel Status0 Address SymLen c hst hwf hfuel hmin hs hfit hok hmax⟩

set_option maxRecDepth 100000 in
/-- C15, witness: in the store that holds `Init` followed by a record with a
delta of 258, the nearest lookup of `0x1015` copies `Init` and the two non-zero
bytes of that delta; with the capacity 14, the length of `driver!Init+5` plus
one, the routine writes `driver!Init+5`, and with the capacity 13 it returns
`STATUS_BUFFER_OVERFLOW` and writes nothing. -/
theorem formatted_nearest_buffer_contract_witness :
    (∃ res, SymWrGetNearestSymbolByAddress bigStore 2 STATUS_SUCCESS 0x1015 [] 14 =
        Run.done res ∧
      res.Status = STATUS_SUCCESS ∧
      bufString res.Symbol = some (bytesOf "driver!Init+5") ∧ res.SymLen = 14) ∧
    SymWrGetNearestSymbolByAddress bigStore 2 STATUS_SUCCESS 0x1015 [] 13 =
      Run.done ⟨STATUS_BUFFER_OVERFLOW, [], 13⟩ :=
  ⟨((formatted_nearest_buffer_contract bigStore [(0x100, bigTable)] 2 STATUS_SUCCESS
      0x1015 14 ⟨0x100, bigTable, 4, ⟨0x10, bytesOf "Init"⟩⟩
      (by decide) (by decide) (by decide) (by decide) (by decide)).2
        (by decide) (by decide) (by decide)).2 (by decide),
   ((formatted_nearest_buffer_contract bigStore [(0x100, bigTable)] 2 STATUS_SUCCESS
      0x1015 13 ⟨0x100, bigTable, 4, ⟨0x10, bytesOf "Init"⟩⟩
      (by decide) (by decide) (by decide) (by decide) (by decide)).2
        (by decide) (by decide) (by decide)).1 (by decide)⟩

/-! ## The module name of a loaded table -/

theorem indexOf_skip (c : Nat) (l r : List Nat) (hl : c ∉ l) :
    (l ++ c :: r).indexOf? c = some l.length := by
  induction l with
  | nil => simp [List.indexOf?, List.findIdx?_cons]
  | cons x xs ih =>
    have hx : ¬ x = c := fun h => hl (by simp [h])
    have hxs : c ∉ xs := fun h => hl (by simp [h])
    have := ih hxs
    simp only [List.indexOf?] at this ⊢
    simp [List.findIdx?_cons, hx, this]

theorem indexOf_none (c : Nat) (l : List Nat) (hl : c ∉ l) : l.indexOf? c = none := by
  induction l with
  | nil => simp [List.indexOf?]
  | cons x xs ih =>
    have hx : ¬ x = c := fun h => hl (by simp [h])
    have hxs : c ∉ xs := fun h => hl (by simp [h])
    have := ih hxs
    simp only [List.indexOf?] at this ⊢
    simp [List.findIdx?_cons, hx, this]

theorem wcsrchr_last (c : Nat) (pre suf : List Nat) (hs : c ∉ suf) :
    wcsrchr (pre ++ c :: suf) c = some pre.length := by
  unfold wcsrchr
  have hr : (pre ++ c :: suf).reverse = suf.reverse ++ c :: pre.reverse := by simp
  rw [hr, indexOf_skip c suf.reverse pre.reverse (by simpa using hs)]
  simp

theorem wcsrchr_none (c : Nat) (s : List Nat) (hs : c ∉ s) : wcsrchr s c = none := by
  unfold wcsrchr
  rw [indexOf_none c s.reverse (by simpa using hs)]

theorem strncpy_length (src : List Nat) (n : Nat) : (strncpy src n).length = n := by
  simp [strncpy]

theorem strncpy_take (M : List Nat) (n : Nat) (h0 : 0 ∉ M) (hn : n ≤ M.length) :
    strncpy (M ++ [0]) n = M.take n := by
  unfold strncpy
  rw [cstr_append_nul [] h0, List.take_append_of_le_length hn]

theorem cstr_append_length_le (X Y : List Nat) :
    (cstr (X ++ Y)).length ≤ X.length + (cstr Y).length := by
  induction X with
  | nil => simp
  | cons x xs ih =>
    by_cases hx : x = 0
    · subst hx
      simp [cstr]
    · have : cstr (x :: xs ++ Y) = x :: cstr (xs ++ Y) := by
        simp [cstr, List.takeWhile_cons, hx]
      rw [this]
      simp only [List.length_cons]
      omega

/-- The length `alen` that `SymLoadSymbolFile` computes is at most 31. -/
theorem deriveModName_shape (env : Env) (M : List Nat) :
    ∃ alen, alen ≤ 31 ∧
      deriveModName env M = strncpy (env.RtlUnicodeStringToAnsiString M) alen ++ [0] := by
  unfold deriveModName
  cases wcsrchr M 46 with
  | none => exact ⟨_, Nat.min_le_right _ _, rfl⟩
  | some d => exact ⟨_, Nat.min_le_right _ _, rfl⟩

theorem deriveModName_of_alen (env : Env) (M : List Nat) (n : Nat)
    (hconv : env.RtlUnicodeStringToAnsiString M = M ++ [0]) (h0 : 0 ∉ M)
    (hn : n ≤ M.length)
    (halen : (match wcsrchr M 46 with
      | some dot => min dot 31
      | none => min M.length 31) = min n 31) :
    cstr (deriveModName env M) = M.take (min n 31) := by
  unfold deriveModName
  simp only [halen]
  rw [hconv, strncpy_take M _ h0 (Nat.le_trans (Nat.min_le_left _ _) hn)]
  exact cstr_append_nul [] (fun h => h0 (List.mem_of_mem_take h))

/-- A successful load stores the derived module name in the new table. -/
theorem load_stores_derived_name (env : Env) (st : SymState) (M : List Nat)
    (ImageBase : Nat) (st2 : SymState)
    (hrun : SymLoadSymbolFile env st M ImageBase = Run.done (STATUS_SUCCESS, st2)) :
    ∃ t, st2.pool env.ExAllocatePool = some t ∧ t.ModName = deriveModName env M := by
  unfold SymLoadSymbolFile at hrun
  simp only at hrun
  repeat' split at hrun
  all_goals first
    | (cases hrun; done)
    | (cases hrun
       exact ⟨_, if_pos rfl, rfl⟩)

/-! ## Claim on the module name -/

/-- C19, as written: the stored name is not the requested name with its path
stripped.  For the requested name `drivers\driver.sys` the load stores
`drivers\driver`, which is not `driver`. -/
theorem module_name_keeps_path :
    cstr (deriveModName driverEnv (bytesOf "drivers" ++ [92] ++ bytesOf "driver.sys")) =
      bytesOf "drivers" ++ [92] ++ bytesOf "driver" ∧
    cstr (deriveModName driverEnv (bytesOf "drivers" ++ [92] ++ bytesOf "driver.sys")) ≠
      bytesOf "driver" ∧
    ∃ st2 t, SymLoadSymbolFile driverEnv (SymInitialize bootState)
        (bytesOf "drivers" ++ [92] ++ bytesOf "driver.sys") NULL =
        Run.done (STATUS_SUCCESS, st2) ∧
      st2.pool 0x100 = some t ∧
      cstr t.ModName = bytesOf "drivers" ++ [92] ++ bytesOf "driver" := by
  refine ⟨by decide, by decide, _, _, rfl, rfl, by decide⟩

/-- C19, amended: the name a successful load stores in the table is the
derived name; it is at most 31 characters long and NUL-terminated within the
32-byte field.  When the conversion leaves the characters of the requested
name (none of them NUL) followed by a NUL, the stored name is the requested
name without everything from its last dot on, truncated to 31 characters, and
a requested name without a dot is kept whole up to 31 characters.  A path in
the requested name is kept. -/
theorem module_name_strips_extension (env : Env) (M : List Nat)
    (hconv : env.RtlUnicodeStringToAnsiString M = M ++ [0]) (h0 : 0 ∉ M) :
    (∀ st ImageBase st2,
      SymLoadSymbolFile env st M ImageBase = Run.done (STATUS_SUCCESS, st2) →
      ∃ t, st2.pool env.ExAllocatePool = some t ∧ t.ModName = deriveModName env M) ∧
    (cstr (deriveModName env M)).length ≤ 31 ∧
    (deriveModName env M).length ≤ 32 ∧
    (deriveModName env M).getLast? = some 0 ∧
    (∀ pre suf, M = pre ++ 46 :: suf → 46 ∉ suf →
      cstr (deriveModName env M) = pre.take 31) ∧
    (46 ∉ M → cstr (deriveModName env M) = M.take 31) := by
  obtain ⟨alen, hle, hshape⟩ := deriveModName_shape env M
  refine ⟨fun st ImageBase st2 h => load_stores_derived_name env st M ImageBase st2 h,
    ?_, ?_, ?_, ?_, ?_⟩
  · rw [hshape]
    have h := cstr_append_length_le (strncpy (env.RtlUnicodeStringToAnsiString M) alen) [0]
    rw [strncpy_length] at h
    have h2 : (cstr [0]).length = 0 := by decide
    omega
  · rw [hshape]
    simp [strncpy_length]
    omega
  · rw [hshape]
    simp
  · intro pre suf hM hsuf
    have hw := wcsrchr_last 46 pre suf hsuf
    rw [← hM] at hw
    have h := deriveModName_of_alen env M pre.length hconv h0 (by rw [hM]; simp) (by rw [hw])
    rw [h, hM, List.take_append_of_le_length (Nat.min_le_left _ _)]
    by_cases hp : pre.length ≤ 31
    · rw [Nat.min_eq_left hp, List.take_of_length_le (Nat.le_refl _), List.take_of_length_le hp]
    · rw [Nat.min_eq_right (by omega)]
  · intro hdot
    have hw := wcsrchr_none 46 M hdot
    have h := deriveModName_of_alen env M M.length hconv h0 (Nat.le_refl _) (by rw [hw])
    rw [h]
    by_cases hp : M.length ≤ 31
    · rw [Nat.min_eq_left hp, List.take_of_length_le (Nat.le_refl _), List.take_of_length_le hp]
    · rw [Nat.min_eq_right (by omega)]

/-- C19, witness: the requested name `driver.sys` gives `driver`. -/
theorem module_name_strips_extension_witness :
    cstr (deriveModName driverEnv (bytesOf "driver.sys")) = (bytesOf "driver").take 31 ∧
    (bytesOf "driver").take 31 = bytesOf "driver" :=
  ⟨(module_name_strips_extension driverEnv (bytesOf "driver.sys") rfl (by decide)).2.2.2.2.1
      (bytesOf "driver") (bytesOf "sys") (by decide) (by decide),
    by decide⟩

end NGdbg
